import Mathlib

/-!
# node-sparql-client: term formatting, preamble and statement classification

A shallow embedding of `lib/term/literal.js` and `lib/client.js`.

JavaScript strings are sequences of UTF-16 code units; they are modelled as
lists of natural numbers.  Regular expressions of the source are values of
the type `Regex` below and are run by a backtracking matcher that lists the
results in the priority order of the JavaScript matcher, so that the first
result is the match JavaScript reports.
-/

namespace SparqlClient

/-- A JavaScript string: its UTF-16 code units. -/
abbrev JSString := List Nat

/-- The code units of a string literal (used for texts of the Basic Multilingual Plane). -/
def str (s : String) : JSString := s.toList.map Char.toNat

/-- What a call can throw. -/
inductive Err where
  | assertion
  | typeError
  | nullCharacter
  | malformedQuery
  | suspiciousURI
  | invalidArguments
  | unknownPrefix
  | wrongNumberOfArguments
  | invalidLanguageTag
  | invalidDatatype
  deriving DecidableEq, Repr

deriving instance DecidableEq for Except

/-! ## Regular expressions -/

/-- The fragment of JavaScript regular expressions used by the source. -/
inductive Regex where
  /-- one code unit of a class -/
  | cls (p : Nat → Bool)
  /-- the empty pattern -/
  | eps
  /-- `ab` -/
  | seq (a b : Regex)
  /-- `a|b` -/
  | alt (a b : Regex)
  /-- greedy `a*` -/
  | star (a : Regex)
  /-- negative lookahead `(?!a)` -/
  | nla (a : Regex)
  /-- capture group number one, `(a)` -/
  | group (a : Regex)
  /-- `^` without the multiline flag -/
  | bol
  /-- `$` without the multiline flag -/
  | eol

/-- A matcher state: the number of code units consumed so far, the rest of the
input, and the text of capture group one. -/
structure MState where
  pos : Nat
  rest : JSString
  cap : Option JSString
  deriving DecidableEq, Repr

/-- Greedy iteration of `body`: every way to go on after one more iteration that
consumed something, then the way that stops here.  An iteration that consumes
nothing is rejected, as in JavaScript; `fuel` bounds the number of iterations. -/
def runStar (body : MState → List MState) : Nat → MState → List MState
  | 0, st => [st]
  | fuel + 1, st =>
    (((body st).filter (fun s => decide (s.rest.length < st.rest.length))).flatMap
      (runStar body fuel)) ++ [st]

/-- All the ways the pattern matches at the state, in backtracking priority order. -/
def run : Regex → MState → List MState
  | .cls p, st =>
    match st.rest with
    | [] => []
    | c :: cs => if p c then [{ st with pos := st.pos + 1, rest := cs }] else []
  | .eps, st => [st]
  | .seq a b, st => (run a st).flatMap (run b)
  | .alt a b, st => run a st ++ run b st
  | .star a, st => runStar (run a) st.rest.length st
  | .nla a, st => if (run a st).isEmpty then [st] else []
  | .group a, st =>
    (run a st).map (fun s => { s with cap := some (st.rest.take (s.pos - st.pos)) })
  | .bol, st => if st.pos = 0 then [st] else []
  | .eol, st => if st.rest.isEmpty then [st] else []

/-- The first match starting at the given state, scanning start positions from
left to right (`RegExp.prototype.exec` without the global flag). -/
def execFrom (r : Regex) : Nat → MState → Option MState
  | 0, st => (run r st).head?
  | fuel + 1, st =>
    match (run r st).head? with
    | some m => some m
    | none =>
      match st.rest with
      | [] => none
      | _ :: cs => execFrom r fuel { st with pos := st.pos + 1, rest := cs }

/-- The result of `pattern.exec(text)`. -/
def Regex.exec (r : Regex) (text : JSString) : Option MState :=
  execFrom r text.length { pos := 0, rest := text, cap := none }

/-- The result of `pattern.test(text)`. -/
def Regex.test (r : Regex) (text : JSString) : Bool :=
  (r.exec text).isSome

/-- One given code unit. -/
def Regex.unit (c : Nat) : Regex := .cls (fun x => x == c)

/-- The given code units in a row. -/
def Regex.lit : JSString → Regex
  | [] => .eps
  | c :: cs => .seq (.unit c) (Regex.lit cs)

/-- Greedy `a+`. -/
def Regex.plus (a : Regex) : Regex := .seq a (.star a)

/-- Greedy `a?`. -/
def Regex.opt (a : Regex) : Regex := .alt a .eps

/-! ## `lib/term/literal.js` -/

/-- The property names an object literal inherits from `Object.prototype`: a
lookup by such a name finds the inherited value, and the operator `in` finds
the name too. -/
def objectPrototypeNames : List JSString :=
  [str "constructor", str "__defineGetter__", str "__defineSetter__", str "hasOwnProperty",
   str "__lookupGetter__", str "__lookupSetter__", str "isPrototypeOf",
   str "propertyIsEnumerable", str "toString", str "valueOf", str "__proto__",
   str "toLocaleString"]

/-- The class `[0-9]`. -/
def digit : Regex := .cls (fun c => decide (0x30 ≤ c) && decide (c ≤ 0x39))

/-- The pattern `.`: any code unit but a line terminator. -/
def anyUnit : Regex :=
  .cls (fun c => !(c == 0x0A || c == 0x0D || c == 0x2028 || c == 0x2029))

/-- The entry `boolean` of `SPARQL_LITERAL_PATTERNS`: `/true|false/`. -/
def booleanPattern : Regex :=
  .alt (.lit (str "true")) (.lit (str "false"))

/-- The entry `integer` of `SPARQL_LITERAL_PATTERNS`: `/^[0-9]+$/`. -/
def integerPattern : Regex :=
  .seq .bol (.seq digit.plus .eol)

/-- The entry `double` of `SPARQL_LITERAL_PATTERNS`:
`/^(?:[0-9]+.[0-9]*|.[0-9]+|[0-9]+)[eE][+-]?[0-9]+$/`. -/
def doublePattern : Regex :=
  .seq .bol
    (.seq (.alt (.seq digit.plus (.seq anyUnit (.star digit)))
            (.alt (.seq anyUnit digit.plus) digit.plus))
      (.seq (.cls (fun c => c == 0x65 || c == 0x45))
        (.seq (Regex.opt (.cls (fun c => c == 0x2B || c == 0x2D)))
          (.seq digit.plus .eol))))

/-- The entry `decimal` of `SPARQL_LITERAL_PATTERNS`: `/^[0-9]*.[0-9]+$/`. -/
def decimalPattern : Regex :=
  .seq .bol (.seq (.star digit) (.seq anyUnit (.seq digit.plus .eol)))

/-- The own entries of the table `SPARQL_LITERAL_PATTERNS`; `none` when the table
has no own entry of that name. -/
def SPARQL_LITERAL_PATTERNS (type : JSString) : Option Regex :=
  if type = str "boolean" then some booleanPattern
  else if type = str "integer" then some integerPattern
  else if type = str "double" then some doublePattern
  else if type = str "decimal" then some decimalPattern
  else none

/-- An IRI term (`lib/term/iri.js`): the namespace tag when the IRI was given
in prefixed form, the local name `id`, and the text `format()` returns. -/
structure IRI where
  nspace : Option JSString
  id : JSString
  formatted : JSString
  deriving DecidableEq, Repr

/-- A literal term: the stringified value and the datatype, `none` when the
property is `undefined`. -/
structure Literal where
  value : JSString
  datatype : Option IRI
  deriving DecidableEq, Repr

/-- Source `assertSafeString`: throws when U+0000 is in the string. -/
def assertSafeString (value : JSString) : Except Err JSString :=
  if (Regex.unit 0).test value then .error .nullCharacter else .ok value

/-- The class `[\\\u0009\u000D\u0008\u000C"']` of `escapeString`. -/
def escapableCodePoints (c : Nat) : Bool :=
  c == 0x5C || c == 0x09 || c == 0x0D || c == 0x08 || c == 0x0C || c == 0x22 || c == 0x27

/-- Source `escapeString`: the global replacement of every code unit of the class
by a backslash and the code unit. -/
def escapeString (s : JSString) : JSString :=
  s.flatMap (fun character => if escapableCodePoints character then [0x5C, character] else [character])

/-- The local `delimiter` of `formatString`, with its three tests of the
unescaped text.  The test named `hasNewline` is `/"/`, as in the source. -/
def delimiter (stringified : JSString) : JSString :=
  let hasSingleQuote := (Regex.unit 0x27).test stringified
  let hasDoubleQuote := (Regex.unit 0x22).test stringified
  let hasNewline := (Regex.unit 0x22).test stringified
  if hasNewline || (hasSingleQuote && hasDoubleQuote) then [0x22, 0x22, 0x22]
  else if hasSingleQuote then [0x22]
  else [0x27]

/-- The pattern of the assertion of `formatString`: `(?!\\)` followed by the delimiter. -/
def delimiterPattern (d : JSString) : Regex :=
  .seq (.nla (.unit 0x5C)) (.lit d)

/-- Source `formatString`: the escaped text between two copies of the chosen
delimiter; the assertion throws when the pattern finds the delimiter in the
escaped text. -/
def formatString (value : JSString) : Except Err JSString :=
  let escaped := escapeString value
  if (delimiterPattern (delimiter value)).test escaped then .error .assertion
  else .ok (delimiter value ++ escaped ++ delimiter value)

/-- Source `knownDatatype`. -/
def knownDatatype (iri : Option IRI) : Bool :=
  match iri with
  | none => false
  | some i => if i.nspace ≠ some (str "xsd") then false else true

/-- Source `tryFormatDouble`. -/
def tryFormatDouble (value : JSString) : JSString :=
  let pattern := doublePattern
  if pattern.test value then value
  else if pattern.test (value ++ str "e0") then value ++ str "e0"
  else value

/-- Source `tryFormatType`: the value when it matches the pattern of the type,
`none` (for `undefined`) when it does not.  The assertion throws when the
lookup in the table gives `undefined`.  For a name that the table inherits
from `Object.prototype`, such as `toString`, the lookup gives the inherited
value, the assertion passes, and the call of `test`, which that value does
not have, throws a `TypeError`. -/
def tryFormatType (value type : JSString) : Except Err (Option JSString) :=
  match SPARQL_LITERAL_PATTERNS type with
  | none =>
    if objectPrototypeNames.contains type then .error .typeError else .error .assertion
  | some pattern =>
    let stringifiedValue := if type = str "double" then tryFormatDouble value else value
    if pattern.test stringifiedValue then .ok (some stringifiedValue) else .ok none

/-- The tail of `Literal.prototype.format`: the quoted string and the datatype suffix. -/
def Literal.formatQuoted (l : Literal) : Except Err JSString :=
  match formatString l.value with
  | .error e => .error e
  | .ok term =>
    match l.datatype with
    | some dt => .ok (term ++ str "^^" ++ dt.formatted)
    | none => .ok term

/-- Source `Literal.prototype.format`. -/
def Literal.format (l : Literal) : Except Err JSString :=
  match l.datatype with
  | some dt =>
    if knownDatatype (some dt) then
      match tryFormatType l.value dt.id with
      | .error e => .error e
      | .ok (some term) => .ok term
      | .ok none => l.formatQuoted
    else l.formatQuoted
  | none => l.formatQuoted

/-- The constructor `Literal(value, datatype)` on the text `'' + value`.  The
datatype is `none` for `undefined`; otherwise it is the outcome of
`IRI.create(datatype)` (`lib/term/iri.js`), and a throw of `IRI.create` is
thrown on as the datatype error. -/
def Literal.create (value : JSString) (datatype : Option (Except Err IRI)) :
    Except Err Literal :=
  match assertSafeString value with
  | .error e => .error e
  | .ok v =>
    match datatype with
    | none => .ok { value := v, datatype := none }
    | some (.ok iri) => .ok { value := v, datatype := some iri }
    | some (.error _) => .error .invalidDatatype

/-- The class `[a-zA-Z]`. -/
def isLetter (c : Nat) : Bool :=
  (decide (0x61 ≤ c) && decide (c ≤ 0x7A)) || (decide (0x41 ≤ c) && decide (c ≤ 0x5A))

/-- The class `[a-zA-Z0-9]`. -/
def isLetterOrDigit (c : Nat) : Bool :=
  (decide (0x61 ≤ c) && decide (c ≤ 0x7A)) || (decide (0x41 ≤ c) && decide (c ≤ 0x5A)) ||
  (decide (0x30 ≤ c) && decide (c ≤ 0x39))

/-- The group `(?:-[a-zA-Z0-9]+)` of the pattern of `assertSafeLanguageTag`. -/
def languageTagGroup : Regex :=
  .seq (.unit 0x2D) (Regex.plus (.cls isLetterOrDigit))

/-- The pattern of `assertSafeLanguageTag`: `/^[a-zA-Z]+(?:-[a-zA-Z0-9]+)*$/`. -/
def languageTagPattern : Regex :=
  .seq .bol (.seq (Regex.plus (.cls isLetter)) (.seq (.star languageTagGroup) .eol))

/-- Source `assertSafeLanguageTag`. -/
def assertSafeLanguageTag (tag : JSString) : Except Err JSString :=
  if languageTagPattern.test tag then .ok tag else .error .invalidLanguageTag

/-- A string literal term: the value and the property `xml:lang`, `none` when it
is `undefined`. -/
structure StringLiteral where
  value : JSString
  languageTag : Option JSString
  deriving DecidableEq, Repr

/-- The constructor `StringLiteral(value, languageTag)`: it calls `Literal` without
a datatype and then checks the tag, unless the tag is `undefined` (`none`). -/
def StringLiteral.create (value : JSString) (languageTag : Option JSString) :
    Except Err StringLiteral :=
  match Literal.create value none with
  | .error e => .error e
  | .ok l =>
    match languageTag with
    | none => .ok { value := l.value, languageTag := none }
    | some tag =>
      match assertSafeLanguageTag tag with
      | .error e => .error e
      | .ok t => .ok { value := l.value, languageTag := some t }

/-- Source `StringLiteral.prototype.format`. -/
def StringLiteral.format (l : StringLiteral) : Except Err JSString :=
  match formatString l.value with
  | .error e => .error e
  | .ok term =>
    match l.languageTag with
    | some tag => .ok (term ++ str "@" ++ tag)
    | none => .ok term

/-- The method `replace` with a global pattern and a callback: every match, found
from left to right, gives way to what the callback makes of the matched text. -/
def replaceWithFrom (r : Regex) (f : JSString → JSString) : Nat → MState → JSString
  | 0, st => st.rest
  | fuel + 1, st =>
    match (run r st).head?, st.rest with
    | some m, [] => if m.pos = st.pos then f [] else []
    | some m, c :: cs =>
      if st.pos < m.pos then
        f (st.rest.take (m.pos - st.pos)) ++ replaceWithFrom r f fuel m
      else f [] ++ c :: replaceWithFrom r f fuel { st with pos := st.pos + 1, rest := cs }
    | none, [] => []
    | none, c :: cs => c :: replaceWithFrom r f fuel { st with pos := st.pos + 1, rest := cs }

/-- The call `text.replace(pattern, callback)`. -/
def Regex.replaceWith (r : Regex) (text : JSString) (f : JSString → JSString) : JSString :=
  replaceWithFrom r f (text.length + 1) { pos := 0, rest := text, cap := none }

/-- The body of `escapeString` as it is written: the call of `replace` with the
global pattern `escapableCodePoints` and the callback that puts a backslash
before the matched character. -/
def escapeStringByReplace (s : JSString) : JSString :=
  (Regex.cls escapableCodePoints).replaceWith s (fun character => 0x5C :: character)

/-! ## `lib/client.js` -/

/-- The class `\s`: the white space and line terminator code units of the
ECMAScript specification. -/
def isSpace (c : Nat) : Bool :=
  c == 0x09 || c == 0x0A || c == 0x0B || c == 0x0C || c == 0x0D || c == 0x20 ||
  c == 0xA0 || c == 0x1680 || (decide (0x2000 ≤ c) && decide (c ≤ 0x200A)) ||
  c == 0x2028 || c == 0x2029 || c == 0x202F || c == 0x205F || c == 0x3000 || c == 0xFEFF

/-- The class `\w`: `[A-Za-z0-9_]` (the flag `i` without the flag `u` adds nothing to it). -/
def isWord (c : Nat) : Bool :=
  (decide (0x41 ≤ c) && decide (c ≤ 0x5A)) || (decide (0x61 ≤ c) && decide (c ≤ 0x7A)) ||
  (decide (0x30 ≤ c) && decide (c ≤ 0x39)) || c == 0x5F

/-- An upper-case ASCII letter of a pattern under the flag `i`: it matches
itself and its lower-case form, and no other code unit. -/
def Regex.unitI (c : Nat) : Regex := .cls (fun x => x == c || x == c + 0x20)

/-- The upper-case ASCII letters in a row, under the flag `i`. -/
def Regex.litI : JSString → Regex
  | [] => .eps
  | c :: cs => .seq (.unitI c) (Regex.litI cs)

/-- The alternation `PREFIX|BASE` under the flag `i`. -/
def prologueKeyword : Regex :=
  .alt (Regex.litI (str "PREFIX")) (Regex.litI (str "BASE"))

/-- One iteration of the leading group: `\s*(?:PREFIX|BASE)[^<]+<[^>]+>`. -/
def prologueClause : Regex :=
  .seq (.star (.cls isSpace))
    (.seq prologueKeyword
      (.seq (Regex.plus (.cls (fun c => !(c == 0x3C))))
        (.seq (.unit 0x3C)
          (.seq (Regex.plus (.cls (fun c => !(c == 0x3E)))) (.unit 0x3E)))))

/-- The pattern of `statementIsUpdate`:
`/^(?:\s*(?:PREFIX|BASE)[^<]+<[^>]+>)*\s*(?!PREFIX|BASE)(\w+)/i`. -/
def statementPattern : Regex :=
  .seq .bol
    (.seq (.star prologueClause)
      (.seq (.star (.cls isSpace))
        (.seq (.nla prologueKeyword) (.group (Regex.plus (.cls isWord))))))

/-- The method `toUpperCase` on a text of word characters (the only texts it is
applied to): the ASCII lower-case letters are raised. -/
def toUpperCase (s : JSString) : JSString :=
  s.map (fun c => if 0x61 ≤ c ∧ c ≤ 0x7A then c - 0x20 else c)

/-- The own keys of the table `update` of `statementIsUpdate`. -/
def update : List JSString :=
  [str "LOAD", str "CLEAR", str "DROP", str "CREATE", str "ADD", str "MOVE", str "COPY",
   str "INSERT", str "DELETE", str "WITH"]

/-- Source `statementIsUpdate`. -/
def statementIsUpdate (text : JSString) : Except Err Bool :=
  match statementPattern.exec text with
  | none => .error .malformedQuery
  | some m =>
    match m.cap with
    | none => .error .typeError
    | some k =>
      let keyword := toUpperCase k
      .ok (update.contains keyword || objectPrototypeNames.contains keyword)

/-- A prefixes object: its own enumerable properties, name and URI, in the
order in which the object enumerates them. -/
abbrev Obj := List (JSString × JSString)

/-- The inner function `ensureSafeURI` of `makePreamble`. -/
def ensureSafeURI (uri : JSString) : Except Err JSString :=
  if (Regex.cls (fun c => c == 0x00 || c == 0x0A || c == 0x3E)).test uri then
    .error .suspiciousURI
  else .ok uri

/-- The first statement of `makePreamble`: the line `BASE <base>` when the base
is truthy.  The base is `none` for `null`; an empty base is falsy, like `null`. -/
def makePreamble.baseLine (base : Option JSString) : Except Err JSString :=
  match base with
  | none => .ok []
  | some b =>
    if b.isEmpty then .ok []
    else
      match ensureSafeURI b with
      | .error e => .error e
      | .ok u => .ok (str "BASE <" ++ u ++ str ">\n")

/-- The callback of `_.forEach` in `makePreamble`: one more line `PREFIX name: <uri>`. -/
def makePreamble.step (preamble : JSString) (entry : JSString × JSString) :
    Except Err JSString :=
  match ensureSafeURI entry.2 with
  | .error e => .error e
  | .ok u => .ok (preamble ++ (str "PREFIX " ++ entry.1 ++ str ": <" ++ u ++ str ">\n"))

/-- The loop `_.forEach(prefixes, ...)` of `makePreamble`; a throw of the callback ends it. -/
def makePreamble.loop : Obj → JSString → Except Err JSString
  | [], preamble => .ok preamble
  | entry :: rest, preamble =>
    match makePreamble.step preamble entry with
    | .error e => .error e
    | .ok p => makePreamble.loop rest p

/-- Source `makePreamble`. -/
def makePreamble (prefixes : Obj) (base : Option JSString) : Except Err JSString :=
  match makePreamble.baseLine base with
  | .error e => .error e
  | .ok preamble0 =>
    match makePreamble.loop prefixes preamble0 with
    | .error e => .error e
    | .ok preamble => if preamble.isEmpty then .ok preamble else .ok (preamble ++ str "\n")

/-- Source `formatQuery`; the argument `bindings` is not read. -/
def formatQuery (query : JSString) (_bindings : Obj) (prefixes : Obj)
    (base : Option JSString) : Except Err JSString :=
  match makePreamble prefixes base with
  | .error e => .error e
  | .ok preamble => .ok (preamble ++ query)

/-- The state of a `Query` object: the fields the constructor assigns and the
property `currentQuery`, which is `none` (for `undefined`) until something
assigns it. -/
structure Query where
  originalText : JSString
  base : Option JSString
  prefixes : Obj
  bindings : Obj
  currentQuery : Option JSString
  deriving DecidableEq, Repr

/-- The constructor `Query(client, text, options)`; it assigns `originalText`,
`base`, `prefixes` and `bindings`, and nothing else. -/
def Query.create (text : JSString) (base : Option JSString) (prefixes : Obj) : Query :=
  { originalText := text, base := base, prefixes := prefixes, bindings := [],
    currentQuery := none }

/-- The pattern `new RegExp('\\?' + placeholder + '[\\s\\n\\r\\t]+', 'g')` of `bind`,
for a placeholder without pattern metacharacters. -/
def bindPattern (placeholder : JSString) : Regex :=
  .seq (.unit 0x3F) (.seq (Regex.lit placeholder) (Regex.plus (.cls isSpace)))

/-- The method `replace` with a global pattern and a replacement text without `$`:
every match, found from left to right, gives way to the replacement. -/
def replaceFrom (r : Regex) (replacement : JSString) : Nat → MState → JSString
  | 0, st => st.rest
  | fuel + 1, st =>
    match (run r st).head?, st.rest with
    | some m, [] => if m.pos = st.pos then replacement else []
    | some m, c :: cs =>
      if st.pos < m.pos then replacement ++ replaceFrom r replacement fuel m
      else replacement ++ c :: replaceFrom r replacement fuel { st with pos := st.pos + 1, rest := cs }
    | none, [] => []
    | none, c :: cs => c :: replaceFrom r replacement fuel { st with pos := st.pos + 1, rest := cs }

/-- The call `text.replace(pattern, replacement)`. -/
def Regex.replace (r : Regex) (text replacement : JSString) : JSString :=
  replaceFrom r replacement (text.length + 1) { pos := 0, rest := text, cap := none }

/-- The method `Query.prototype.bind` with its wrapper `fluent`: it reads
`this.currentQuery`, calls `replace` on it and assigns the result; the call of
a method on `undefined` throws a `TypeError`. -/
def Query.bind (q : Query) (placeholder value : JSString) : Except Err Query :=
  match q.currentQuery with
  | none => .error .typeError
  | some query =>
    .ok { q with currentQuery := some ((bindPattern placeholder).replace query (value ++ str " ")) }

/-- What `sparqlRequest` hands to the transport `doRequest`: the text, under the
body parameter `update` or `query`. -/
structure Request where
  isUpdate : Bool
  text : JSString
  deriving DecidableEq, Repr

/-- The synchronous part of `sparqlRequest(query, callback)`: it classifies the
text and hands the request to the transport.  Nothing catches a throw of
`statementIsUpdate`; the callback is called only later, from the handler of the
response of the transport. -/
def sparqlRequest (query : JSString) : Except Err Request :=
  match statementIsUpdate query with
  | .error e => .error e
  | .ok isUpdate => .ok { isUpdate := isUpdate, text := query }

/-- The method `Query.prototype.execute` called with `nargs` arguments: an error
is a throw to the caller of `execute`, before the transport is reached;
otherwise `execute` returns after it handed the request to the transport. -/
def Query.execute (q : Query) (nargs : Nat) : Except Err Request :=
  if nargs > 2 then .error .wrongNumberOfArguments
  else
    match formatQuery q.originalText q.bindings q.prefixes q.base with
    | .error e => .error e
    | .ok query => sparqlRequest query

/-! ### The registry of a client and of a query -/

/-- A value stored in a prefixes object.  The content of an object is not
followed: such a value is only stored. -/
inductive Prim where
  | undefined
  | null
  | boolean (b : Bool)
  | number (n : Nat)
  | string (s : JSString)
  | function (source : JSString)
  | object
  deriving DecidableEq, Repr

/-- The own enumerable properties of an object, name and value, in the order in
which the object enumerates them. -/
abbrev Props := List (JSString × Prim)

/-- An argument of a call of `register` or `registerCommon`.  A number is a
natural number (below `10^21`, where `String` writes it in decimal digits), a
function carries the text it converts to and its property `length`, the
number of its parameters, and an object is a plain object, whose prototype is
`Object.prototype`, with its own enumerable properties. -/
inductive Arg where
  | undefined
  | null
  | boolean (b : Bool)
  | number (n : Nat)
  | string (s : JSString)
  | function (source : JSString) (arity : Nat)
  | object (entries : Props)
  deriving DecidableEq, Repr

/-- The decimal numeral of a natural number, as `String(n)` gives it. -/
def natToString (n : Nat) : JSString :=
  (Nat.toDigits 10 n).map Char.toNat

/-- The value an argument is stored as. -/
def Arg.toPrim : Arg → Prim
  | .undefined => .undefined
  | .null => .null
  | .boolean b => .boolean b
  | .number n => .number n
  | .string s => .string s
  | .function source _ => .function source
  | .object _ => .object

/-- The property name an argument converts to in `obj[argument]`. -/
def Arg.toPropertyKey : Arg → JSString
  | .undefined => str "undefined"
  | .null => str "null"
  | .boolean b => if b then str "true" else str "false"
  | .number n => natToString n
  | .string s => s
  | .function source _ => source
  | .object _ => str "[object Object]"

/-- What an object shows through its prototype chain under the names lodash
reads, `length` and the array indices, once the argument is its prototype: a
function shows its `length`, a plain object its own properties, and `null`
nothing.  Any other argument does not become a prototype. -/
def Arg.shown : Arg → Props
  | .function _ arity => [(str "length", .number arity)]
  | .object entries => entries
  | _ => []

/-- The number a property name stands for when it is an array index: the
canonical decimal numeral of a number below `2^32 - 1`. -/
def arrayIndex? (k : JSString) : Option Nat :=
  if k ≠ [] ∧ k.all (fun c => decide (0x30 ≤ c) && decide (c ≤ 0x39)) ∧
      (k = [0x30] ∨ k.head? ≠ some 0x30) then
    let n := k.foldl (fun acc c => acc * 10 + (c - 0x30)) 0
    if n < 4294967295 then some n else none
  else none

/-- A new array-index property takes its place among the array-index properties,
which an object enumerates first and in ascending order. -/
def Props.insertIndex (n : Nat) (k : JSString) (v : Prim) : Props → Props
  | [] => [(k, v)]
  | e :: rest =>
    match arrayIndex? e.1 with
    | some m => if m < n then e :: Props.insertIndex n k v rest else (k, v) :: e :: rest
    | none => (k, v) :: e :: rest

/-- The assignment `o[k] = v` on the own properties of an object: an existing
property keeps its place, a new one goes to the end, or among the array
indices when its name is one. -/
def Props.set (o : Props) (k : JSString) (v : Prim) : Props :=
  if o.any (fun e => e.1 == k) then o.map (fun e => if e.1 = k then (k, v) else e)
  else
    match arrayIndex? k with
    | some n => Props.insertIndex n k v o
    | none => o ++ [(k, v)]

/-- An object of the heap: whether its prototype is `Object.prototype` (an
ordinary object, such as `{}`) or `null` (as `Object.create(null)` makes it),
and its own enumerable properties. -/
structure JSObject where
  ordinary : Bool
  props : Props
  deriving DecidableEq, Repr

/-- The assignment `o[k] = v`.  On an ordinary object without an own property
`__proto__`, that name reaches the accessor of `Object.prototype`, which makes
no own property: it takes `null` as the new prototype, after which the object
is not ordinary any more, takes an object or a function (whose prototype chain
ends in `Object.prototype`) as the new prototype, and does nothing with any
other value. -/
def JSObject.assign (o : JSObject) (k : JSString) (v : Prim) : JSObject :=
  if o.ordinary = true ∧ k = str "__proto__" ∧ o.props.any (fun e => e.1 == k) = false then
    match v with
    | .null => { o with ordinary := false }
    | _ => o
  else { o with props := o.props.set k v }

/-- The length of an object that lodash takes for an array: its property
`length` is a number (up to `2^53 - 1`). -/
def arrayLikeLength? (o : Props) : Option Nat :=
  match o.lookup (str "length") with
  | some (.number n) => if n ≤ 9007199254740991 then some n else none
  | _ => none

/-- What `_.forEach(collection, callback)` of lodash visits, in order, as the
pairs of name and value handed to the callback: the own enumerable properties
of the collection, or, for a collection with a numeric `length`, the indices
below that length.  The collection is given by its own properties `o` and by
what it inherits; lodash reads `length` and the indices through the prototype
chain, where an own property hides an inherited one. -/
def forEachEntries (o inherited : Props) : Props :=
  match arrayLikeLength? (o ++ inherited) with
  | some n =>
    (List.range n).map
      (fun i => (natToString i, ((o ++ inherited).lookup (natToString i)).getD .undefined))
  | none => o

/-- The heap: the prefixes objects, each at its address. -/
abbrev Heap := List JSObject

/-- The change of the object at an address. -/
def Heap.update (h : Heap) (address : Nat) (f : JSObject → JSObject) : Heap :=
  match h, address with
  | [], _ => []
  | o :: rest, 0 => f o :: rest
  | o :: rest, n + 1 => o :: Heap.update rest n f

/-- Source `addPrefixes(current, newPrefixes)`: the callback of `_.forEach` assigns
`current[name] = uri` for each visited pair.  The object `newPrefixes` is
given by its own properties and by what it inherits. -/
def addPrefixes (h : Heap) (current : Nat) (newPrefixes inherited : Props) : Heap :=
  h.update current (fun o =>
    (forEachEntries newPrefixes inherited).foldl (fun o entry => o.assign entry.1 entry.2) o)

/-- The fields `base` and `prefixes` of a client or of a query, the receiver of
`register` and `registerCommon`; `prefixes` is the address of an object. -/
structure Receiver where
  base : Option JSString
  prefixes : Nat
  deriving DecidableEq, Repr

/-- The table `COMMON_PREFIXES`. -/
def COMMON_PREFIXES : Props :=
  [(str "rdf", .string (str "http://www.w3.org/1999/02/22-rdf-syntax-ns#")),
   (str "rdfs", .string (str "http://www.w3.org/2000/01/rdf-schema#")),
   (str "xsd", .string (str "http://www.w3.org/2001/XMLSchema#")),
   (str "fn", .string (str "http://www.w3.org/2005/xpath-functions#")),
   (str "sfn", .string (str "http://www.w3.org/ns/sparql#"))]

/-- The lookup `COMMON_PREFIXES[name]`: an entry of the table, or what the object
literal inherits from `Object.prototype` under that name, or `undefined`. -/
def COMMON_PREFIXES.get (name : JSString) : Prim :=
  match COMMON_PREFIXES.lookup name with
  | some v => v
  | none =>
    if name = str "__proto__" then .object
    else if name ∈ objectPrototypeNames then .function name
    else .undefined

/-- The method `SparqlClient.prototype.register` with its wrapper `fluent`, which is
the method `register` of a query as well.  The result is the heap and the
receiver after the call; an error is a throw, which leaves both as they were.
In the branch of two arguments the assignment `obj[subject] = predicate` to
the name `__proto__` makes the second argument the prototype of `obj`. -/
def register (h : Heap) (this : Receiver) (args : List Arg) :
    Except Err (Heap × Receiver) :=
  match args with
  | [subject] =>
    match subject with
    | .string s => .ok (h, { this with base := some s })
    | .object entries => .ok (addPrefixes h this.prefixes entries [], this)
    | .null => .ok (h, this)
    | _ => .error .invalidArguments
  | [subject, predicate] =>
    let obj := (JSObject.mk true []).assign subject.toPropertyKey predicate.toPrim
    let inherited := if subject.toPropertyKey = str "__proto__" then predicate.shown else []
    .ok (addPrefixes h this.prefixes obj.props inherited, this)
  | _ => .error .invalidArguments

/-- The loop of `registerCommon` over its arguments, which fills the object
`prefixes` it began as `{}`. -/
def registerCommon.collect : List Arg → JSObject → Except Err JSObject
  | [], prefixes => .ok prefixes
  | name :: rest, prefixes =>
    let uri := COMMON_PREFIXES.get name.toPropertyKey
    match name with
    | .undefined => .error .unknownPrefix
    | _ => registerCommon.collect rest (prefixes.assign name.toPropertyKey uri)

/-- The method `SparqlClient.prototype.registerCommon` with its wrapper `fluent`,
which is the method `registerCommon` of a query as well. -/
def registerCommon (h : Heap) (this : Receiver) (args : List Arg) :
    Except Err (Heap × Receiver) :=
  if args.isEmpty then .ok (addPrefixes h this.prefixes COMMON_PREFIXES [], this)
  else
    match registerCommon.collect args (JSObject.mk true []) with
    | .error e => .error e
    | .ok prefixes => .ok (addPrefixes h this.prefixes prefixes.props [], this)

/-- What `_.cloneDeep` of lodash makes of a prefixes object: a new ordinary
object with the own enumerable properties of the original, in order.  Lodash
defines the property `__proto__` on the clone instead of assigning it, so it
is an own property of the clone as well. -/
def cloneDeep (o : JSObject) : JSObject :=
  { ordinary := true, props := o.props }

/-- The constructor `SparqlClient`: a null base and a new object without
prototype for the prefixes. -/
def create (h : Heap) : Heap × Receiver :=
  (h ++ [JSObject.mk false []], { base := none, prefixes := h.length })

/-- The method `SparqlClient.prototype.query(userQuery)` without a callback, as far
as the registry goes: the new `Query` takes the base of the client and a deep
clone of its prefixes, a new object of the heap. -/
def query (h : Heap) (client : Receiver) : Heap × Receiver :=
  (h ++ [cloneDeep (h.getD client.prefixes (JSObject.mk false []))],
   { base := client.base, prefixes := h.length })

/-- A call of one of the two registry methods. -/
inductive Call where
  | register (args : List Arg)
  | registerCommon (args : List Arg)
  deriving DecidableEq, Repr

/-- One call on a receiver. -/
def Receiver.call (h : Heap) (this : Receiver) : Call → Except Err (Heap × Receiver)
  | .register args => SparqlClient.register h this args
  | .registerCommon args => SparqlClient.registerCommon h this args

/-- A sequence of calls on a receiver; a call that throws leaves the heap and the
receiver as they were, and the sequence goes on. -/
def Receiver.callAll (h : Heap) (this : Receiver) : List Call → Heap × Receiver
  | [] => (h, this)
  | c :: rest =>
    match this.call h c with
    | .error _ => Receiver.callAll h this rest
    | .ok (h1, this1) => Receiver.callAll h1 this1 rest

/-! ## Auxiliary definitions for the proofs -/

/-- The states a greedy iteration of a class can stop in, the longest first. -/
def spanStates (p : Nat → Bool) : Nat → JSString → Option JSString → List MState
  | pos, [], cap => [⟨pos, [], cap⟩]
  | pos, c :: cs, cap =>
    if p c then spanStates p (pos + 1) cs cap ++ [⟨pos, c :: cs, cap⟩]
    else [⟨pos, c :: cs, cap⟩]


/-- The preamble in the words of the specification: the line `BASE <base>` if a
base is set, one line `PREFIX name: <uri>` for each registered name in order,
and one more linefeed if anything was emitted. -/
def preambleSpec (prefixes : Obj) (base : Option JSString) : JSString :=
  let baseText : JSString :=
    match base with
    | some b => str "BASE <" ++ b ++ str ">\n"
    | none => []
  let lines : JSString :=
    prefixes.flatMap (fun entry => str "PREFIX " ++ entry.1 ++ str ": <" ++ entry.2 ++ str ">\n")
  if (baseText ++ lines).isEmpty then [] else baseText ++ lines ++ str "\n"

/-- A URI that `ensureSafeURI` refuses: it holds U+0000, a linefeed or `>`. -/
def suspicious (uri : JSString) : Prop :=
  0x00 ∈ uri ∨ 0x0A ∈ uri ∨ 0x3E ∈ uri

instance : DecidablePred suspicious :=
  fun uri => inferInstanceAs (Decidable (0x00 ∈ uri ∨ 0x0A ∈ uri ∨ 0x3E ∈ uri))

/-- One leading clause of a statement: the white space before it, the keyword,
the text between the keyword and `<` (a blank, and for `PREFIX` the name and
the colon), and the IRI between `<` and `>`. -/
structure Clause where
  ws : JSString
  keyword : JSString
  mid : JSString
  iri : JSString
  deriving DecidableEq, Repr

/-- The text of a clause. -/
def Clause.text (c : Clause) : JSString :=
  c.ws ++ (c.keyword ++ (c.mid ++ (0x3C :: (c.iri ++ [0x3E]))))

/-- A well-formed clause: white space, then `PREFIX` or `BASE` in any letter
case, then a non-empty text free of `<`, then a non-empty IRI free of `>`. -/
def Clause.wellFormed (c : Clause) : Prop :=
  (∀ x ∈ c.ws, isSpace x = true) ∧
  (toUpperCase c.keyword = str "PREFIX" ∨ toUpperCase c.keyword = str "BASE") ∧
  c.mid ≠ [] ∧ 0x3C ∉ c.mid ∧ c.iri ≠ [] ∧ 0x3E ∉ c.iri

instance : DecidablePred Clause.wellFormed :=
  fun c => inferInstanceAs (Decidable
    ((∀ x ∈ c.ws, isSpace x = true) ∧
     (toUpperCase c.keyword = str "PREFIX" ∨ toUpperCase c.keyword = str "BASE") ∧
     c.mid ≠ [] ∧ 0x3C ∉ c.mid ∧ c.iri ≠ [] ∧ 0x3E ∉ c.iri))

/-- The text of the leading clauses of a statement. -/
def prologueText (clauses : List Clause) : JSString :=
  clauses.flatMap Clause.text

/-- A text in which a keyword can be located: well-formed leading clauses, white
space, and a maximal non-empty run of word characters that does not begin with
`PREFIX` or `BASE` in any letter case. -/
def HasKeyword (text : JSString) : Prop :=
  ∃ (clauses : List Clause) (ws k rest : JSString),
    (∀ c ∈ clauses, c.wellFormed) ∧ (∀ x ∈ ws, isSpace x = true) ∧
    k ≠ [] ∧ (∀ x ∈ k, isWord x = true) ∧ (∀ x ∈ rest.head?, isWord x = false) ∧
    ¬ str "PREFIX" <+: toUpperCase k ∧ ¬ str "BASE" <+: toUpperCase k ∧
    text = prologueText clauses ++ ws ++ k ++ rest

/-- The deletion of the backslashes that `escapeString` inserted: a backslash
goes and the code unit behind it stays. -/
def unescapeString : JSString → JSString
  | [] => []
  | [c] => [c]
  | c :: d :: rest =>
    if c = 0x5C then d :: unescapeString rest else c :: unescapeString (d :: rest)

/-- A client and a query made from it, with the heap their prefixes objects are in. -/
structure World where
  heap : Heap
  client : Receiver
  query : Receiver
  deriving DecidableEq, Repr

/-- The world right after `client.query(text)` returned the query. -/
def World.afterQuery (h : Heap) (client : Receiver) : World :=
  { heap := (SparqlClient.query h client).1, client := client,
    query := (SparqlClient.query h client).2 }

/-- Calls of `register` and `registerCommon` on the client. -/
def World.callsOnClient (w : World) (calls : List Call) : World :=
  { w with heap := (w.client.callAll w.heap calls).1, client := (w.client.callAll w.heap calls).2 }

/-- Calls of `register` and `registerCommon` on the query. -/
def World.callsOnQuery (w : World) (calls : List Call) : World :=
  { w with heap := (w.query.callAll w.heap calls).1, query := (w.query.callAll w.heap calls).2 }

/-- The mantissa of a double, which is a plain decimal numeral as well: digits, a
dot and zero or more digits; or a dot and digits; or digits. -/
def Mantissa (v : JSString) : Prop :=
  (∃ d f : JSString, d ≠ [] ∧ (∀ c ∈ d, 0x30 ≤ c ∧ c ≤ 0x39) ∧ (∀ c ∈ f, 0x30 ≤ c ∧ c ≤ 0x39) ∧
    v = d ++ 0x2E :: f) ∨
  (∃ f : JSString, f ≠ [] ∧ (∀ c ∈ f, 0x30 ≤ c ∧ c ≤ 0x39) ∧ v = 0x2E :: f) ∨
  (v ≠ [] ∧ ∀ c ∈ v, 0x30 ≤ c ∧ c ≤ 0x39)

/-- The double form: a mantissa, `e` or `E`, an optional sign, and digits. -/
def DoubleForm (v : JSString) : Prop :=
  ∃ (m : JSString) (e : Nat) (sign x : JSString), Mantissa m ∧ (e = 0x65 ∨ e = 0x45) ∧
    (sign = [] ∨ sign = [0x2B] ∨ sign = [0x2D]) ∧ x ≠ [] ∧ (∀ c ∈ x, 0x30 ≤ c ∧ c ≤ 0x39) ∧
    v = m ++ e :: sign ++ x

/-- The form of a language tag: one or more letters, then groups of a hyphen and
one or more letters or digits. -/
def TagForm (tag : JSString) : Prop :=
  ∃ (letters : JSString) (groups : List JSString),
    letters ≠ [] ∧ (∀ c ∈ letters, isLetter c = true) ∧
    (∀ g ∈ groups, g ≠ [] ∧ ∀ c ∈ g, isLetterOrDigit c = true) ∧
    tag = letters ++ groups.flatMap (fun g => 0x2D :: g)

/-! ## The matcher on the basic patterns -/

theorem run_seq (a b : Regex) (st : MState) :
    run (.seq a b) st = (run a st).flatMap (run b) := by
  simp [run]

theorem run_alt (a b : Regex) (st : MState) :
    run (.alt a b) st = run a st ++ run b st := by
  simp [run]

theorem run_cls_cons (p : Nat → Bool) (pos : Nat) (c : Nat) (cs : JSString)
    (cap : Option JSString) :
    run (.cls p) ⟨pos, c :: cs, cap⟩ = if p c then [⟨pos + 1, cs, cap⟩] else [] := by
  simp [run]

theorem run_cls_nil (p : Nat → Bool) (pos : Nat) (cap : Option JSString) :
    run (.cls p) ⟨pos, [], cap⟩ = [] := by
  simp [run]

theorem runStar_cls (p : Nat → Bool) (fuel : Nat) :
    ∀ (pos : Nat) (rest : JSString) (cap : Option JSString), rest.length ≤ fuel →
      runStar (run (.cls p)) fuel ⟨pos, rest, cap⟩ = spanStates p pos rest cap := by
  induction fuel with
  | zero =>
    intro pos rest cap h
    have : rest = [] := List.length_eq_zero.mp (Nat.le_zero.mp h)
    subst this
    simp [runStar, spanStates]
  | succ n ih =>
    intro pos rest cap h
    cases rest with
    | nil => simp [runStar, spanStates, run_cls_nil]
    | cons c cs =>
      simp only [runStar, run_cls_cons, spanStates]
      by_cases hp : p c = true
      · have hlen : cs.length ≤ n := by simpa using h
        simp [hp, ih _ _ _ hlen]
      · simp [hp]

theorem run_star_cls (p : Nat → Bool) (pos : Nat) (rest : JSString) (cap : Option JSString) :
    run (.star (.cls p)) ⟨pos, rest, cap⟩ = spanStates p pos rest cap := by
  simp only [run]
  exact runStar_cls p _ pos rest cap (Nat.le_refl _)

/-- A continuation that fails wherever the class still matches sees only the
state after the whole run of the class. -/
theorem flatMap_spanStates (p : Nat → Bool) (K : MState → List MState)
    (hK : ∀ (pos : Nat) (c : Nat) (cs : JSString) (cap : Option JSString),
      p c = true → K ⟨pos, c :: cs, cap⟩ = [])
    (w r : JSString) (hw : ∀ c ∈ w, p c = true) (hr : ∀ c ∈ r.head?, p c = false) :
    ∀ (pos : Nat) (cap : Option JSString),
      (spanStates p pos (w ++ r) cap).flatMap K = K ⟨pos + w.length, r, cap⟩ := by
  induction w with
  | nil =>
    intro pos cap
    cases r with
    | nil => simp [spanStates]
    | cons c cs =>
      have : p c = false := hr c (by simp)
      simp [spanStates, this]
  | cons a w ih =>
    intro pos cap
    have ha : p a = true := hw a (by simp)
    have hw' : ∀ c ∈ w, p c = true := fun c hc => hw c (by simp [hc])
    rw [List.cons_append]
    simp only [spanStates, ha, if_true, List.flatMap_append,
      List.flatMap_cons, List.flatMap_nil, List.append_nil]
    rw [ih hw', hK pos a _ cap ha]
    simp [Nat.add_assoc, Nat.add_comm 1]

theorem head?_spanStates (p : Nat → Bool)
    (w r : JSString) (hw : ∀ c ∈ w, p c = true) (hr : ∀ c ∈ r.head?, p c = false) :
    ∀ (pos : Nat) (cap : Option JSString),
      (spanStates p pos (w ++ r) cap).head? = some ⟨pos + w.length, r, cap⟩ := by
  induction w with
  | nil =>
    intro pos cap
    cases r with
    | nil => simp [spanStates]
    | cons c cs =>
      have : p c = false := hr c (by simp)
      simp [spanStates, this]
  | cons a w ih =>
    intro pos cap
    have ha : p a = true := hw a (by simp)
    have hw' : ∀ c ∈ w, p c = true := fun c hc => hw c (by simp [hc])
    rw [List.cons_append]
    simp only [spanStates, ha, if_true, List.head?_append]
    rw [ih hw']
    simp [Nat.add_assoc, Nat.add_comm 1]

/-- The pattern `a+` of a class before a continuation that fails inside the run. -/
theorem flatMap_plus_cls (p : Nat → Bool) (K : MState → List MState)
    (hK : ∀ (pos : Nat) (c : Nat) (cs : JSString) (cap : Option JSString),
      p c = true → K ⟨pos, c :: cs, cap⟩ = [])
    (w r : JSString) (hne : w ≠ []) (hw : ∀ c ∈ w, p c = true)
    (hr : ∀ c ∈ r.head?, p c = false) (pos : Nat) (cap : Option JSString) :
    (run (Regex.plus (.cls p)) ⟨pos, w ++ r, cap⟩).flatMap K = K ⟨pos + w.length, r, cap⟩ := by
  cases w with
  | nil => exact absurd rfl hne
  | cons a w =>
    have ha : p a = true := hw a (by simp)
    have hw' : ∀ c ∈ w, p c = true := fun c hc => hw c (by simp [hc])
    rw [List.cons_append]
    simp only [Regex.plus, run_seq, run_cls_cons, ha, if_true,
      List.flatMap_cons, List.flatMap_nil, List.append_nil, run_star_cls]
    rw [flatMap_spanStates p K hK w r hw' hr]
    simp [Nat.add_assoc, Nat.add_comm 1]

theorem flatMap_star_cls (p : Nat → Bool) (K : MState → List MState)
    (hK : ∀ (pos : Nat) (c : Nat) (cs : JSString) (cap : Option JSString),
      p c = true → K ⟨pos, c :: cs, cap⟩ = [])
    (w r : JSString) (hw : ∀ c ∈ w, p c = true)
    (hr : ∀ c ∈ r.head?, p c = false) (pos : Nat) (cap : Option JSString) :
    (run (.star (.cls p)) ⟨pos, w ++ r, cap⟩).flatMap K = K ⟨pos + w.length, r, cap⟩ := by
  rw [run_star_cls]
  exact flatMap_spanStates p K hK w r hw hr pos cap

theorem run_nla (a : Regex) (st : MState) :
    run (.nla a) st = if (run a st).isEmpty then [st] else [] := by
  simp [run]

/-! ## `exec` and `test` -/

/-- No match anywhere: the pattern fails at every suffix of the input. -/
theorem execFrom_none (r : Regex) (fuel : Nat) :
    ∀ (pos : Nat) (rest : JSString) (cap : Option JSString),
      (∀ (pos' : Nat) (t : JSString), t <:+ rest → run r ⟨pos', t, cap⟩ = []) →
      execFrom r fuel ⟨pos, rest, cap⟩ = none := by
  induction fuel with
  | zero =>
    intro pos rest cap h
    simp [execFrom, h pos rest (List.suffix_refl _)]
  | succ n ih =>
    intro pos rest cap h
    simp only [execFrom, h pos rest (List.suffix_refl _), List.head?_nil]
    cases rest with
    | nil => rfl
    | cons c cs =>
      exact ih _ _ _ (fun pos' t ht => h pos' t (ht.trans (List.suffix_cons c cs)))

/-- A match at the first position is the result of `exec`. -/
theorem exec_of_head (r : Regex) (text : JSString) (m : MState)
    (h : (run r ⟨0, text, none⟩).head? = some m) : r.exec text = some m := by
  unfold Regex.exec
  cases text with
  | nil => simp [execFrom, h]
  | cons c cs => simp [execFrom, h]

theorem execFrom_cls (p : Nat → Bool) :
    ∀ (rest : JSString) (fuel pos : Nat) (cap : Option JSString), rest.length ≤ fuel →
      (execFrom (.cls p) fuel ⟨pos, rest, cap⟩).isSome = rest.any p := by
  intro rest
  induction rest with
  | nil =>
    intro fuel pos cap _
    cases fuel <;> simp [execFrom, run_cls_nil]
  | cons c cs ih =>
    intro fuel pos cap h
    cases fuel with
    | zero => simp at h
    | succ n =>
      have hlen : cs.length ≤ n := by simpa using h
      by_cases hp : p c = true
      · simp [execFrom, run_cls_cons, hp]
      · simp [execFrom, run_cls_cons, hp, ih n (pos + 1) cap hlen]

/-- The test of a one-class pattern: some code unit is in the class. -/
theorem test_cls (p : Nat → Bool) (s : JSString) : (Regex.cls p).test s = s.any p := by
  unfold Regex.test Regex.exec
  exact execFrom_cls p s _ 0 none (Nat.le_refl _)

theorem test_unit (c : Nat) (s : JSString) : (Regex.unit c).test s = true ↔ c ∈ s := by
  unfold Regex.unit
  rw [test_cls]
  simp [List.any_eq_true]

theorem prefix_of_run_lit (d : JSString) :
    ∀ (pos : Nat) (rest : JSString) (cap : Option JSString),
      run (Regex.lit d) ⟨pos, rest, cap⟩ ≠ [] → d <+: rest := by
  induction d with
  | nil => intro _ rest _ _; exact List.nil_prefix
  | cons a d ih =>
    intro pos rest cap h
    cases rest with
    | nil => simp [Regex.lit, run_seq, Regex.unit, run_cls_nil] at h
    | cons c cs =>
      simp only [Regex.lit, run_seq, Regex.unit, run_cls_cons] at h
      by_cases hc : (c == a) = true
      · simp only [hc, if_true, List.flatMap_cons, List.flatMap_nil, List.append_nil] at h
        have := ih _ _ _ h
        have hca : c = a := by simpa using hc
        subst hca
        exact List.cons_prefix_cons.mpr ⟨rfl, this⟩
      · simp [hc] at h

theorem prefix_of_run_delimiterPattern (d : JSString) (st : MState)
    (h : run (delimiterPattern d) st ≠ []) : d <+: st.rest := by
  unfold delimiterPattern at h
  rw [run_seq, run_nla] at h
  split at h
  · simp only [List.flatMap_cons, List.flatMap_nil, List.append_nil] at h
    exact prefix_of_run_lit d st.pos st.rest st.cap h
  · simp at h

/-- The assertion pattern finds nothing in a text that does not contain the delimiter. -/
theorem test_delimiterPattern_false (d e : JSString) (h : ¬ d <:+: e) :
    (delimiterPattern d).test e = false := by
  unfold Regex.test Regex.exec
  rw [execFrom_none]
  · rfl
  · intro pos' t ht
    by_contra hne
    have hp := prefix_of_run_delimiterPattern d ⟨pos', t, none⟩ hne
    exact h (hp.isInfix.trans ht.isInfix)

/-! ## `escapeString` -/

theorem escapeString_nil : escapeString [] = [] := rfl

theorem escapeString_cons (c : Nat) (s : JSString) :
    escapeString (c :: s) =
      (if escapableCodePoints c then [0x5C, c] else [c]) ++ escapeString s := by
  simp [escapeString]

theorem mem_escapeString (s : JSString) (c : Nat) (h : c ∈ escapeString s) :
    c = 0x5C ∨ c ∈ s := by
  induction s with
  | nil => simp [escapeString_nil] at h
  | cons a s ih =>
    rw [escapeString_cons] at h
    by_cases ha : escapableCodePoints a = true
    · simp only [ha, if_true, List.mem_append, List.mem_cons, List.mem_singleton] at h
      rcases h with (h | h | h) | h
      · exact Or.inl h
      · exact Or.inr (by simp [h])
      · simp at h
      · rcases ih h with h | h
        · exact Or.inl h
        · exact Or.inr (by simp [h])
    · simp only [ha, List.mem_append, List.mem_singleton] at h
      rcases h with h | h
      · simp at h
        exact Or.inr (by simp [h])
      · rcases ih h with h | h
        · exact Or.inl h
        · exact Or.inr (by simp [h])

/-- Every escapable code unit other than the backslash stands behind a backslash
in the escaped text. -/
theorem escaped_preceded (s : JSString) :
    ∀ (pre post : JSString) (c : Nat), escapeString s = pre ++ c :: post →
      escapableCodePoints c = true → c ≠ 0x5C → ∃ pre', pre = pre' ++ [0x5C] := by
  induction s with
  | nil =>
    intro pre post c h
    simp [escapeString_nil] at h
  | cons a s ih =>
    intro pre post c h hc hne
    rw [escapeString_cons] at h
    by_cases ha : escapableCodePoints a = true
    · simp only [ha, if_true] at h
      match pre, h with
      | [], h =>
        simp at h
        exact absurd h.1.symm hne
      | [x], h =>
        simp at h
        exact ⟨[], by simp [h.1]⟩
      | x :: y :: pre2, h =>
        simp at h
        obtain ⟨pre', hp⟩ := ih pre2 post c h.2.2 hc hne
        exact ⟨x :: y :: pre', by simp [hp]⟩
    · simp only [ha] at h
      match pre, h with
      | [], h =>
        simp at h
        rw [h.1] at ha
        exact absurd hc ha
      | x :: pre2, h =>
        simp at h
        obtain ⟨pre', hp⟩ := ih pre2 post c h.2 hc hne
        exact ⟨x :: pre', by simp [hp]⟩

theorem not_infix_two_quotes (s : JSString) (q : Nat) (hq : escapableCodePoints q = true)
    (hne : q ≠ 0x5C) (rest : JSString) : ¬ (q :: q :: rest) <:+: escapeString s := by
  rintro ⟨pre, post, h⟩
  have h2 : escapeString s = (pre ++ [q]) ++ q :: (rest ++ post) := by
    rw [← h]; simp
  obtain ⟨pre', hp⟩ := escaped_preceded s _ _ q h2 hq hne
  have := congrArg List.getLast? hp
  simp at this
  exact hne this

theorem not_infix_delimiter (s : JSString) : ¬ delimiter s <:+: escapeString s := by
  unfold delimiter
  by_cases hd : (0x22 : Nat) ∈ s
  · have : (Regex.unit 0x22).test s = true := (test_unit _ _).mpr hd
    simp only [this, Bool.true_or, if_true]
    exact not_infix_two_quotes s 0x22 (by decide) (by decide) [0x22]
  · have hd' : (Regex.unit 0x22).test s = false := by
      rw [Bool.eq_false_iff]; intro h; exact hd ((test_unit _ _).mp h)
    by_cases hs : (0x27 : Nat) ∈ s
    · have : (Regex.unit 0x27).test s = true := (test_unit _ _).mpr hs
      simp only [hd', this, Bool.false_or, Bool.and_false, if_true]
      rintro ⟨pre, post, h⟩
      have hm : (0x22 : Nat) ∈ escapeString s := by rw [← h]; simp
      rcases mem_escapeString s _ hm with h | h
      · exact absurd h (by decide)
      · exact hd h
    · have hs' : (Regex.unit 0x27).test s = false := by
        rw [Bool.eq_false_iff]; intro h; exact hs ((test_unit _ _).mp h)
      simp only [hd', hs', Bool.false_or, Bool.and_false]
      rintro ⟨pre, post, h⟩
      have hm : (0x27 : Nat) ∈ escapeString s := by rw [← h]; simp
      rcases mem_escapeString s _ hm with h | h
      · exact absurd h (by decide)
      · exact hs h

/-! ## Letter case -/

theorem toUpperCase_nil : toUpperCase [] = [] := rfl

theorem toUpperCase_cons (c : Nat) (s : JSString) :
    toUpperCase (c :: s) = (if 0x61 ≤ c ∧ c ≤ 0x7A then c - 0x20 else c) :: toUpperCase s := rfl

theorem toUpperCase_length (s : JSString) : (toUpperCase s).length = s.length := by
  simp [toUpperCase]

theorem toUpperCase_take (n : Nat) (s : JSString) :
    toUpperCase (s.take n) = (toUpperCase s).take n := by
  simp [toUpperCase, List.map_take]

/-- An upper-case letter of a pattern under the flag `i` against a code unit. -/
theorem unitI_iff (a c : Nat) (ha : 0x41 ≤ a ∧ a ≤ 0x5A) :
    (c == a || c == a + 0x20) = true ↔ (if 0x61 ≤ c ∧ c ≤ 0x7A then c - 0x20 else c) = a := by
  simp only [Bool.or_eq_true, beq_iff_eq]
  split <;> omega

theorem isWord_of_upper (a c : Nat) (ha : 0x41 ≤ a ∧ a ≤ 0x5A)
    (h : (if 0x61 ≤ c ∧ c ≤ 0x7A then c - 0x20 else c) = a) : isWord c = true := by
  simp only [isWord, Bool.or_eq_true, Bool.and_eq_true, decide_eq_true_eq, beq_iff_eq]
  split at h <;> omega

theorem isWord_of_toUpperCase (u : JSString) (hu : ∀ a ∈ u, 0x41 ≤ a ∧ a ≤ 0x5A) :
    ∀ (w : JSString), toUpperCase w = u → ∀ x ∈ w, isWord x = true := by
  induction u with
  | nil =>
    intro w h x hx
    cases w with
    | nil => simp at hx
    | cons c cs => simp [toUpperCase_cons] at h
  | cons a u ih =>
    intro w h x hx
    cases w with
    | nil => simp at hx
    | cons c cs =>
      rw [toUpperCase_cons] at h
      have h1 := (List.cons.inj h).1
      have h2 := (List.cons.inj h).2
      rcases List.mem_cons.mp hx with hx | hx
      · subst hx
        exact isWord_of_upper a x (hu a (by simp)) h1
      · exact ih (fun b hb => hu b (by simp [hb])) cs h2 x hx

theorem isSpace_not_isWord (c : Nat) (h : isSpace c = true) : isWord c = false := by
  rw [Bool.eq_false_iff]
  intro hw
  simp only [isSpace, Bool.or_eq_true, Bool.and_eq_true, decide_eq_true_eq, beq_iff_eq] at h
  simp only [isWord, Bool.or_eq_true, Bool.and_eq_true, decide_eq_true_eq, beq_iff_eq] at hw
  omega

/-- The literal pattern under the flag `i`. -/
theorem run_litI (u : JSString) (hu : ∀ a ∈ u, 0x41 ≤ a ∧ a ≤ 0x5A) :
    ∀ (pos : Nat) (rest : JSString) (cap : Option JSString),
      run (Regex.litI u) ⟨pos, rest, cap⟩ =
        if toUpperCase (rest.take u.length) = u then
          [⟨pos + u.length, rest.drop u.length, cap⟩]
        else [] := by
  induction u with
  | nil => intro pos rest cap; simp [Regex.litI, run, toUpperCase_nil]
  | cons a u ih =>
    intro pos rest cap
    have hu' : ∀ b ∈ u, 0x41 ≤ b ∧ b ≤ 0x5A := fun b hb => hu b (by simp [hb])
    cases rest with
    | nil => simp [Regex.litI, run_seq, Regex.unitI, run_cls_nil, toUpperCase_nil]
    | cons c cs =>
      simp only [Regex.litI, run_seq, Regex.unitI, run_cls_cons, List.length_cons,
        List.take_succ_cons, toUpperCase_cons, List.drop_succ_cons]
      by_cases hc : (c == a || c == a + 0x20) = true
      · have hc' := (unitI_iff a c (hu a (by simp))).mp hc
        simp only [hc, if_true, List.flatMap_cons, List.flatMap_nil, List.append_nil, ih hu', hc']
        by_cases ht : toUpperCase (List.take u.length cs) = u
        · simp [ht, Nat.add_assoc, Nat.add_comm 1]
        · simp [ht]
      · have hc' : ¬ (if 0x61 ≤ c ∧ c ≤ 0x7A then c - 0x20 else c) = a :=
          fun h => hc ((unitI_iff a c (hu a (by simp))).mpr h)
        simp [hc, hc']

theorem upper_PREFIX : ∀ a ∈ str "PREFIX", 0x41 ≤ a ∧ a ≤ 0x5A := by decide

theorem upper_BASE : ∀ a ∈ str "BASE", 0x41 ≤ a ∧ a ≤ 0x5A := by decide

theorem run_prologueKeyword (pos : Nat) (rest : JSString) (cap : Option JSString) :
    run prologueKeyword ⟨pos, rest, cap⟩ =
      (if toUpperCase (rest.take 6) = str "PREFIX" then [⟨pos + 6, rest.drop 6, cap⟩] else []) ++
      (if toUpperCase (rest.take 4) = str "BASE" then [⟨pos + 4, rest.drop 4, cap⟩] else []) := by
  unfold prologueKeyword
  rw [run_alt, run_litI _ upper_PREFIX, run_litI _ upper_BASE]
  rfl

/-- A prefix made of code units of a class lies within the maximal run of the class. -/
theorem prefix_of_run_of_class (p : Nat → Bool) (k rest : JSString)
    (hrest : ∀ x ∈ rest.head?, p x = false) (n : Nat)
    (h : ∀ x ∈ (k ++ rest).take n, p x = true) : (k ++ rest).take n <+: k := by
  rw [List.take_append_eq_append_take] at h ⊢
  cases rest with
  | nil => simp [List.take_prefix]
  | cons x xs =>
    have hx : p x = false := hrest x (by simp)
    cases hn : n - k.length with
    | zero => simp [List.take_prefix]
    | succ m =>
      rw [hn] at h
      have := h x (by simp)
      rw [hx] at this
      cases this

/-- The alternation `PREFIX|BASE` fails before a run of word characters that
does not begin with one of the two keywords. -/
theorem run_prologueKeyword_nil (k rest : JSString)
    (hrest : ∀ x ∈ rest.head?, isWord x = false)
    (hP : ¬ str "PREFIX" <+: toUpperCase k) (hB : ¬ str "BASE" <+: toUpperCase k)
    (pos : Nat) (cap : Option JSString) :
    run prologueKeyword ⟨pos, k ++ rest, cap⟩ = [] := by
  rw [run_prologueKeyword]
  have key : ∀ (u : JSString) (n : Nat), (∀ a ∈ u, 0x41 ≤ a ∧ a ≤ 0x5A) →
      ¬ u <+: toUpperCase k → ¬ toUpperCase ((k ++ rest).take n) = u := by
    intro u n hu hnot heq
    have hw := isWord_of_toUpperCase u hu _ heq
    have hpre := prefix_of_run_of_class isWord k rest hrest n hw
    have hm : toUpperCase ((k ++ rest).take n) <+: toUpperCase k := List.IsPrefix.map _ hpre
    rw [heq] at hm
    exact hnot hm
  simp [key _ 6 upper_PREFIX hP, key _ 4 upper_BASE hB]

/-- The alternation `PREFIX|BASE` at a keyword in any letter case. -/
theorem run_prologueKeyword_keyword (kw more : JSString)
    (hkw : toUpperCase kw = str "PREFIX" ∨ toUpperCase kw = str "BASE")
    (pos : Nat) (cap : Option JSString) :
    run prologueKeyword ⟨pos, kw ++ more, cap⟩ = [⟨pos + kw.length, more, cap⟩] := by
  rw [run_prologueKeyword]
  rcases hkw with h | h
  · have hlen : kw.length = 6 := by
      rw [← toUpperCase_length, h]; rfl
    have h6 : (kw ++ more).take 6 = kw := by
      rw [← hlen]; simp
    have h4 : ¬ toUpperCase ((kw ++ more).take 4) = str "BASE" := by
      intro h'
      have : (kw ++ more).take 4 = kw.take 4 := by
        rw [List.take_append_of_le_length (by omega)]
      rw [this, toUpperCase_take, h] at h'
      revert h'
      decide
    have hd : (kw ++ more).drop 6 = more := by
      rw [← hlen]; simp
    simp [h6, h, h4, hd, hlen]
  · have hlen : kw.length = 4 := by
      rw [← toUpperCase_length, h]; rfl
    have h4 : (kw ++ more).take 4 = kw := by
      rw [← hlen]; simp
    have h6 : ¬ toUpperCase ((kw ++ more).take 6) = str "PREFIX" := by
      intro h'
      have h'' := congrArg (List.take 4) h'
      rw [← toUpperCase_take, List.take_take] at h''
      simp only [Nat.min_def] at h''
      rw [show (if 4 ≤ 6 then 4 else 6) = 4 from rfl, h4, h] at h''
      revert h''
      decide
    have hd : (kw ++ more).drop 4 = more := by
      rw [← hlen]; simp
    simp [h4, h, h6, hd, hlen]

/-! ## The pattern of `statementIsUpdate` -/

/-- The tail of the pattern: `\s*(?!PREFIX|BASE)(\w+)`. -/
theorem statementPattern_eq :
    statementPattern = .seq .bol (.seq (.star prologueClause)
      (.seq (.star (.cls isSpace))
        (.seq (.nla prologueKeyword) (.group (Regex.plus (.cls isWord)))))) := rfl

/-- The lookahead and the group fail where no word character stands. -/
theorem run_keyword_nil (pos : Nat) (rest : JSString) (cap : Option JSString)
    (hrest : ∀ x ∈ rest.head?, isWord x = false) :
    run (.seq (.nla prologueKeyword) (.group (Regex.plus (.cls isWord)))) ⟨pos, rest, cap⟩
      = [] := by
  have hg : ∀ (st : MState), st.rest = rest →
      run (.group (Regex.plus (.cls isWord))) st = [] := by
    intro st hst
    obtain ⟨p, r, c⟩ := st
    simp only at hst
    subst hst
    cases r with
    | nil => simp [run, Regex.plus, run_cls_nil]
    | cons x xs =>
      have hx : isWord x = false := hrest x (by simp)
      simp [run, Regex.plus, hx]
  rw [run_seq, run_nla]
  split
  · simp [hg ⟨pos, rest, cap⟩ rfl]
  · simp

/-- The tail of the pattern fails where a clause begins. -/
theorem run_tail_at_keyword (ws kw more : JSString) (hws : ∀ x ∈ ws, isSpace x = true)
    (hkw : toUpperCase kw = str "PREFIX" ∨ toUpperCase kw = str "BASE")
    (pos : Nat) (cap : Option JSString) :
    run (.seq (.star (.cls isSpace))
      (.seq (.nla prologueKeyword) (.group (Regex.plus (.cls isWord)))))
      ⟨pos, ws ++ (kw ++ more), cap⟩ = [] := by
  have hletters : ∀ x ∈ kw, isWord x = true := by
    rcases hkw with h | h
    · exact isWord_of_toUpperCase _ upper_PREFIX kw h
    · exact isWord_of_toUpperCase _ upper_BASE kw h
  have hne : kw ≠ [] := by
    rintro rfl
    rcases hkw with h | h <;> exact absurd h (by decide)
  rw [run_seq, flatMap_star_cls isSpace _ _ ws (kw ++ more) hws]
  · rw [run_seq, run_nla, run_prologueKeyword_keyword kw more hkw]
    simp
  · intro x hx
    cases kw with
    | nil => exact absurd rfl hne
    | cons a as =>
      simp at hx
      subst hx
      have hwa : isWord a = true := hletters a (by simp)
      cases hs : isSpace a with
      | false => rfl
      | true => rw [isSpace_not_isWord a hs] at hwa; cases hwa
  · intro p c cs cp hc
    exact run_keyword_nil p (c :: cs) cp (fun x hx => by
      simp at hx; subst hx; exact isSpace_not_isWord _ hc)

/-- One iteration of the leading group consumes exactly one well-formed clause. -/
theorem run_prologueClause (c : Clause) (hc : c.wellFormed) (more : JSString)
    (pos : Nat) (cap : Option JSString) :
    run prologueClause ⟨pos, c.text ++ more, cap⟩ =
      [⟨pos + c.text.length, more, cap⟩] := by
  obtain ⟨hws, hkw, hmid, hmid', hiri, hiri'⟩ := hc
  have hletters : ∀ x ∈ c.keyword, isWord x = true := by
    rcases hkw with h | h
    · exact isWord_of_toUpperCase _ upper_PREFIX _ h
    · exact isWord_of_toUpperCase _ upper_BASE _ h
  have hne : c.keyword ≠ [] := by
    intro h0
    rw [h0] at hkw
    rcases hkw with h | h <;> exact absurd h (by decide)
  have htext : c.text ++ more =
      c.ws ++ (c.keyword ++ (c.mid ++ (0x3C :: (c.iri ++ (0x3E :: more))))) := by
    simp [Clause.text]
  have hlen : c.text.length =
      c.ws.length + (c.keyword.length + (c.mid.length + (1 + (c.iri.length + 1)))) := by
    simp [Clause.text]
    omega
  rw [htext, hlen]
  unfold prologueClause
  rw [run_seq, flatMap_star_cls isSpace _ _ c.ws _ hws]
  · rw [run_seq, run_prologueKeyword_keyword _ _ hkw]
    simp only [List.flatMap_cons, List.flatMap_nil, List.append_nil]
    rw [run_seq, flatMap_plus_cls (fun x => !(x == 0x3C)) _ _ c.mid _ hmid]
    · rw [run_seq]
      simp only [Regex.unit, run_cls_cons, beq_self_eq_true, if_true, List.flatMap_cons,
        List.flatMap_nil, List.append_nil]
      rw [run_seq, flatMap_plus_cls (fun x => !(x == 0x3E)) _ _ c.iri _ hiri]
      · simp only [run_cls_cons, beq_self_eq_true, if_true]
        simp [Nat.add_assoc]
      · intro x hx
        have : x ≠ 0x3E := fun h => hiri' (h ▸ hx)
        simp [this]
      · intro x hx
        simp at hx
        subst hx
        simp
      · intro p x xs cp hx
        have : ¬ x = 0x3E := by simpa using hx
        simp [run_cls_cons, this]
    · intro x hx
      have : x ≠ 0x3C := fun h => hmid' (h ▸ hx)
      simp [this]
    · intro x hx
      simp at hx
      subst hx
      simp
    · intro p x xs cp hx
      have : ¬ x = 0x3C := by simpa using hx
      simp [run_seq, Regex.unit, run_cls_cons, this]
  · intro x hx
    cases hk : c.keyword with
    | nil => exact absurd hk hne
    | cons a as =>
      rw [hk] at hx
      simp at hx
      subst hx
      have hwa : isWord a = true := hletters a (by simp [hk])
      cases hs : isSpace a with
      | false => rfl
      | true => rw [isSpace_not_isWord a hs] at hwa; cases hwa
  · intro p x xs cp hx
    have := run_prologueKeyword_nil [] (x :: xs)
      (fun y hy => by simp at hy; subst hy; exact isSpace_not_isWord _ hx)
      (by decide) (by decide) p cp
    rw [List.nil_append] at this
    rw [run_seq, this]
    simp

theorem head?_plus_cls (p : Nat → Bool) (w r : JSString) (hne : w ≠ [])
    (hw : ∀ c ∈ w, p c = true) (hr : ∀ c ∈ r.head?, p c = false)
    (pos : Nat) (cap : Option JSString) :
    (run (Regex.plus (.cls p)) ⟨pos, w ++ r, cap⟩).head? = some ⟨pos + w.length, r, cap⟩ := by
  cases w with
  | nil => exact absurd rfl hne
  | cons a w =>
    have ha : p a = true := hw a (by simp)
    have hw' : ∀ c ∈ w, p c = true := fun c hc => hw c (by simp [hc])
    rw [List.cons_append]
    simp only [Regex.plus, run_seq, run_cls_cons, ha, if_true,
      List.flatMap_cons, List.flatMap_nil, List.append_nil, run_star_cls]
    rw [head?_spanStates p w r hw' hr]
    simp [Nat.add_assoc, Nat.add_comm 1]

theorem head_not_space (k rest : JSString) (hne : k ≠ []) (hk : ∀ x ∈ k, isWord x = true) :
    ∀ x ∈ (k ++ rest).head?, isSpace x = false := by
  intro x hx
  cases k with
  | nil => exact absurd rfl hne
  | cons a as =>
    simp at hx
    subst hx
    have hwa : isWord a = true := hk a (by simp)
    cases hs : isSpace a with
    | false => rfl
    | true => rw [isSpace_not_isWord a hs] at hwa; cases hwa

/-- The tail of the pattern at the keyword: the first result captures the whole
run of word characters. -/
theorem head?_run_tail (ws k rest : JSString) (hws : ∀ x ∈ ws, isSpace x = true)
    (hne : k ≠ []) (hk : ∀ x ∈ k, isWord x = true)
    (hrest : ∀ x ∈ rest.head?, isWord x = false)
    (hP : ¬ str "PREFIX" <+: toUpperCase k) (hB : ¬ str "BASE" <+: toUpperCase k)
    (pos : Nat) (cap : Option JSString) :
    (run (.seq (.star (.cls isSpace))
      (.seq (.nla prologueKeyword) (.group (Regex.plus (.cls isWord)))))
      ⟨pos, ws ++ (k ++ rest), cap⟩).head? =
      some ⟨pos + ws.length + k.length, rest, some k⟩ := by
  rw [run_seq, flatMap_star_cls isSpace _ _ ws (k ++ rest) hws (head_not_space k rest hne hk)]
  · rw [run_seq, run_nla, run_prologueKeyword_nil k rest hrest hP hB]
    simp only [List.isEmpty_nil, if_true, List.flatMap_cons, List.flatMap_nil,
      List.append_nil, run, List.head?_map]
    have := head?_plus_cls isWord k rest hne hk hrest (pos + ws.length) cap
    simp only [Regex.plus, run] at this
    rw [this]
    simp
  · intro p c cs cp hc
    exact run_keyword_nil p (c :: cs) cp (fun x hx => by
      simp at hx; subst hx; exact isSpace_not_isWord _ hc)

/-- The tail of the pattern fails where no keyword stands. -/
theorem run_tail_nil (ws rest : JSString) (hws : ∀ x ∈ ws, isSpace x = true)
    (hrest : ∀ x ∈ rest.head?, isWord x = false ∧ isSpace x = false)
    (pos : Nat) (cap : Option JSString) :
    run (.seq (.star (.cls isSpace))
      (.seq (.nla prologueKeyword) (.group (Regex.plus (.cls isWord)))))
      ⟨pos, ws ++ rest, cap⟩ = [] := by
  rw [run_seq, flatMap_star_cls isSpace _ _ ws rest hws (fun x hx => (hrest x hx).2)]
  · exact run_keyword_nil _ rest cap (fun x hx => (hrest x hx).1)
  · intro p c cs cp hc
    exact run_keyword_nil p (c :: cs) cp (fun x hx => by
      simp at hx; subst hx; exact isSpace_not_isWord _ hc)

/-- No further iteration of the leading group where the alternation fails. -/
theorem run_prologueClause_nil (ws more : JSString) (hws : ∀ x ∈ ws, isSpace x = true)
    (hmore : ∀ x ∈ more.head?, isSpace x = false) (cap : Option JSString)
    (hkw : ∀ pos, run prologueKeyword ⟨pos, more, cap⟩ = []) (pos : Nat) :
    run prologueClause ⟨pos, ws ++ more, cap⟩ = [] := by
  unfold prologueClause
  rw [run_seq, flatMap_star_cls isSpace _ _ ws more hws hmore]
  · rw [run_seq, hkw]
    simp
  · intro p x xs cp hx
    have := run_prologueKeyword_nil [] (x :: xs)
      (fun y hy => by simp at hy; subst hy; exact isSpace_not_isWord _ hx)
      (by decide) (by decide) p cp
    rw [List.nil_append] at this
    rw [run_seq, this]
    simp

theorem Clause.text_length_pos (c : Clause) : 0 < c.text.length := by
  simp [Clause.text]

/-- The leading group over well-formed clauses: a continuation that fails where a
clause begins sees only the state after the last clause. -/
theorem flatMap_runStar_clauses (K : MState → List MState) (tail : JSString)
    (cap : Option JSString)
    (hK : ∀ (c : Clause), c.wellFormed → ∀ (more : JSString) (pos : Nat),
      K ⟨pos, c.text ++ more, cap⟩ = [])
    (htail : ∀ pos, run prologueClause ⟨pos, tail, cap⟩ = []) :
    ∀ (clauses : List Clause), (∀ c ∈ clauses, c.wellFormed) → ∀ (fuel pos : Nat),
      (prologueText clauses ++ tail).length ≤ fuel →
      (runStar (run prologueClause) fuel ⟨pos, prologueText clauses ++ tail, cap⟩).flatMap K
        = K ⟨pos + (prologueText clauses).length, tail, cap⟩ := by
  intro clauses
  induction clauses with
  | nil =>
    intro _ fuel pos _
    cases fuel with
    | zero => simp [prologueText, runStar]
    | succ n => simp [prologueText, runStar, htail]
  | cons c cs ih =>
    intro hwf fuel pos hfuel
    have hc : c.wellFormed := hwf c (by simp)
    have hcs : ∀ x ∈ cs, x.wellFormed := fun x hx => hwf x (by simp [hx])
    have htext : prologueText (c :: cs) ++ tail = c.text ++ (prologueText cs ++ tail) := by
      simp [prologueText]
    have hlen : (prologueText (c :: cs)).length = c.text.length + (prologueText cs).length := by
      simp [prologueText]
    have hpos := c.text_length_pos
    rw [htext] at hfuel ⊢
    cases fuel with
    | zero =>
      simp only [List.length_append] at hfuel
      omega
    | succ n =>
      have hn : (prologueText cs ++ tail).length ≤ n := by
        simp only [List.length_append] at hfuel ⊢
        omega
      simp only [runStar, run_prologueClause c hc]
      have hshort : (prologueText cs ++ tail).length < (c.text ++ (prologueText cs ++ tail)).length := by
        simp only [List.length_append]
        omega
      simp only [List.filter_cons, hshort, decide_True, if_true, List.filter_nil,
        List.flatMap_cons, List.flatMap_nil, List.append_nil, List.flatMap_append]
      rw [ih hcs n _ hn, hK c hc, hlen]
      simp [Nat.add_assoc]

theorem run_star_prologueClause (st : MState) :
    run (.star prologueClause) st = runStar (run prologueClause) st.rest.length st := by
  simp [run]

theorem run_bol_seq (X : Regex) (pos : Nat) (rest : JSString) (cap : Option JSString) :
    run (.seq .bol X) ⟨pos, rest, cap⟩ = if pos = 0 then run X ⟨pos, rest, cap⟩ else [] := by
  rw [run_seq]
  by_cases h : pos = 0 <;> simp [run, h]

theorem execFrom_bol_pos (X : Regex) (fuel : Nat) :
    ∀ (pos : Nat) (rest : JSString) (cap : Option JSString), 0 < pos →
      execFrom (.seq .bol X) fuel ⟨pos, rest, cap⟩ = none := by
  induction fuel with
  | zero =>
    intro pos rest cap h
    have : pos ≠ 0 := by omega
    simp [execFrom, run_bol_seq, this]
  | succ n ih =>
    intro pos rest cap h
    have : pos ≠ 0 := by omega
    simp only [execFrom, run_bol_seq, this, if_false, List.head?_nil]
    cases rest with
    | nil => rfl
    | cons c cs => exact ih _ _ _ (by omega)

/-- An anchored pattern that fails at the start of the text matches nowhere. -/
theorem exec_bol_none (X : Regex) (text : JSString)
    (h : run (.seq .bol X) ⟨0, text, none⟩ = []) : (Regex.seq .bol X).exec text = none := by
  unfold Regex.exec
  cases text with
  | nil => simp [execFrom, h]
  | cons c cs =>
    simp only [List.length_cons, execFrom, h, List.head?_nil]
    exact execFrom_bol_pos X _ _ _ _ (by omega)

/-- The names inherited from `Object.prototype` all hold a lower-case letter, an
upper-cased keyword holds none. -/
theorem not_mem_objectPrototypeNames (k : JSString) :
    objectPrototypeNames.contains (toUpperCase k) = false := by
  have hnames : ∀ n ∈ objectPrototypeNames, ∃ x ∈ n, 0x61 ≤ x ∧ x ≤ 0x7A := by decide
  have hup : ∀ x ∈ toUpperCase k, ¬ (0x61 ≤ x ∧ x ≤ 0x7A) := by
    intro x hx
    simp only [toUpperCase, List.mem_map] at hx
    obtain ⟨y, _, hy⟩ := hx
    split at hy <;> omega
  rw [Bool.eq_false_iff]
  intro h
  have hm : toUpperCase k ∈ objectPrototypeNames := by simpa using h
  obtain ⟨x, hx, hlow⟩ := hnames _ hm
  exact hup x hx hlow

/-- The match of the pattern at a statement with a keyword. -/
theorem exec_statementPattern (clauses : List Clause) (ws k rest : JSString)
    (hclauses : ∀ c ∈ clauses, c.wellFormed) (hws : ∀ x ∈ ws, isSpace x = true)
    (hne : k ≠ []) (hk : ∀ x ∈ k, isWord x = true)
    (hrest : ∀ x ∈ rest.head?, isWord x = false)
    (hP : ¬ str "PREFIX" <+: toUpperCase k) (hB : ¬ str "BASE" <+: toUpperCase k) :
    ∃ pos, statementPattern.exec (prologueText clauses ++ (ws ++ (k ++ rest))) =
      some ⟨pos, rest, some k⟩ := by
  refine ⟨0 + (prologueText clauses).length + ws.length + k.length, ?_⟩
  apply exec_of_head
  rw [statementPattern_eq, run_bol_seq]
  simp only [if_true]
  rw [run_seq, run_star_prologueClause]
  rw [flatMap_runStar_clauses _ (ws ++ (k ++ rest)) none _ _ clauses hclauses _ 0 (Nat.le_refl _)]
  · exact head?_run_tail ws k rest hws hne hk hrest hP hB _ none
  · intro c hc more pos
    have htext : c.text ++ more =
        c.ws ++ (c.keyword ++ (c.mid ++ (0x3C :: (c.iri ++ (0x3E :: more))))) := by
      simp [Clause.text]
    rw [htext]
    exact run_tail_at_keyword c.ws c.keyword _ hc.1 hc.2.1 pos none
  · intro pos
    exact run_prologueClause_nil ws (k ++ rest) hws (head_not_space k rest hne hk) none
      (fun p => run_prologueKeyword_nil k rest hrest hP hB p none) pos

/-- No match of the pattern at a statement without a keyword. -/
theorem exec_statementPattern_none (clauses : List Clause) (ws rest : JSString)
    (hclauses : ∀ c ∈ clauses, c.wellFormed) (hws : ∀ x ∈ ws, isSpace x = true)
    (hrest : ∀ x ∈ rest.head?, isWord x = false ∧ isSpace x = false) :
    statementPattern.exec (prologueText clauses ++ (ws ++ rest)) = none := by
  rw [statementPattern_eq]
  apply exec_bol_none
  rw [run_bol_seq]
  simp only [if_true]
  rw [run_seq, run_star_prologueClause]
  rw [flatMap_runStar_clauses _ (ws ++ rest) none _ _ clauses hclauses _ 0 (Nat.le_refl _)]
  · exact run_tail_nil ws rest hws hrest _ none
  · intro c hc more pos
    have htext : c.text ++ more =
        c.ws ++ (c.keyword ++ (c.mid ++ (0x3C :: (c.iri ++ (0x3E :: more))))) := by
      simp [Clause.text]
    rw [htext]
    exact run_tail_at_keyword c.ws c.keyword _ hc.1 hc.2.1 pos none
  · intro pos
    have := run_prologueKeyword_nil [] rest (fun x hx => (hrest x hx).1) (by decide) (by decide)
    simp only [List.nil_append] at this
    exact run_prologueClause_nil ws rest hws (fun x hx => (hrest x hx).2) none
      (fun p => this p none) pos

/-- The classification of a statement with a keyword. -/
theorem statementIsUpdate_of_keyword (clauses : List Clause) (ws k rest : JSString)
    (hclauses : ∀ c ∈ clauses, c.wellFormed) (hws : ∀ x ∈ ws, isSpace x = true)
    (hne : k ≠ []) (hk : ∀ x ∈ k, isWord x = true)
    (hrest : ∀ x ∈ rest.head?, isWord x = false)
    (hP : ¬ str "PREFIX" <+: toUpperCase k) (hB : ¬ str "BASE" <+: toUpperCase k) :
    statementIsUpdate (prologueText clauses ++ (ws ++ (k ++ rest))) =
      .ok (decide (toUpperCase k ∈ update)) := by
  obtain ⟨pos, h⟩ := exec_statementPattern clauses ws k rest hclauses hws hne hk hrest hP hB
  unfold statementIsUpdate
  rw [h]
  have hn : toUpperCase k ∉ objectPrototypeNames := by
    have := not_mem_objectPrototypeNames k
    simpa using this
  simp [hn]

theorem mem_run_seq (a b : Regex) (st m : MState) :
    m ∈ run (.seq a b) st ↔ ∃ s ∈ run a st, m ∈ run b s := by
  rw [run_seq, List.mem_flatMap]

/-- A result of the pattern of `statementIsUpdate` carries its capture group. -/
theorem cap_of_mem_run_statementPattern (st m : MState) (h : m ∈ run statementPattern st) :
    ∃ k, m.cap = some k := by
  rw [statementPattern_eq] at h
  obtain ⟨_, _, h⟩ := (mem_run_seq _ _ _ _).mp h
  obtain ⟨_, _, h⟩ := (mem_run_seq _ _ _ _).mp h
  obtain ⟨_, _, h⟩ := (mem_run_seq _ _ _ _).mp h
  obtain ⟨s, _, h⟩ := (mem_run_seq _ _ _ _).mp h
  simp only [run, List.mem_map] at h
  obtain ⟨s', _, hs'⟩ := h
  exact ⟨_, by rw [← hs']⟩

theorem mem_run_of_execFrom (r : Regex) (fuel : Nat) :
    ∀ (st m : MState), execFrom r fuel st = some m → ∃ st', m ∈ run r st' := by
  induction fuel with
  | zero =>
    intro st m h
    exact ⟨st, List.mem_of_mem_head? (by simpa [execFrom] using h)⟩
  | succ n ih =>
    intro st m h
    simp only [execFrom] at h
    cases hh : (run r st).head? with
    | some m' =>
      rw [hh] at h
      simp only [Option.some.injEq] at h
      subst h
      exact ⟨st, List.mem_of_mem_head? hh⟩
    | none =>
      rw [hh] at h
      cases hr : st.rest with
      | nil => rw [hr] at h; cases h
      | cons c cs =>
        rw [hr] at h
        exact ih _ _ h

/-! ## From a match back to the form of the text -/

theorem mem_spanStates (p : Nat → Bool) (s : MState) :
    ∀ (rest : JSString) (pos : Nat) (cap : Option JSString),
      s ∈ spanStates p pos rest cap →
      ∃ w, (∀ c ∈ w, p c = true) ∧ rest = w ++ s.rest ∧ s.cap = cap := by
  intro rest
  induction rest with
  | nil =>
    intro pos cap h
    simp only [spanStates, List.mem_singleton] at h
    exact ⟨[], by simp, by simp [h], by simp [h]⟩
  | cons c cs ih =>
    intro pos cap h
    simp only [spanStates] at h
    by_cases hp : p c = true
    · simp only [hp, if_true, List.mem_append, List.mem_singleton] at h
      rcases h with h | h
      · obtain ⟨w, hw, hr, hc⟩ := ih _ _ h
        refine ⟨c :: w, ?_, by simp [← hr], hc⟩
        intro x hx
        rcases List.mem_cons.mp hx with hx | hx
        · subst hx; exact hp
        · exact hw x hx
      · exact ⟨[], by simp, by simp [h], by simp [h]⟩
    · simp [hp] at h
      exact ⟨[], by simp, by simp [h], by simp [h]⟩

theorem mem_run_cls (p : Nat → Bool) (st s : MState) (h : s ∈ run (.cls p) st) :
    ∃ c, p c = true ∧ st.rest = c :: s.rest ∧ s.cap = st.cap := by
  obtain ⟨pos, rest, cap⟩ := st
  cases rest with
  | nil => simp [run_cls_nil] at h
  | cons c cs =>
    rw [run_cls_cons] at h
    by_cases hp : p c = true
    · simp only [hp, if_true, List.mem_singleton] at h
      exact ⟨c, hp, by simp [h], by simp [h]⟩
    · simp [hp] at h

theorem mem_run_star_cls (p : Nat → Bool) (st s : MState) (h : s ∈ run (.star (.cls p)) st) :
    ∃ w, (∀ c ∈ w, p c = true) ∧ st.rest = w ++ s.rest ∧ s.cap = st.cap := by
  obtain ⟨pos, rest, cap⟩ := st
  rw [run_star_cls] at h
  exact mem_spanStates p s rest pos cap h

theorem mem_run_plus_cls (p : Nat → Bool) (st s : MState)
    (h : s ∈ run (Regex.plus (.cls p)) st) :
    ∃ w, w ≠ [] ∧ (∀ c ∈ w, p c = true) ∧ st.rest = w ++ s.rest ∧ s.cap = st.cap := by
  unfold Regex.plus at h
  obtain ⟨s1, h1, h2⟩ := (mem_run_seq _ _ _ _).mp h
  obtain ⟨c, hc, hr1, hc1⟩ := mem_run_cls p st s1 h1
  obtain ⟨w, hw, hr2, hc2⟩ := mem_run_star_cls p s1 s h2
  refine ⟨c :: w, by simp, ?_, by rw [hr1, hr2]; simp, by rw [hc2, hc1]⟩
  intro x hx
  rcases List.mem_cons.mp hx with hx | hx
  · subst hx; exact hc
  · exact hw x hx

theorem mem_run_prologueKeyword (st s : MState) (h : s ∈ run prologueKeyword st) :
    ∃ kw, (toUpperCase kw = str "PREFIX" ∨ toUpperCase kw = str "BASE") ∧
      st.rest = kw ++ s.rest ∧ s.cap = st.cap := by
  obtain ⟨pos, rest, cap⟩ := st
  rw [run_prologueKeyword, List.mem_append] at h
  rcases h with h | h
  · split at h
    · rename_i hk
      simp only [List.mem_singleton] at h
      exact ⟨rest.take 6, Or.inl hk, by simp [h], by simp [h]⟩
    · simp at h
  · split at h
    · rename_i hk
      simp only [List.mem_singleton] at h
      exact ⟨rest.take 4, Or.inr hk, by simp [h], by simp [h]⟩
    · simp at h

/-- One iteration of the leading group consumed a well-formed clause. -/
theorem mem_run_prologueClause (st s : MState) (h : s ∈ run prologueClause st) :
    ∃ c : Clause, c.wellFormed ∧ st.rest = c.text ++ s.rest ∧ s.cap = st.cap := by
  unfold prologueClause at h
  obtain ⟨s1, h1, h⟩ := (mem_run_seq _ _ _ _).mp h
  obtain ⟨s2, h2, h⟩ := (mem_run_seq _ _ _ _).mp h
  obtain ⟨s3, h3, h⟩ := (mem_run_seq _ _ _ _).mp h
  obtain ⟨s4, h4, h⟩ := (mem_run_seq _ _ _ _).mp h
  obtain ⟨s5, h5, h6⟩ := (mem_run_seq _ _ _ _).mp h
  obtain ⟨ws, hws, r1, c1⟩ := mem_run_star_cls _ _ _ h1
  obtain ⟨kw, hkw, r2, c2⟩ := mem_run_prologueKeyword _ _ h2
  obtain ⟨mid, hmid, hmid', r3, c3⟩ := mem_run_plus_cls _ _ _ h3
  obtain ⟨x4, hx4, r4, c4⟩ := mem_run_cls _ _ _ h4
  obtain ⟨iri, hiri, hiri', r5, c5⟩ := mem_run_plus_cls _ _ _ h5
  obtain ⟨x6, hx6, r6, c6⟩ := mem_run_cls _ _ _ h6
  have e4 : x4 = 0x3C := by simpa using hx4
  have e6 : x6 = 0x3E := by simpa using hx6
  subst e4 e6
  refine ⟨⟨ws, kw, mid, iri⟩, ⟨hws, hkw, hmid, ?_, hiri, ?_⟩, ?_, ?_⟩
  · intro hm
    have := hmid' _ hm
    simp at this
  · intro hm
    have := hiri' _ hm
    simp at this
  · rw [r1, r2, r3, r4, r5, r6]
    simp [Clause.text]
  · rw [c6, c5, c4, c3, c2, c1]

/-- The leading group consumed well-formed clauses only. -/
theorem mem_runStar_prologueClause (s : MState) (fuel : Nat) :
    ∀ (st : MState), s ∈ runStar (run prologueClause) fuel st →
      ∃ clauses : List Clause, (∀ c ∈ clauses, c.wellFormed) ∧
        st.rest = prologueText clauses ++ s.rest ∧ s.cap = st.cap := by
  induction fuel with
  | zero =>
    intro st h
    simp only [runStar, List.mem_singleton] at h
    exact ⟨[], by simp, by simp [h, prologueText], by simp [h]⟩
  | succ n ih =>
    intro st h
    simp only [runStar, List.mem_append, List.mem_flatMap, List.mem_filter,
      List.mem_singleton] at h
    rcases h with ⟨s1, ⟨h1, _⟩, h2⟩ | h
    · obtain ⟨c, hc, r1, c1⟩ := mem_run_prologueClause st s1 h1
      obtain ⟨cs, hcs, r2, c2⟩ := ih s1 h2
      refine ⟨c :: cs, ?_, by rw [r1, r2]; simp [prologueText], by rw [c2, c1]⟩
      intro x hx
      rcases List.mem_cons.mp hx with hx | hx
      · subst hx; exact hc
      · exact hcs x hx
    · exact ⟨[], by simp, by simp [h, prologueText], by simp [h]⟩

/-- A match of an anchored pattern starts at the first position. -/
theorem run_of_execFrom_bol (X : Regex) (fuel : Nat) :
    ∀ (rest : JSString) (cap : Option JSString) (m : MState),
      execFrom (.seq .bol X) fuel ⟨0, rest, cap⟩ = some m → m ∈ run X ⟨0, rest, cap⟩ := by
  intro rest cap m h
  cases fuel with
  | zero =>
    have h' : (run (.seq .bol X) ⟨0, rest, cap⟩).head? = some m := by simpa [execFrom] using h
    have := List.mem_of_mem_head? h'
    simpa [run_bol_seq] using this
  | succ n =>
    simp only [execFrom] at h
    cases hh : (run (.seq .bol X) ⟨0, rest, cap⟩).head? with
    | some m' =>
      rw [hh] at h
      simp only [Option.some.injEq] at h
      subst h
      have := List.mem_of_mem_head? hh
      simpa [run_bol_seq] using this
    | none =>
      rw [hh] at h
      cases rest with
      | nil => cases h
      | cons c cs =>
        simp only at h
        rw [execFrom_bol_pos X n _ _ _ (by omega)] at h
        cases h

theorem head?_dropWhile_not (p : Nat → Bool) (l : JSString) :
    ∀ x ∈ (l.dropWhile p).head?, p x = false := by
  intro x hx
  induction l with
  | nil => simp at hx
  | cons a as ih =>
    by_cases ha : p a = true
    · simp only [List.dropWhile_cons, ha, if_true] at hx
      exact ih hx
    · simp only [List.dropWhile_cons, ha] at hx
      simp at hx
      subst hx
      simpa using ha

/-- A match of the pattern of `statementIsUpdate` shows the form of the text. -/
theorem hasKeyword_of_exec (text : JSString) (m : MState)
    (h : statementPattern.exec text = some m) : HasKeyword text := by
  unfold Regex.exec at h
  rw [statementPattern_eq] at h
  have hm0 := run_of_execFrom_bol _ _ _ _ _ h
  obtain ⟨s1, h1, hm1⟩ := (mem_run_seq _ _ _ _).mp hm0
  obtain ⟨s2, h2, hm2⟩ := (mem_run_seq _ _ _ _).mp hm1
  obtain ⟨s3, h3, hm⟩ := (mem_run_seq _ _ _ _).mp hm2
  clear hm0 hm1 hm2 h
  rw [run_star_prologueClause] at h1
  obtain ⟨clauses, hcl, r1, _⟩ := mem_runStar_prologueClause s1 _ _ h1
  obtain ⟨ws, hws, r2, _⟩ := mem_run_star_cls _ _ _ h2
  rw [run_nla] at h3
  by_cases hkw : (run prologueKeyword s2).isEmpty = true
  · simp only [hkw, if_true, List.mem_singleton] at h3
    subst h3
    simp only [run, List.mem_map] at hm
    obtain ⟨s4, h4, hm4⟩ := hm
    have h4' : s4 ∈ run (Regex.plus (.cls isWord)) s3 := by
      simpa [Regex.plus, run] using h4
    obtain ⟨k, hne, hk, r4, _⟩ := mem_run_plus_cls _ _ _ h4'
    -- extend the run to the maximal one
    refine ⟨clauses, ws, k ++ s4.rest.takeWhile isWord, s4.rest.dropWhile isWord,
      hcl, hws, by simp [hne], ?_, head?_dropWhile_not isWord _, ?_, ?_, ?_⟩
    · intro x hx
      rcases List.mem_append.mp hx with hx | hx
      · exact hk x hx
      · exact (List.mem_takeWhile_imp hx)
    · intro hP
      have hrun := List.isEmpty_iff.mp hkw
      obtain ⟨p3, rest3, cap3⟩ := s3
      simp only at r4
      subst r4
      rw [run_prologueKeyword] at hrun
      have hsplit : k ++ s4.rest =
          (k ++ s4.rest.takeWhile isWord) ++ s4.rest.dropWhile isWord := by
        simp [List.takeWhile_append_dropWhile]
      have : toUpperCase ((k ++ s4.rest).take 6) = str "PREFIX" := by
        obtain ⟨t, ht⟩ := hP
        have hlen : 6 ≤ (k ++ s4.rest.takeWhile isWord).length := by
          rw [← toUpperCase_length, ← ht]
          simp [str]
        rw [hsplit, List.take_append_of_le_length hlen, toUpperCase_take, ← ht]
        simp [str]
      simp [this] at hrun
    · intro hB
      have hrun := List.isEmpty_iff.mp hkw
      obtain ⟨p3, rest3, cap3⟩ := s3
      simp only at r4
      subst r4
      rw [run_prologueKeyword] at hrun
      have hsplit : k ++ s4.rest =
          (k ++ s4.rest.takeWhile isWord) ++ s4.rest.dropWhile isWord := by
        simp [List.takeWhile_append_dropWhile]
      have : toUpperCase ((k ++ s4.rest).take 4) = str "BASE" := by
        obtain ⟨t, ht⟩ := hB
        have hlen : 4 ≤ (k ++ s4.rest.takeWhile isWord).length := by
          rw [← toUpperCase_length, ← ht]
          simp [str]
        rw [hsplit, List.take_append_of_le_length hlen, toUpperCase_take, ← ht]
        simp [str]
      simp [this] at hrun
    · have r1' : text = prologueText clauses ++ s1.rest := r1
      rw [r1', r2, r4]
      simp [List.takeWhile_append_dropWhile]
  · simp [hkw] at h3

/-! # The claims -/

/-! ## `formatString` -/

/-- C1 (the code departs from the claim): for the text `a`, linefeed, `b`, which
holds no U+0000, `formatString` chooses the one-character delimiter `'` and the
body between the delimiters holds the raw linefeed, which is not legal inside
a one-character delimiter. -/
theorem formatString_raw_linefeed_in_short_delimiter :
    formatString (str "a\nb") = .ok ([0x27] ++ str "a\nb" ++ [0x27]) ∧
    delimiter (str "a\nb") = [0x27] ∧
    0x0A ∈ escapeString (str "a\nb") ∧ 0x00 ∉ str "a\nb" := by
  decide

/-- C2: for every text, every quote character of the escaped text stands behind a
backslash, the chosen delimiter occurs nowhere in the escaped text, the
pattern of the assertion finds nothing, and `formatString` returns the escaped
text between two copies of the delimiter. -/
theorem formatString_assertion_holds (s : JSString) :
    (∀ (pre post : JSString) (c : Nat), escapeString s = pre ++ c :: post →
      (c = 0x22 ∨ c = 0x27) → ∃ pre', pre = pre' ++ [0x5C]) ∧
    ¬ delimiter s <:+: escapeString s ∧
    (delimiterPattern (delimiter s)).test (escapeString s) = false ∧
    formatString s = .ok (delimiter s ++ escapeString s ++ delimiter s) := by
  refine ⟨?_, not_infix_delimiter s, test_delimiterPattern_false _ _ (not_infix_delimiter s), ?_⟩
  · intro pre post c h hc
    rcases hc with hc | hc <;> subst hc
    · exact escaped_preceded s pre post _ h (by decide) (by decide)
    · exact escaped_preceded s pre post _ h (by decide) (by decide)
  · unfold formatString
    simp [test_delimiterPattern_false _ _ (not_infix_delimiter s)]

/-- C3 (the code departs from the claim): a text with a linefeed and no quote is
wrapped in `'`, and a text with a double quote, no single quote and no
linefeed is wrapped in three double quotes. -/
theorem formatString_delimiter_of_linefeed_and_of_double_quote :
    formatString (str "x\ny") = .ok (str "'x\ny'") ∧
    formatString (str "x\"y") = .ok (str "\"\"\"x\\\"y\"\"\"") := by
  decide

/-! ## `Literal.prototype.format` -/

/-- C4 (the code departs from the claim): the value `1x5` with the datatype
xsd:decimal and the value `untrue` with the datatype xsd:boolean are returned
bare, though neither is a lexical form of its type. -/
theorem format_bare_for_illegal_decimal_and_boolean :
    Literal.format ⟨str "1x5", some ⟨some (str "xsd"), str "decimal", str "xsd:decimal"⟩⟩
      = .ok (str "1x5") ∧
    Literal.format ⟨str "untrue", some ⟨some (str "xsd"), str "boolean", str "xsd:boolean"⟩⟩
      = .ok (str "untrue") := by
  decide

/-- C5 (the code departs from the claim): for the datatypes xsd:dateTime and
xsd:string the assertion of `tryFormatType` throws, so `format` returns nothing. -/
theorem format_throws_for_other_xsd_datatype :
    Literal.format ⟨str "2001-10-26T21:32:52",
        some ⟨some (str "xsd"), str "dateTime", str "xsd:dateTime"⟩⟩ = .error .assertion ∧
    Literal.format ⟨str "abc", some ⟨some (str "xsd"), str "string", str "xsd:string"⟩⟩
      = .error .assertion := by
  decide

/-! ## `statementIsUpdate` -/

/-- C6: for a text made of well-formed leading clauses (`PREFIX` or `BASE` in any
letter case), white space, and then a maximal non-empty run `k` of word
characters that does not begin with `PREFIX` or `BASE` (in any letter case),
`statementIsUpdate` returns whether the upper-cased `k` is one of the ten update
keywords of the table `update`. -/
theorem statementIsUpdate_classifies (clauses : List Clause) (ws k rest : JSString)
    (hclauses : ∀ c ∈ clauses, c.wellFormed) (hws : ∀ x ∈ ws, isSpace x = true)
    (hne : k ≠ []) (hk : ∀ x ∈ k, isWord x = true)
    (hrest : ∀ x ∈ rest.head?, isWord x = false)
    (hP : ¬ str "PREFIX" <+: toUpperCase k) (hB : ¬ str "BASE" <+: toUpperCase k) :
    statementIsUpdate (prologueText clauses ++ ws ++ k ++ rest) =
      .ok (decide (toUpperCase k ∈
        [str "LOAD", str "CLEAR", str "DROP", str "CREATE", str "ADD", str "MOVE",
         str "COPY", str "INSERT", str "DELETE", str "WITH"])) := by
  have h := statementIsUpdate_of_keyword clauses ws k rest hclauses hws hne hk hrest hP hB
  simp only [List.append_assoc]
  exact h

/-- C6, witness: `PREFIX x: <y> SELECT * WHERE {}` is a query, and
`base <u>`, linefeed, `prefix a: <b>`, linefeed, `insert data {}` is an update. -/
theorem statementIsUpdate_classifies_witness :
    statementIsUpdate (str "PREFIX x: <y> SELECT * WHERE \x7b\x7d") = .ok false ∧
    statementIsUpdate (str "base <u>\nprefix a: <b>\ninsert data \x7b\x7d") = .ok true :=
  ⟨statementIsUpdate_classifies [⟨[], str "PREFIX", str " x: ", str "y"⟩] (str " ")
      (str "SELECT") (str " * WHERE \x7b\x7d")
      (by decide) (by decide) (by decide) (by decide) (by decide) (by decide) (by decide),
   statementIsUpdate_classifies
      [⟨[], str "base", str " ", str "u"⟩, ⟨str "\n", str "prefix", str " a: ", str "b"⟩]
      (str "\n") (str "insert") (str " data \x7b\x7d")
      (by decide) (by decide) (by decide) (by decide) (by decide) (by decide) (by decide)⟩

/-- C7: `statementIsUpdate` throws the malformed-query error exactly when no
keyword can be located in the text (`HasKeyword`), and it throws no other
error.  It throws for a text of white space only (the empty
text among them) and, more generally, for well-formed leading clauses and white
space followed by the end of the text or by a character that is neither a word
character nor white space.  It does not throw for white space followed by a
maximal non-empty run of word characters that does not begin with `PREFIX` or
`BASE` (in any letter case). -/
theorem statementIsUpdate_throws_iff_no_keyword (text : JSString) (clauses : List Clause)
    (ws rest k rest2 : JSString)
    (hclauses : ∀ c ∈ clauses, c.wellFormed) (hws : ∀ x ∈ ws, isSpace x = true)
    (hrest : ∀ x ∈ rest.head?, isWord x = false ∧ isSpace x = false)
    (hne : k ≠ []) (hk : ∀ x ∈ k, isWord x = true)
    (hrest2 : ∀ x ∈ rest2.head?, isWord x = false)
    (hP : ¬ str "PREFIX" <+: toUpperCase k) (hB : ¬ str "BASE" <+: toUpperCase k) :
    (statementIsUpdate text = .error .malformedQuery ↔ ¬ HasKeyword text) ∧
    (∀ e, statementIsUpdate text = .error e → e = .malformedQuery) ∧
    statementIsUpdate ws = .error .malformedQuery ∧
    statementIsUpdate (prologueText clauses ++ ws ++ rest) = .error .malformedQuery ∧
    statementIsUpdate (ws ++ k ++ rest2) = .ok (decide (toUpperCase k ∈ update)) := by
  refine ⟨?_, ?_, ?_, ?_, ?_⟩
  · constructor
    · rintro he ⟨cl, w, k', r, hcl, hw, hne', hk', hr, hP', hB', rfl⟩
      have h := statementIsUpdate_of_keyword cl w k' r hcl hw hne' hk' hr hP' hB'
      simp only [List.append_assoc] at he
      rw [h] at he
      cases he
    · intro hno
      unfold statementIsUpdate
      cases hm : statementPattern.exec text with
      | none => rfl
      | some m => exact absurd (hasKeyword_of_exec text m hm) hno
  · intro e he
    unfold statementIsUpdate at he
    cases hm : statementPattern.exec text with
    | none =>
      rw [hm] at he
      simp only [Except.error.injEq] at he
      exact he.symm
    | some m =>
      obtain ⟨st', hst'⟩ := mem_run_of_execFrom _ _ _ _ hm
      obtain ⟨c, hc⟩ := cap_of_mem_run_statementPattern st' m hst'
      rw [hm] at he
      simp [hc] at he
  · have h := exec_statementPattern_none [] ws [] (by simp) hws (by simp)
    simp only [prologueText, List.flatMap_nil, List.nil_append, List.append_nil] at h
    unfold statementIsUpdate
    rw [h]
  · have h := exec_statementPattern_none clauses ws rest hclauses hws hrest
    simp only [List.append_assoc]
    unfold statementIsUpdate
    rw [h]
  · have h := statementIsUpdate_of_keyword [] ws k rest2 (by simp) hws hne hk hrest2 hP hB
    simp only [prologueText, List.flatMap_nil, List.nil_append] at h
    simp only [List.append_assoc]
    exact h

/-- C7, witness: the text of a blank and a linefeed throws, so does
`PREFIX x: <y>` followed by a blank, a linefeed and `<z>`, and the text of a
blank, a linefeed and `ASK {}` does not. -/
theorem statementIsUpdate_throws_iff_no_keyword_witness :
    statementIsUpdate (str " \n") = .error .malformedQuery ∧
    statementIsUpdate (str "PREFIX x: <y> \n<z>") = .error .malformedQuery ∧
    statementIsUpdate (str " \nASK \x7b\x7d") = .ok false :=
  (statementIsUpdate_throws_iff_no_keyword [] [⟨[], str "PREFIX", str " x: ", str "y"⟩]
    (str " \n") (str "<z>") (str "ASK") (str " \x7b\x7d")
    (by decide) (by decide) (by decide) (by decide) (by decide) (by decide) (by decide)
    (by decide)).2.2

/-! ## `makePreamble` -/

theorem ensureSafeURI_eq (uri : JSString) :
    ensureSafeURI uri = if suspicious uri then .error .suspiciousURI else .ok uri := by
  unfold ensureSafeURI
  rw [test_cls]
  by_cases h : suspicious uri
  · have : uri.any (fun c => c == 0x00 || c == 0x0A || c == 0x3E) = true := by
      rw [List.any_eq_true]
      rcases h with h | h | h
      · exact ⟨_, h, by decide⟩
      · exact ⟨_, h, by decide⟩
      · exact ⟨_, h, by decide⟩
    simp [this, h]
  · have : uri.any (fun c => c == 0x00 || c == 0x0A || c == 0x3E) = false := by
      rw [Bool.eq_false_iff]
      intro ht
      rw [List.any_eq_true] at ht
      obtain ⟨c, hc, hp⟩ := ht
      apply h
      simp only [Bool.or_eq_true, beq_iff_eq] at hp
      rcases hp with (hp | hp) | hp <;> subst hp
      · exact Or.inl hc
      · exact Or.inr (Or.inl hc)
      · exact Or.inr (Or.inr hc)
    simp [this, h]

/-- The lines `PREFIX name: <uri>` of a prefixes object. -/
theorem loop_ok (prefixes : Obj) :
    ∀ (preamble : JSString), (∀ entry ∈ prefixes, ¬ suspicious entry.2) →
      makePreamble.loop prefixes preamble = .ok (preamble ++ prefixes.flatMap
        (fun entry => str "PREFIX " ++ entry.1 ++ str ": <" ++ entry.2 ++ str ">\n")) := by
  induction prefixes with
  | nil => intro preamble _; simp [makePreamble.loop]
  | cons e rest ih =>
    intro preamble h
    have he : ¬ suspicious e.2 := h e (by simp)
    have hr : ∀ entry ∈ rest, ¬ suspicious entry.2 := fun x hx => h x (by simp [hx])
    simp only [makePreamble.loop, makePreamble.step, ensureSafeURI_eq, he, if_false]
    rw [ih _ hr]
    simp [List.append_assoc]

theorem loop_error (prefixes : Obj) :
    ∀ (preamble : JSString), (∃ entry ∈ prefixes, suspicious entry.2) →
      makePreamble.loop prefixes preamble = .error .suspiciousURI := by
  induction prefixes with
  | nil => intro preamble h; simp at h
  | cons e rest ih =>
    intro preamble h
    by_cases he : suspicious e.2
    · simp [makePreamble.loop, makePreamble.step, ensureSafeURI_eq, he]
    · have hr : ∃ entry ∈ rest, suspicious entry.2 := by
        obtain ⟨x, hx, hs⟩ := h
        rcases List.mem_cons.mp hx with hx | hx
        · subst hx; exact absurd hs he
        · exact ⟨x, hx, hs⟩
      simp only [makePreamble.loop, makePreamble.step, ensureSafeURI_eq, he, if_false]
      exact ih _ hr

theorem suspicious_nil : ¬ suspicious [] := by
  simp [suspicious]

theorem baseLine_eq (base : Option JSString) :
    makePreamble.baseLine base =
      match base with
      | none => .ok []
      | some b =>
        if suspicious b then .error .suspiciousURI
        else if b = [] then .ok [] else .ok (str "BASE <" ++ b ++ str ">\n") := by
  cases base with
  | none => rfl
  | some b =>
    cases b with
    | nil => simp [makePreamble.baseLine, suspicious_nil]
    | cons c cs =>
      by_cases h : suspicious (c :: cs) <;>
        simp [makePreamble.baseLine, ensureSafeURI_eq, h]

theorem finish_eq (L : JSString) :
    (if L.isEmpty then (Except.ok L : Except Err JSString) else .ok (L ++ str "\n")) =
      .ok (if L.isEmpty then [] else L ++ str "\n") := by
  cases L <;> simp

/-- The preamble of a registry without a suspicious URI. -/
theorem makePreamble_ok (prefixes : Obj) (base : Option JSString)
    (hbase : ∀ b ∈ base, ¬ suspicious b)
    (hprefixes : ∀ entry ∈ prefixes, ¬ suspicious entry.2) :
    makePreamble prefixes base =
      .ok (preambleSpec prefixes (if base = some [] then none else base)) := by
  unfold makePreamble
  rw [baseLine_eq]
  cases base with
  | none =>
    simp only [loop_ok prefixes _ hprefixes, preambleSpec, List.nil_append]
    exact finish_eq _
  | some b =>
    have hb : ¬ suspicious b := hbase b rfl
    cases b with
    | nil =>
      simp only [hb, if_false, if_true, loop_ok prefixes _ hprefixes, preambleSpec,
        List.nil_append]
      exact finish_eq _
    | cons c cs =>
      have hne : (some (c :: cs) = some []) = False := by simp
      simp only [hb, if_false, loop_ok prefixes _ hprefixes, preambleSpec, hne, reduceCtorEq]
      exact finish_eq _

/-- C8, as amended: when no URI of the registry is suspicious, `makePreamble`
returns the preamble of the specification, an empty base counting as no base:
the line `BASE <base>` if the base is set and not empty, one line
`PREFIX name: <uri>` for each entry of the prefixes object in its order, and
one more linefeed if anything was emitted. -/
theorem makePreamble_eq_preambleSpec (prefixes : Obj) (base : Option JSString)
    (hbase : ∀ b ∈ base, ¬ suspicious b)
    (hprefixes : ∀ entry ∈ prefixes, ¬ suspicious entry.2) :
    makePreamble prefixes base =
      .ok (preambleSpec prefixes (if base = some [] then none else base)) :=
  makePreamble_ok prefixes base hbase hprefixes

/-- C8, witness: the registry with the prefix `xsd` and the base `http://base/`. -/
theorem makePreamble_eq_preambleSpec_witness :
    makePreamble [(str "xsd", str "U")] (some (str "http://base/")) =
      .ok (str "BASE <http://base/>\nPREFIX xsd: <U>\n\n") :=
  makePreamble_eq_preambleSpec [(str "xsd", str "U")] (some (str "http://base/"))
    (by decide) (by decide)

/-- C8, counterexample: with the base set to the empty text and no prefix,
`makePreamble` returns the empty text, not the line `BASE <>` and a linefeed. -/
theorem makePreamble_empty_base_ne_preambleSpec :
    makePreamble [] (some []) = .ok [] ∧
    preambleSpec [] (some []) = str "BASE <>\n\n" ∧
    makePreamble [] (some []) ≠ .ok (preambleSpec [] (some [])) := by
  decide

/-- C9: `makePreamble` throws exactly when the base or the URI of some entry holds
U+0000, a linefeed or `>`, and whenever it returns, neither the base nor any
URI of the registry holds `>` or a linefeed. -/
theorem makePreamble_throws_iff (prefixes : Obj) (base : Option JSString) :
    (makePreamble prefixes base = .error .suspiciousURI ↔
      ((∃ b ∈ base, suspicious b) ∨ ∃ entry ∈ prefixes, suspicious entry.2)) ∧
    ((∃ text, makePreamble prefixes base = .ok text) ↔
      ¬ ((∃ b ∈ base, suspicious b) ∨ ∃ entry ∈ prefixes, suspicious entry.2)) ∧
    (∀ text, makePreamble prefixes base = .ok text →
      (∀ b ∈ base, 0x3E ∉ b ∧ 0x0A ∉ b ∧ 0x00 ∉ b) ∧
      ∀ entry ∈ prefixes, 0x3E ∉ entry.2 ∧ 0x0A ∉ entry.2 ∧ 0x00 ∉ entry.2) := by
  by_cases h : (∃ b ∈ base, suspicious b) ∨ ∃ entry ∈ prefixes, suspicious entry.2
  · have herr : makePreamble prefixes base = .error .suspiciousURI := by
      unfold makePreamble
      rw [baseLine_eq]
      rcases h with ⟨b, hb, hs⟩ | h
      · cases hb
        simp [hs]
      · cases base with
        | none => simp [loop_error prefixes _ h]
        | some b =>
          by_cases hs : suspicious b
          · simp [hs]
          · by_cases hb : b = []
            · subst hb; simp [hs, loop_error prefixes _ h]
            · simp [hs, hb, loop_error prefixes _ h]
    refine ⟨⟨fun _ => h, fun _ => herr⟩, ⟨fun ⟨t, ht⟩ => (by rw [herr] at ht; cases ht),
      fun hn => absurd h hn⟩, ?_⟩
    intro text ht
    rw [herr] at ht
    cases ht
  · have hb : ∀ b ∈ base, ¬ suspicious b := fun b hb hs => h (Or.inl ⟨b, hb, hs⟩)
    have hp : ∀ entry ∈ prefixes, ¬ suspicious entry.2 :=
      fun e he hs => h (Or.inr ⟨e, he, hs⟩)
    have hok := makePreamble_ok prefixes base hb hp
    refine ⟨⟨fun he => (by rw [hok] at he; cases he), fun hh => absurd hh h⟩,
      ⟨fun _ => h, fun _ => ⟨_, hok⟩⟩, ?_⟩
    intro text _
    constructor
    · intro b hbm
      have := hb b hbm
      simp only [suspicious, not_or] at this
      exact ⟨this.2.2, this.2.1, this.1⟩
    · intro e he
      have := hp e he
      simp only [suspicious, not_or] at this
      exact ⟨this.2.2, this.2.1, this.1⟩

/-! ## `Query.prototype.bind` -/

/-- C10 (the code departs from the claim): on a freshly constructed query, whatever
the template and the registry, for every placeholder made of word characters
and every replacement text without `$`, `bind` throws a `TypeError`, and no
working text exists to be seeded. -/
theorem bind_throws_on_fresh_query (text : JSString) (base : Option JSString)
    (prefixes : Obj) (placeholder value : JSString)
    (_hplaceholder : ∀ x ∈ placeholder, isWord x = true) (_hvalue : 0x24 ∉ value) :
    (Query.create text base prefixes).bind placeholder value = .error .typeError ∧
    (Query.create text base prefixes).currentQuery = none := by
  exact ⟨rfl, rfl⟩

/-- C10, witness: the template `SELECT * WHERE { ?s ?p ?name`, linefeed, ` }` with
the placeholder `name` and the replacement `<http://x>`. -/
theorem bind_throws_on_fresh_query_witness :
    (Query.create (str "SELECT * WHERE \x7b ?s ?p ?name\n \x7d") none []).bind
      (str "name") (str "<http://x>") = .error .typeError :=
  (bind_throws_on_fresh_query (str "SELECT * WHERE \x7b ?s ?p ?name\n \x7d") none []
    (str "name") (str "<http://x>") (by decide) (by decide)).1

/-! ## `Query.prototype.execute` -/

/-- The text `execute` hands over is the preamble and the original template. -/
theorem execute_text (q : Query) (nargs : Nat) (req : Request)
    (h : q.execute nargs = .ok req) :
    ∃ pre, makePreamble q.prefixes q.base = .ok pre ∧ req.text = pre ++ q.originalText := by
  unfold Query.execute at h
  split at h
  · cases h
  · unfold formatQuery at h
    cases hp : makePreamble q.prefixes q.base with
    | error e => rw [hp] at h; cases h
    | ok pre =>
      rw [hp] at h
      simp only [sparqlRequest] at h
      cases hs : statementIsUpdate (pre ++ q.originalText) with
      | error e => rw [hs] at h; cases h
      | ok b =>
        rw [hs] at h
        simp only [Except.ok.injEq] at h
        exact ⟨pre, rfl, by rw [← h]⟩

/-- C11 (the code departs from the claim): `execute` never reads the working text.
Its outcome is the same whatever `currentQuery` holds, the text it hands over
is the preamble followed by the original template, and for the template
`SELECT * WHERE { ?s ?p ?name`, linefeed, ` }` with the working text seeded
with it, after `bind` of `name` to `<http://x>` rewrote the working text,
`execute` still hands over the template with `?name` in it. -/
theorem execute_ignores_working_text :
    (∀ (q : Query) (w : Option JSString) (nargs : Nat),
      ({ q with currentQuery := w } : Query).execute nargs = q.execute nargs) ∧
    (∀ (q : Query) (nargs : Nat) (req : Request), q.execute nargs = .ok req →
      ∃ pre, makePreamble q.prefixes q.base = .ok pre ∧
        req.text = pre ++ q.originalText) ∧
    (({ Query.create (str "SELECT * WHERE \x7b ?s ?p ?name\n \x7d") none [] with
          currentQuery := some (str "SELECT * WHERE \x7b ?s ?p ?name\n \x7d") } : Query).bind
        (str "name") (str "<http://x>")).map (fun q => (q.currentQuery, q.execute 1)) =
      .ok (some (str "SELECT * WHERE \x7b ?s ?p <http://x> \x7d"),
        .ok { isUpdate := false, text := str "SELECT * WHERE \x7b ?s ?p ?name\n \x7d" }) := by
  refine ⟨fun q w nargs => rfl, execute_text, ?_⟩
  decide

/-- No keyword, no classification. -/
theorem statementIsUpdate_of_not_hasKeyword (text : JSString) (h : ¬ HasKeyword text) :
    statementIsUpdate text = .error .malformedQuery := by
  unfold statementIsUpdate
  cases hm : statementPattern.exec text with
  | none => rfl
  | some m => exact absurd (hasKeyword_of_exec text m hm) h

theorem not_hasKeyword_nil : ¬ HasKeyword [] := by
  rintro ⟨cl, ws, k, rest, _, _, hne, _, _, _, _, h⟩
  have := congrArg List.length h
  simp only [List.length_nil, List.length_append] at this
  have hk : 0 < k.length := List.length_pos.mpr hne
  omega

/-- C15, as amended: a malformed statement is thrown synchronously by `execute`.
For every query whose final text, the preamble followed by the template, has
no locatable keyword, `execute` called with at most two arguments throws the
malformed-query error to its caller; no request reaches the transport, so
the callback is never called. -/
theorem execute_throws_malformed (q : Query) (nargs : Nat) (pre : JSString)
    (hnargs : nargs ≤ 2) (hpre : makePreamble q.prefixes q.base = .ok pre)
    (hno : ¬ HasKeyword (pre ++ q.originalText)) :
    q.execute nargs = .error .malformedQuery := by
  unfold Query.execute
  have hn : ¬ nargs > 2 := by omega
  simp only [hn, if_false, formatQuery, hpre, sparqlRequest,
    statementIsUpdate_of_not_hasKeyword _ hno]

/-- C15, witness: the empty template on the empty registry. -/
theorem execute_throws_malformed_witness :
    (Query.create [] none []).execute 1 = .error .malformedQuery :=
  execute_throws_malformed (Query.create [] none []) 1 [] (by decide) (by decide)
    not_hasKeyword_nil

/-- C15, counterexample: for the empty template on the empty registry, `execute`
with a callback does not return normally: it throws the malformed-query
error. -/
theorem execute_empty_template_throws :
    (Query.create [] none []).execute 1 = .error .malformedQuery ∧
    ¬ ∃ req, (Query.create [] none []).execute 1 = .ok req := by
  have h : (Query.create [] none []).execute 1 = .error .malformedQuery := by decide
  refine ⟨h, ?_⟩
  rintro ⟨req, hr⟩
  rw [h] at hr
  cases hr

/-! ## The constructors of the literals -/

theorem assertSafeString_eq (value : JSString) :
    assertSafeString value = if 0 ∈ value then .error .nullCharacter else .ok value := by
  unfold assertSafeString
  by_cases h : (0 : Nat) ∈ value
  · simp [(test_unit 0 value).mpr h, h]
  · have : (Regex.unit 0).test value = false := by
      rw [Bool.eq_false_iff]
      exact fun ht => h ((test_unit 0 value).mp ht)
    simp [this, h]

/-- C17: the construction of a `Literal` without a datatype, and of a
`StringLiteral` without a language tag, throws exactly when the text of the
value holds U+0000, and a constructed literal stores that text. -/
theorem create_throws_iff_null_character (value : JSString) :
    ((∃ e, Literal.create value none = .error e) ↔ 0 ∈ value) ∧
    ((∃ e, StringLiteral.create value none = .error e) ↔ 0 ∈ value) ∧
    (0 ∉ value → Literal.create value none = .ok { value := value, datatype := none }) ∧
    (0 ∉ value →
      StringLiteral.create value none = .ok { value := value, languageTag := none }) := by
  unfold StringLiteral.create Literal.create
  rw [assertSafeString_eq]
  by_cases h : (0 : Nat) ∈ value <;> simp [h]

/-! ## `registerCommon` -/

/-- C12 (the code departs from the claim): on the registry of a new client, after
`registerCommon("xsd")`, the call `registerCommon("bogus")` does not throw,
and the prefixes then hold the entry `xsd` and an entry `bogus` whose value is
`undefined`. -/
theorem registerCommon_unknown_name_does_not_throw :
    (registerCommon (create []).1 (create []).2 [.string (str "xsd")]).bind
      (fun s => registerCommon s.1 s.2 [.string (str "bogus")]) =
    .ok ([{ ordinary := false,
            props := [(str "xsd", .string (str "http://www.w3.org/2001/XMLSchema#")),
                      (str "bogus", .undefined)] }],
         { base := none, prefixes := 0 }) := by
  decide

/-! ## `escapeString` as a replacement -/

theorem replaceWithFrom_cls (p : Nat → Bool) (f : JSString → JSString) :
    ∀ (s : JSString) (fuel pos : Nat) (cap : Option JSString), s.length < fuel →
      replaceWithFrom (.cls p) f fuel ⟨pos, s, cap⟩ =
        s.flatMap (fun c => if p c then f [c] else [c]) := by
  intro s
  induction s with
  | nil =>
    intro fuel pos cap h
    cases fuel with
    | zero => simp at h
    | succ n => simp [replaceWithFrom, run_cls_nil]
  | cons c cs ih =>
    intro fuel pos cap h
    cases fuel with
    | zero => simp at h
    | succ n =>
      have hlen : cs.length < n := by simpa using h
      by_cases hp : p c = true
      · simp [replaceWithFrom, run_cls_cons, hp, ih n (pos + 1) cap hlen]
      · simp [replaceWithFrom, run_cls_cons, hp, ih n (pos + 1) cap hlen]

theorem escapeStringByReplace_eq (s : JSString) : escapeStringByReplace s = escapeString s := by
  unfold escapeStringByReplace Regex.replaceWith escapeString
  rw [replaceWithFrom_cls _ _ s _ 0 none (Nat.lt_succ_self _)]

theorem unescapeString_cons (c : Nat) (e : JSString) (h : c ≠ 0x5C) :
    unescapeString (c :: e) = c :: unescapeString e := by
  cases e with
  | nil => simp [unescapeString]
  | cons d rest => simp [unescapeString, h]

theorem unescapeString_escapeString (s : JSString) : unescapeString (escapeString s) = s := by
  induction s with
  | nil => simp [escapeString_nil, unescapeString]
  | cons c s ih =>
    rw [escapeString_cons]
    by_cases hc : escapableCodePoints c = true
    · simp [hc, unescapeString, ih]
    · have hne : c ≠ 0x5C := by
        rintro rfl
        exact hc (by decide)
      have hc' : escapableCodePoints c = false := by simpa using hc
      simp only [hc', Bool.false_eq_true, if_false, List.singleton_append]
      rw [unescapeString_cons c _ hne, ih]

theorem escapeString_length (s : JSString) :
    (escapeString s).length = s.length + s.countP escapableCodePoints := by
  induction s with
  | nil => simp [escapeString_nil]
  | cons c s ih =>
    rw [escapeString_cons]
    by_cases hc : escapableCodePoints c = true
    · simp [hc, ih, List.countP_cons_of_pos]
      omega
    · simp [hc, ih, List.countP_cons_of_neg]
      omega

/-- C19: `escapeString`, taken as the call of `replace` that it is, puts one
backslash before each backslash, tab, carriage return, backspace, form feed,
double quote and single quote and copies every other code unit, the linefeed
among them; the deletion of the inserted backslashes gives the text back, and
the length grows by the number of escaped code units. -/
theorem escapeString_inserts_backslashes (s : JSString) :
    escapeStringByReplace s = escapeString s ∧
    escapeString [] = [] ∧
    (∀ (c : Nat) (rest : JSString), escapeString (c :: rest) =
      (if c ∈ [0x5C, 0x09, 0x0D, 0x08, 0x0C, 0x22, 0x27] then [0x5C, c] else [c]) ++
        escapeString rest) ∧
    escapeString [0x0A] = [0x0A] ∧
    unescapeString (escapeString s) = s ∧
    (escapeString s).length =
      s.length + s.countP (fun c => decide (c ∈ [0x5C, 0x09, 0x0D, 0x08, 0x0C, 0x22, 0x27])) := by
  have hcls : ∀ c : Nat, escapableCodePoints c =
      decide (c ∈ [0x5C, 0x09, 0x0D, 0x08, 0x0C, 0x22, 0x27]) := by
    intro c
    simp only [escapableCodePoints, List.mem_cons, List.mem_singleton, List.not_mem_nil,
      or_false, Bool.decide_or, Bool.or_assoc, beq_iff_eq, Bool.decide_eq_true]
    rfl
  refine ⟨escapeStringByReplace_eq s, rfl, ?_, by decide, unescapeString_escapeString s, ?_⟩
  · intro c rest
    rw [escapeString_cons, hcls c]
    simp only [decide_eq_true_eq]
  · rw [escapeString_length]
    congr 2
    funext c
    exact hcls c

/-! ## The heap -/

theorem Heap.update_length (f : JSObject → JSObject) :
    ∀ (h : Heap) (a : Nat), (h.update a f).length = h.length := by
  intro h
  induction h with
  | nil => intro a; simp [Heap.update]
  | cons o rest ih =>
    intro a
    cases a with
    | zero => simp [Heap.update]
    | succ n => simp [Heap.update, ih n]

theorem Heap.getElem?_update_ne (f : JSObject → JSObject) :
    ∀ (h : Heap) (a b : Nat), a ≠ b → (h.update a f)[b]? = h[b]? := by
  intro h
  induction h with
  | nil => intro a b _; simp [Heap.update]
  | cons o rest ih =>
    intro a b hab
    cases a with
    | zero =>
      cases b with
      | zero => exact absurd rfl hab
      | succ m => simp [Heap.update]
    | succ n =>
      cases b with
      | zero => simp [Heap.update]
      | succ m =>
        simp only [Heap.update, List.getElem?_cons_succ]
        exact ih n m (by omega)

theorem Heap.getElem?_update_eq (f : JSObject → JSObject) :
    ∀ (h : Heap) (a : Nat), (h.update a f)[a]? = h[a]?.map f := by
  intro h
  induction h with
  | nil => intro a; simp [Heap.update]
  | cons o rest ih =>
    intro a
    cases a with
    | zero => simp [Heap.update]
    | succ n =>
      simp only [Heap.update, List.getElem?_cons_succ]
      exact ih n

theorem Heap.update_congr (f g : JSObject → JSObject) :
    ∀ (h : Heap) (a : Nat) (o : JSObject), h[a]? = some o → f o = g o →
      h.update a f = h.update a g := by
  intro h
  induction h with
  | nil => intro a o ho; simp at ho
  | cons x rest ih =>
    intro a o ho hfg
    cases a with
    | zero =>
      simp at ho
      subst ho
      simp [Heap.update, hfg]
    | succ n =>
      simp only [List.getElem?_cons_succ] at ho
      simp [Heap.update, ih n o ho hfg]

/-- A call changes at most the object of its receiver and keeps the address. -/
theorem call_frame (h : Heap) (this : Receiver) (c : Call) (h1 : Heap) (this1 : Receiver)
    (hc : this.call h c = .ok (h1, this1)) :
    this1.prefixes = this.prefixes ∧ h1.length = h.length ∧
      ∀ b, b ≠ this.prefixes → h1[b]? = h[b]? := by
  have hadd : ∀ (entries inherited : Props),
      (addPrefixes h this.prefixes entries inherited).length = h.length ∧
      ∀ b, b ≠ this.prefixes → (addPrefixes h this.prefixes entries inherited)[b]? = h[b]? := by
    intro entries inherited
    exact ⟨Heap.update_length _ _ _, fun b hb => Heap.getElem?_update_ne _ _ _ _ (Ne.symm hb)⟩
  cases c with
  | register args =>
    simp only [Receiver.call, register] at hc
    split at hc
    · split at hc
      · simp only [Except.ok.injEq, Prod.mk.injEq] at hc
        obtain ⟨rfl, rfl⟩ := hc
        exact ⟨rfl, rfl, fun _ _ => rfl⟩
      · simp only [Except.ok.injEq, Prod.mk.injEq] at hc
        obtain ⟨rfl, rfl⟩ := hc
        exact ⟨rfl, hadd _ _⟩
      · simp only [Except.ok.injEq, Prod.mk.injEq] at hc
        obtain ⟨rfl, rfl⟩ := hc
        exact ⟨rfl, rfl, fun _ _ => rfl⟩
      · cases hc
    · simp only [Except.ok.injEq, Prod.mk.injEq] at hc
      obtain ⟨rfl, rfl⟩ := hc
      exact ⟨rfl, hadd _ _⟩
    · cases hc
  | registerCommon args =>
    simp only [Receiver.call, registerCommon] at hc
    split at hc
    · simp only [Except.ok.injEq, Prod.mk.injEq] at hc
      obtain ⟨rfl, rfl⟩ := hc
      exact ⟨rfl, hadd _ _⟩
    · split at hc
      · cases hc
      · simp only [Except.ok.injEq, Prod.mk.injEq] at hc
        obtain ⟨rfl, rfl⟩ := hc
        exact ⟨rfl, hadd _ _⟩

/-- A sequence of calls changes at most the object of its receiver. -/
theorem callAll_frame (calls : List Call) :
    ∀ (h : Heap) (this : Receiver),
      (this.callAll h calls).2.prefixes = this.prefixes ∧
      (this.callAll h calls).1.length = h.length ∧
      ∀ b, b ≠ this.prefixes → (this.callAll h calls).1[b]? = h[b]? := by
  induction calls with
  | nil => intro h this; exact ⟨rfl, rfl, fun _ _ => rfl⟩
  | cons c rest ih =>
    intro h this
    simp only [Receiver.callAll]
    cases hc : this.call h c with
    | error e => exact ih h this
    | ok r =>
      obtain ⟨h1, this1⟩ := r
      obtain ⟨hp, hl, hf⟩ := call_frame h this c h1 this1 hc
      obtain ⟨hp', hl', hf'⟩ := ih h1 this1
      refine ⟨by simp only [hp', hp], by simp only [hl', hl], ?_⟩
      intro b hb
      rw [hf' b (by rw [hp]; exact hb), hf b hb]

/-- C13: after `client.query(text)` returned a query, whatever calls of `register`
and `registerCommon` are made on the client, the base and the prefixes object
of the query are what they were, and whatever calls are made on the query,
the base and the prefixes object of the client are what they were; the two
prefixes objects are at different addresses. -/
theorem query_registry_independent (h : Heap) (client : Receiver) (calls : List Call)
    (hvalid : client.prefixes < h.length) :
    (World.afterQuery h client).query.prefixes ≠ (World.afterQuery h client).client.prefixes ∧
    (World.afterQuery h client).query.base = client.base ∧
    (World.afterQuery h client).heap[client.prefixes]? = h[client.prefixes]? ∧
    ((World.afterQuery h client).callsOnClient calls).query = (World.afterQuery h client).query ∧
    ((World.afterQuery h client).callsOnClient calls).heap[(World.afterQuery h client).query.prefixes]?
      = (World.afterQuery h client).heap[(World.afterQuery h client).query.prefixes]? ∧
    ((World.afterQuery h client).callsOnQuery calls).client = client ∧
    ((World.afterQuery h client).callsOnQuery calls).heap[client.prefixes]?
      = (World.afterQuery h client).heap[client.prefixes]? := by
  have hne : h.length ≠ client.prefixes := by omega
  refine ⟨hne, rfl, ?_, rfl, ?_, rfl, ?_⟩
  · simp only [World.afterQuery, SparqlClient.query]
    rw [List.getElem?_append_left hvalid]
  · exact (callAll_frame calls _ client).2.2 _ hne
  · exact (callAll_frame calls _ (SparqlClient.query h client).2).2.2 _ (Ne.symm hne)

/-- C13, witness: a new client on the empty heap. -/
theorem query_registry_independent_witness :
    ((World.afterQuery (create []).1 (create []).2).callsOnClient
        [.registerCommon [], .register [.string (str "http://base/")]]).heap[1]?
      = some { ordinary := true, props := [] } :=
  (query_registry_independent (create []).1 (create []).2
    [.registerCommon [], .register [.string (str "http://base/")]] (by decide)).2.2.2.2.1

/-! ## Assignment to the properties of an object -/

theorem lookup_cons_self (k : JSString) (v : Prim) (o : Props) :
    List.lookup k ((k, v) :: o) = some v := by
  simp [List.lookup]

theorem lookup_cons_ne (k a : JSString) (v : Prim) (o : Props) (h : k ≠ a) :
    List.lookup k ((a, v) :: o) = List.lookup k o := by
  have : (k == a) = false := by simpa using h
  simp [List.lookup, this]

theorem lookup_map_set (k : JSString) (v : Prim) :
    ∀ (o : Props), o.any (fun e => e.1 == k) = true →
      List.lookup k (o.map (fun e => if e.1 = k then (k, v) else e)) = some v := by
  intro o
  induction o with
  | nil => intro h; simp at h
  | cons e rest ih =>
    intro h
    by_cases he : e.1 = k
    · simp [he, lookup_cons_self]
    · have hr : rest.any (fun e => e.1 == k) = true := by
        simpa [he] using h
      obtain ⟨a, b⟩ := e
      simp only at he
      simp only [List.map_cons, he, if_false]
      rw [lookup_cons_ne k a b _ (Ne.symm he)]
      exact ih hr

theorem lookup_map_set_ne (k k' : JSString) (v : Prim) (hne : k' ≠ k) :
    ∀ (o : Props), List.lookup k' (o.map (fun e => if e.1 = k then (k, v) else e)) =
      List.lookup k' o := by
  intro o
  induction o with
  | nil => rfl
  | cons e rest ih =>
    obtain ⟨a, b⟩ := e
    by_cases he : a = k
    · subst he
      simp only [List.map_cons, if_true]
      rw [lookup_cons_ne k' a v _ hne, lookup_cons_ne k' a b _ hne, ih]
    · simp only [List.map_cons, he, if_false]
      by_cases hk : k' = a
      · subst hk; simp [lookup_cons_self]
      · rw [lookup_cons_ne k' a b _ hk, lookup_cons_ne k' a b _ hk, ih]

theorem lookup_of_not_any (k : JSString) :
    ∀ (o : Props), o.any (fun e => e.1 == k) = false → List.lookup k o = none := by
  intro o
  induction o with
  | nil => intro _; rfl
  | cons e rest ih =>
    intro h
    obtain ⟨a, b⟩ := e
    simp only [List.any_cons, Bool.or_eq_false_iff] at h
    have hak : a ≠ k := by simpa using h.1
    rw [lookup_cons_ne k a b _ (Ne.symm hak)]
    exact ih h.2

theorem lookup_insertIndex_self (n : Nat) (k : JSString) (v : Prim) :
    ∀ (o : Props), o.any (fun e => e.1 == k) = false →
      List.lookup k (Props.insertIndex n k v o) = some v := by
  intro o
  induction o with
  | nil => intro _; simp [Props.insertIndex, lookup_cons_self]
  | cons e rest ih =>
    intro h
    obtain ⟨a, b⟩ := e
    simp only [List.any_cons, Bool.or_eq_false_iff] at h
    have hak : a ≠ k := by simpa using h.1
    simp only [Props.insertIndex]
    split
    · split
      · rw [lookup_cons_ne k a b _ (Ne.symm hak)]
        exact ih h.2
      · exact lookup_cons_self _ _ _
    · exact lookup_cons_self _ _ _

theorem lookup_insertIndex_ne (n : Nat) (k k' : JSString) (v : Prim) (hne : k' ≠ k) :
    ∀ (o : Props), List.lookup k' (Props.insertIndex n k v o) = List.lookup k' o := by
  intro o
  induction o with
  | nil => simp [Props.insertIndex, lookup_cons_ne _ _ _ _ hne]
  | cons e rest ih =>
    obtain ⟨a, b⟩ := e
    simp only [Props.insertIndex]
    split
    · split
      · by_cases hk : k' = a
        · subst hk; simp [lookup_cons_self]
        · rw [lookup_cons_ne k' a b _ hk, lookup_cons_ne k' a b _ hk, ih]
      · rw [lookup_cons_ne _ _ _ _ hne]
    · rw [lookup_cons_ne _ _ _ _ hne]

theorem lookup_append_singleton_self (k : JSString) (v : Prim) :
    ∀ (o : Props), o.any (fun e => e.1 == k) = false →
      List.lookup k (o ++ [(k, v)]) = some v := by
  intro o
  induction o with
  | nil => intro _; simp [lookup_cons_self]
  | cons e rest ih =>
    intro h
    obtain ⟨a, b⟩ := e
    simp only [List.any_cons, Bool.or_eq_false_iff] at h
    have hak : a ≠ k := by simpa using h.1
    rw [List.cons_append, lookup_cons_ne k a b _ (Ne.symm hak)]
    exact ih h.2

theorem lookup_append_singleton_ne (k k' : JSString) (v : Prim) (hne : k' ≠ k) :
    ∀ (o : Props), List.lookup k' (o ++ [(k, v)]) = List.lookup k' o := by
  intro o
  induction o with
  | nil => simp [lookup_cons_ne _ _ _ _ hne]
  | cons e rest ih =>
    obtain ⟨a, b⟩ := e
    rw [List.cons_append]
    by_cases hk : k' = a
    · subst hk; simp [lookup_cons_self]
    · rw [lookup_cons_ne k' a b _ hk, lookup_cons_ne k' a b _ hk, ih]

/-- After `o[k] = v` the property `k` is `v`. -/
theorem lookup_set_self (o : Props) (k : JSString) (v : Prim) :
    List.lookup k (o.set k v) = some v := by
  unfold Props.set
  by_cases h : o.any (fun e => e.1 == k) = true
  · simp only [h, if_true]
    exact lookup_map_set k v o h
  · have h' : o.any (fun e => e.1 == k) = false := (Bool.not_eq_true _).mp h
    simp only [h', Bool.false_eq_true, if_false]
    split
    · exact lookup_insertIndex_self _ k v o h'
    · exact lookup_append_singleton_self k v o h'

/-- After `o[k] = v` every other property is what it was. -/
theorem lookup_set_ne (o : Props) (k k' : JSString) (v : Prim) (hne : k' ≠ k) :
    List.lookup k' (o.set k v) = List.lookup k' o := by
  unfold Props.set
  split
  · exact lookup_map_set_ne k k' v hne o
  · split
    · exact lookup_insertIndex_ne _ k k' v hne o
    · exact lookup_append_singleton_ne k k' v hne o

theorem keys_insertIndex_sublist (n : Nat) (k : JSString) (v : Prim) :
    ∀ (o : Props), (o.map Prod.fst).Sublist ((Props.insertIndex n k v o).map Prod.fst) := by
  intro o
  induction o with
  | nil => simp
  | cons e rest ih =>
    simp only [Props.insertIndex]
    split
    · split
      · simp only [List.map_cons]
        exact List.Sublist.cons₂ _ ih
      · simp only [List.map_cons]
        exact List.Sublist.cons _ (List.Sublist.refl _)
    · simp only [List.map_cons]
      exact List.Sublist.cons _ (List.Sublist.refl _)

theorem keys_map_set (k : JSString) (v : Prim) :
    ∀ (o : Props), (o.map (fun e => if e.1 = k then (k, v) else e)).map Prod.fst =
      o.map Prod.fst := by
  intro o
  induction o with
  | nil => rfl
  | cons e rest ih =>
    by_cases he : e.1 = k
    · simp [he, ih]
    · simp [he, ih]

/-- After `o[k] = v` the names the object had are in the order they were in. -/
theorem keys_set_sublist (o : Props) (k : JSString) (v : Prim) :
    (o.map Prod.fst).Sublist ((o.set k v).map Prod.fst) := by
  unfold Props.set
  split
  · rw [keys_map_set]
  · split
    · exact keys_insertIndex_sublist _ k v o
    · simp

/-- The assignments of a visit, one after the other: the last one of a name stays. -/
theorem lookup_foldl_set (name : JSString) :
    ∀ (entries : Props) (o : Props),
      List.lookup name (entries.foldl (fun (o : Props) e => Props.set o e.1 e.2) o) =
        entries.foldl (fun acc e => if e.1 = name then some e.2 else acc)
          (List.lookup name o) := by
  intro entries
  induction entries with
  | nil => intro o; rfl
  | cons e rest ih =>
    intro o
    simp only [List.foldl_cons]
    rw [ih]
    by_cases he : e.1 = name
    · subst he
      simp [lookup_set_self]
    · simp only [he, if_false]
      rw [lookup_set_ne o e.1 name e.2 (Ne.symm he)]

theorem keys_foldl_set_sublist :
    ∀ (entries : Props) (o : Props),
      (o.map Prod.fst).Sublist ((entries.foldl (fun (o : Props) e => Props.set o e.1 e.2) o).map Prod.fst) := by
  intro entries
  induction entries with
  | nil => intro o; exact List.Sublist.refl _
  | cons e rest ih =>
    intro o
    simp only [List.foldl_cons]
    exact (keys_set_sublist o e.1 e.2).trans (ih _)

/-- Without the name `__proto__` the assignments to an object are assignments to
its properties. -/
theorem foldl_assign (entries : Props) (hproto : ∀ e ∈ entries, e.1 ≠ str "__proto__") :
    ∀ (o : JSObject), entries.foldl (fun (o : JSObject) e => o.assign e.1 e.2) o =
      { o with props := entries.foldl (fun (p : Props) e => Props.set p e.1 e.2) o.props } := by
  induction entries with
  | nil => intro o; rfl
  | cons e rest ih =>
    intro o
    have he : e.1 ≠ str "__proto__" := hproto e (by simp)
    simp only [List.foldl_cons]
    rw [ih (fun x hx => hproto x (by simp [hx]))]
    simp [JSObject.assign, he]

/-- An object whose values are all strings is not taken for an array. -/
theorem forEachEntries_of_strings (entries : Props)
    (hstr : ∀ e ∈ entries, ∃ u, e.2 = .string u) : forEachEntries entries [] = entries := by
  have hl : ∀ (k : JSString) (l : Props), (∀ e ∈ l, ∃ u, e.2 = .string u) →
      List.lookup k l = none ∨ ∃ u, List.lookup k l = some (.string u) := by
    intro k l
    induction l with
    | nil => intro _; exact Or.inl rfl
    | cons e rest ih =>
      intro h
      obtain ⟨a, b⟩ := e
      by_cases hk : k = a
      · subst hk
        obtain ⟨u, hu⟩ := h (k, b) (by simp)
        simp only at hu
        subst hu
        exact Or.inr ⟨u, lookup_cons_self _ _ _⟩
      · rw [lookup_cons_ne k a b _ hk]
        exact ih (fun x hx => h x (by simp [hx]))
  unfold forEachEntries arrayLikeLength?
  rw [List.append_nil]
  rcases hl (str "length") entries hstr with h | ⟨u, h⟩ <;> simp [h]

/-! ## `register` -/

/-- The object of the receiver after `addPrefixes` with string values and without
the name `__proto__`. -/
theorem addPrefixes_strings (h : Heap) (address : Nat) (o : JSObject) (entries : Props)
    (ho : h[address]? = some o)
    (hstr : ∀ e ∈ entries, ∃ u, e.2 = .string u)
    (hproto : ∀ e ∈ entries, e.1 ≠ str "__proto__") :
    addPrefixes h address entries [] = h.update address (fun _ =>
      { o with props := entries.foldl (fun (p : Props) e => Props.set p e.1 e.2) o.props }) := by
  unfold addPrefixes
  rw [forEachEntries_of_strings entries hstr]
  apply Heap.update_congr _ _ h address o ho
  exact foldl_assign entries hproto o

/-- C14, as amended: `register` follows its overload table.  With one string it
sets the base and leaves the prefixes; with one object whose values are
strings it sets each name of the object to its value in the prefixes (the last
write of a name stays, the other names keep their values, the names the
prefixes had keep their order) and leaves the base; with two strings it sets
that one prefix; the name `__proto__` is left out of the last two.  It throws
the invalid-arguments error, changing nothing, for no argument, for three or
more, and for one argument that is `undefined`, a boolean, a number or a
function.  On success the receiver is returned.  Nothing is said of one
argument `null` and of two arguments that are not both strings. -/
theorem register_overloads (h : Heap) (this : Receiver) (o : JSObject)
    (ho : h[this.prefixes]? = some o) :
    (∀ s, register h this [.string s] = .ok (h, { this with base := some s })) ∧
    (∀ entries : Props, (∀ e ∈ entries, ∃ u, e.2 = .string u) →
      (∀ e ∈ entries, e.1 ≠ str "__proto__") →
      ∃ o' : JSObject,
        register h this [.object entries] = .ok (h.update this.prefixes (fun _ => o'), this) ∧
        o'.ordinary = o.ordinary ∧
        (∀ name, List.lookup name o'.props =
          entries.foldl (fun acc e => if e.1 = name then some e.2 else acc)
            (List.lookup name o.props)) ∧
        (o.props.map Prod.fst).Sublist (o'.props.map Prod.fst)) ∧
    (∀ name uri : JSString, name ≠ str "__proto__" →
      ∃ o' : JSObject,
        register h this [.string name, .string uri] =
          .ok (h.update this.prefixes (fun _ => o'), this) ∧
        o'.ordinary = o.ordinary ∧
        List.lookup name o'.props = some (.string uri) ∧
        (∀ other, other ≠ name → List.lookup other o'.props = List.lookup other o.props) ∧
        (o.props.map Prod.fst).Sublist (o'.props.map Prod.fst)) ∧
    register h this [] = .error .invalidArguments ∧
    (∀ a b c rest, register h this (a :: b :: c :: rest) = .error .invalidArguments) ∧
    register h this [.undefined] = .error .invalidArguments ∧
    (∀ b, register h this [.boolean b] = .error .invalidArguments) ∧
    (∀ n, register h this [.number n] = .error .invalidArguments) ∧
    (∀ f n, register h this [.function f n] = .error .invalidArguments) := by
  refine ⟨fun s => rfl, ?_, ?_, rfl, fun a b c rest => rfl, rfl, fun b => rfl, fun n => rfl,
    fun f n => rfl⟩
  · intro entries hstr hproto
    refine ⟨{ o with props := entries.foldl (fun (p : Props) e => Props.set p e.1 e.2) o.props },
      ?_, rfl, fun name => lookup_foldl_set name entries o.props,
      keys_foldl_set_sublist entries o.props⟩
    simp only [register]
    rw [addPrefixes_strings h this.prefixes o entries ho hstr hproto]
  · intro name uri hname
    refine ⟨{ o with props := Props.set o.props name (.string uri) }, ?_, rfl,
      lookup_set_self _ _ _, fun other hne => lookup_set_ne _ _ _ _ hne,
      keys_set_sublist _ _ _⟩
    have hobj : ((JSObject.mk true []).assign (Arg.string name).toPropertyKey
        (Arg.string uri).toPrim).props = [(name, .string uri)] := by
      simp [JSObject.assign, hname, Arg.toPropertyKey, Arg.toPrim, Props.set]
      cases arrayIndex? name <;> simp [Props.insertIndex]
    have hkey : ((Arg.string name).toPropertyKey = str "__proto__") = False := by
      simp [Arg.toPropertyKey, hname]
    simp only [register, hobj, hkey, if_false]
    rw [addPrefixes_strings h this.prefixes o [(name, .string uri)] ho
      (by intro e he; simp at he; subst he; exact ⟨uri, rfl⟩)
      (by intro e he; simp at he; subst he; exact hname)]
    rfl

/-- C14, witness: on a new client, `register("xsd", U)` sets that prefix, and
`register()` throws. -/
theorem register_overloads_witness :
    register (create []).1 (create []).2 [.string (str "xsd"), .string (str "U")] =
      .ok ([{ ordinary := false, props := [(str "xsd", .string (str "U"))] }],
        { base := none, prefixes := 0 }) ∧
    register (create []).1 (create []).2 [] = .error .invalidArguments :=
  ⟨by decide,
   (register_overloads (create []).1 (create []).2 { ordinary := false, props := [] }
    (by decide)).2.2.2.1⟩

/-- C14, counterexample: on a new client, `register("a", 42)`, two arguments that
are not both strings, does not throw and sets the prefix `a` to the number;
`register("length", 3)` does not throw either and sets the prefixes `0`, `1`
and `2` to `undefined`; `register(null)`, one argument that is neither a
string nor an object, does not throw; and `register("__proto__", "u")`, two
strings, sets no prefix. -/
theorem register_accepts_two_arguments_of_any_type :
    register (create []).1 (create []).2 [.string (str "a"), .number 42] =
      .ok ([{ ordinary := false, props := [(str "a", .number 42)] }],
        { base := none, prefixes := 0 }) ∧
    register (create []).1 (create []).2 [.string (str "length"), .number 3] =
      .ok ([{ ordinary := false,
              props := [(str "0", .undefined), (str "1", .undefined), (str "2", .undefined)] }],
        { base := none, prefixes := 0 }) ∧
    register (create []).1 (create []).2 [.null] =
      .ok ([{ ordinary := false, props := [] }], { base := none, prefixes := 0 }) ∧
    register (create []).1 (create []).2 [.string (str "__proto__"), .string (str "u")] =
      .ok ([{ ordinary := false, props := [] }], { base := none, prefixes := 0 }) := by
  decide

/-! ## Matches that exist -/

theorem mem_run_alt (a b : Regex) (st m : MState) :
    m ∈ run (.alt a b) st ↔ m ∈ run a st ∨ m ∈ run b st := by
  rw [run_alt, List.mem_append]

theorem self_mem_spanStates (p : Nat → Bool) (pos : Nat) (r : JSString)
    (cap : Option JSString) : (⟨pos, r, cap⟩ : MState) ∈ spanStates p pos r cap := by
  cases r with
  | nil => simp [spanStates]
  | cons c cs =>
    simp only [spanStates]
    split <;> simp

theorem mem_spanStates_intro (p : Nat → Bool) (w r : JSString) (hw : ∀ c ∈ w, p c = true) :
    ∀ (pos : Nat) (cap : Option JSString),
      (⟨pos + w.length, r, cap⟩ : MState) ∈ spanStates p pos (w ++ r) cap := by
  induction w with
  | nil => intro pos cap; exact self_mem_spanStates p pos r cap
  | cons a w ih =>
    intro pos cap
    have ha : p a = true := hw a (by simp)
    rw [List.cons_append]
    simp only [spanStates, ha, if_true, List.mem_append]
    left
    have := ih (fun c hc => hw c (by simp [hc])) (pos + 1) cap
    simpa [Nat.add_assoc, Nat.add_comm 1] using this

/-- A greedy iteration of a class can stop after any run of the class. -/
theorem mem_run_star_cls_intro (p : Nat → Bool) (w r : JSString) (hw : ∀ c ∈ w, p c = true)
    (pos : Nat) (cap : Option JSString) :
    (⟨pos + w.length, r, cap⟩ : MState) ∈ run (.star (.cls p)) ⟨pos, w ++ r, cap⟩ := by
  rw [run_star_cls]
  exact mem_spanStates_intro p w r hw pos cap

theorem mem_run_plus_cls_intro (p : Nat → Bool) (w r : JSString) (hne : w ≠ [])
    (hw : ∀ c ∈ w, p c = true) (pos : Nat) (cap : Option JSString) :
    (⟨pos + w.length, r, cap⟩ : MState) ∈ run (Regex.plus (.cls p)) ⟨pos, w ++ r, cap⟩ := by
  cases w with
  | nil => exact absurd rfl hne
  | cons a w =>
    have ha : p a = true := hw a (by simp)
    unfold Regex.plus
    rw [mem_run_seq]
    refine ⟨⟨pos + 1, w ++ r, cap⟩, by simp [run_cls_cons, ha], ?_⟩
    have := mem_run_star_cls_intro p w r (fun c hc => hw c (by simp [hc])) (pos + 1) cap
    simpa [Nat.add_assoc, Nat.add_comm 1] using this

theorem mem_run_cls_intro (p : Nat → Bool) (c : Nat) (cs : JSString) (hc : p c = true)
    (pos : Nat) (cap : Option JSString) :
    (⟨pos + 1, cs, cap⟩ : MState) ∈ run (.cls p) ⟨pos, c :: cs, cap⟩ := by
  simp [run_cls_cons, hc]

/-- An anchored pattern matches exactly when it matches at the first position. -/
theorem test_bol_iff (X : Regex) (text : JSString) :
    (Regex.seq .bol X).test text = true ↔ ∃ m, m ∈ run X ⟨0, text, none⟩ := by
  unfold Regex.test
  constructor
  · intro h
    obtain ⟨m, hm⟩ := Option.isSome_iff_exists.mp h
    exact ⟨m, run_of_execFrom_bol X _ _ _ _ hm⟩
  · rintro ⟨m, hm⟩
    cases hr : run X ⟨0, text, none⟩ with
    | nil => rw [hr] at hm; simp at hm
    | cons a as =>
      have : (run (.seq .bol X) ⟨0, text, none⟩).head? = some a := by
        rw [run_bol_seq]; simp [hr]
      rw [exec_of_head _ _ _ this]
      rfl

/-! ## The results of the matcher are suffixes of its input -/

theorem runStar_suffix (body : MState → List MState)
    (hbody : ∀ st s, s ∈ body st → s.rest <:+ st.rest) (fuel : Nat) :
    ∀ st s, s ∈ runStar body fuel st → s.rest <:+ st.rest := by
  induction fuel with
  | zero =>
    intro st s h
    simp only [runStar, List.mem_singleton] at h
    subst h
    exact List.suffix_refl _
  | succ n ih =>
    intro st s h
    simp only [runStar, List.mem_append, List.mem_flatMap, List.mem_filter,
      List.mem_singleton] at h
    rcases h with ⟨s1, ⟨h1, _⟩, h2⟩ | h
    · exact (ih s1 s h2).trans (hbody st s1 h1)
    · subst h
      exact List.suffix_refl _

theorem run_suffix (r : Regex) : ∀ st s, s ∈ run r st → s.rest <:+ st.rest := by
  induction r with
  | cls p =>
    intro st s h
    obtain ⟨c, _, hr, _⟩ := mem_run_cls p st s h
    rw [hr]
    exact List.suffix_cons c _
  | eps =>
    intro st s h
    simp only [run, List.mem_singleton] at h
    subst h
    exact List.suffix_refl _
  | seq a b iha ihb =>
    intro st s h
    obtain ⟨s1, h1, h2⟩ := (mem_run_seq a b st s).mp h
    exact (ihb s1 s h2).trans (iha st s1 h1)
  | alt a b iha ihb =>
    intro st s h
    rcases (mem_run_alt a b st s).mp h with h | h
    · exact iha st s h
    · exact ihb st s h
  | star a iha =>
    intro st s h
    simp only [run] at h
    exact runStar_suffix (run a) iha _ st s h
  | nla a _ =>
    intro st s h
    rw [run_nla] at h
    split at h
    · simp only [List.mem_singleton] at h
      subst h
      exact List.suffix_refl _
    · simp at h
  | group a iha =>
    intro st s h
    simp only [run, List.mem_map] at h
    obtain ⟨s', hs', rfl⟩ := h
    exact iha st s' hs'
  | bol =>
    intro st s h
    simp only [run] at h
    split at h
    · simp only [List.mem_singleton] at h
      subst h
      exact List.suffix_refl _
    · simp at h
  | eol =>
    intro st s h
    simp only [run] at h
    split at h
    · simp only [List.mem_singleton] at h
      subst h
      exact List.suffix_refl _
    · simp at h

/-! ## The double pattern -/

theorem digit_eq : digit = .cls (fun c => decide (0x30 ≤ c) && decide (c ≤ 0x39)) := rfl

theorem digits_class (d : JSString) (h : ∀ c ∈ d, 0x30 ≤ c ∧ c ≤ 0x39) :
    ∀ c ∈ d, (fun c => decide (0x30 ≤ c) && decide (c ≤ 0x39)) c = true := by
  intro c hc
  have := h c hc
  simp [this.1, this.2]

/-- The alternation of the mantissa consumes a mantissa. -/
theorem mem_run_mantissa (m tail : JSString) (hm : Mantissa m) (pos : Nat)
    (cap : Option JSString) :
    ∃ pos', (⟨pos', tail, cap⟩ : MState) ∈
      run (.alt (.seq digit.plus (.seq anyUnit (.star digit)))
            (.alt (.seq anyUnit digit.plus) digit.plus)) ⟨pos, m ++ tail, cap⟩ := by
  rcases hm with ⟨d, f, hd, hdd, hfd, rfl⟩ | ⟨f, hf, hfd, rfl⟩ | ⟨hne, hd⟩
  · refine ⟨pos + d.length + 1 + f.length, ?_⟩
    rw [mem_run_alt]
    left
    rw [mem_run_seq]
    refine ⟨⟨pos + d.length, 0x2E :: (f ++ tail), cap⟩, ?_, ?_⟩
    · have := mem_run_plus_cls_intro _ d (0x2E :: (f ++ tail)) hd (digits_class d hdd) pos cap
      rw [digit_eq]
      simpa using this
    · rw [mem_run_seq]
      refine ⟨⟨pos + d.length + 1, f ++ tail, cap⟩, ?_, ?_⟩
      · exact mem_run_cls_intro _ 0x2E _ (by decide) _ cap
      · rw [digit_eq]
        exact mem_run_star_cls_intro _ f tail (digits_class f hfd) _ cap
  · refine ⟨pos + 1 + f.length, ?_⟩
    rw [mem_run_alt]
    right
    rw [mem_run_alt]
    left
    rw [mem_run_seq]
    refine ⟨⟨pos + 1, f ++ tail, cap⟩, ?_, ?_⟩
    · exact mem_run_cls_intro _ 0x2E _ (by decide) _ cap
    · rw [digit_eq]
      exact mem_run_plus_cls_intro _ f tail hf (digits_class f hfd) _ cap
  · refine ⟨pos + m.length, ?_⟩
    rw [mem_run_alt]
    right
    rw [mem_run_alt]
    right
    rw [digit_eq]
    exact mem_run_plus_cls_intro _ m tail hne (digits_class m hd) _ cap

theorem doublePattern_eq :
    doublePattern = .seq .bol
      (.seq (.alt (.seq digit.plus (.seq anyUnit (.star digit)))
              (.alt (.seq anyUnit digit.plus) digit.plus))
        (.seq (.cls (fun c => c == 0x65 || c == 0x45))
          (.seq (Regex.opt (.cls (fun c => c == 0x2B || c == 0x2D)))
            (.seq digit.plus .eol)))) := rfl

/-- The double pattern matches every text that is in double form. -/
theorem test_doublePattern_of_doubleForm (v : JSString) (h : DoubleForm v) :
    doublePattern.test v = true := by
  obtain ⟨m, e, sign, x, hm, he, hsign, hx, hxd, rfl⟩ := h
  rw [doublePattern_eq, test_bol_iff]
  obtain ⟨p1, h1⟩ := mem_run_mantissa m (e :: sign ++ x) hm 0 none
  have h1' : (⟨p1, e :: (sign ++ x), none⟩ : MState) ∈
      run (.alt (.seq digit.plus (.seq anyUnit (.star digit)))
            (.alt (.seq anyUnit digit.plus) digit.plus)) ⟨0, m ++ e :: sign ++ x, none⟩ := by
    simpa using h1
  refine ⟨⟨p1 + 1 + sign.length + x.length, [], none⟩, ?_⟩
  rw [mem_run_seq]
  refine ⟨_, h1', ?_⟩
  rw [mem_run_seq]
  refine ⟨⟨p1 + 1, sign ++ x, none⟩, ?_, ?_⟩
  · apply mem_run_cls_intro
    rcases he with rfl | rfl <;> decide
  · rw [mem_run_seq]
    refine ⟨⟨p1 + 1 + sign.length, x, none⟩, ?_, ?_⟩
    · unfold Regex.opt
      rw [mem_run_alt]
      rcases hsign with rfl | rfl | rfl
      · right
        simp [run]
      · left
        exact mem_run_cls_intro _ 0x2B _ (by decide) _ none
      · left
        exact mem_run_cls_intro _ 0x2D _ (by decide) _ none
    · rw [mem_run_seq]
      refine ⟨⟨p1 + 1 + sign.length + x.length, [], none⟩, ?_, ?_⟩
      · have := mem_run_plus_cls_intro _ x [] hx (digits_class x hxd) (p1 + 1 + sign.length) none
        rw [digit_eq]
        simpa using this
      · simp [run]

/-- A text the double pattern matches holds `e` or `E`. -/
theorem exponent_of_test_doublePattern (v : JSString) (h : doublePattern.test v = true) :
    0x65 ∈ v ∨ 0x45 ∈ v := by
  rw [doublePattern_eq, test_bol_iff] at h
  obtain ⟨m, hm⟩ := h
  obtain ⟨s1, h1, hm⟩ := (mem_run_seq _ _ _ _).mp hm
  obtain ⟨s2, h2, _⟩ := (mem_run_seq _ _ _ _).mp hm
  obtain ⟨c, hc, hr, _⟩ := mem_run_cls _ _ _ h2
  have hsuf := run_suffix _ _ _ h1
  have hmem : c ∈ v := by
    have : c ∈ s1.rest := by rw [hr]; simp
    exact hsuf.subset this
  have : c = 0x65 ∨ c = 0x45 := by simpa using hc
  rcases this with rfl | rfl
  · exact Or.inl hmem
  · exact Or.inr hmem

theorem mantissa_units (v : JSString) (h : Mantissa v) :
    ∀ c ∈ v, (0x30 ≤ c ∧ c ≤ 0x39) ∨ c = 0x2E := by
  rcases h with ⟨d, f, _, hdd, hfd, rfl⟩ | ⟨f, _, hfd, rfl⟩ | ⟨_, hd⟩
  · intro c hc
    simp only [List.mem_append, List.mem_cons] at hc
    rcases hc with hc | rfl | hc
    · exact Or.inl (hdd c hc)
    · exact Or.inr rfl
    · exact Or.inl (hfd c hc)
  · intro c hc
    simp only [List.mem_cons] at hc
    rcases hc with rfl | hc
    · exact Or.inr rfl
    · exact Or.inl (hfd c hc)
  · intro c hc
    exact Or.inl (hd c hc)

/-- The double pattern does not match a plain decimal numeral. -/
theorem test_doublePattern_of_mantissa (v : JSString) (h : Mantissa v) :
    doublePattern.test v = false := by
  rw [Bool.eq_false_iff]
  intro ht
  rcases exponent_of_test_doublePattern v ht with he | he
  · rcases mantissa_units v h _ he with h' | h' <;> omega
  · rcases mantissa_units v h _ he with h' | h' <;> omega

theorem doubleForm_of_mantissa (v : JSString) (h : Mantissa v) : DoubleForm (v ++ str "e0") :=
  ⟨v, 0x65, [], [0x30], h, Or.inl rfl, Or.inl rfl, by simp, by simp, by
    show v ++ [0x65, 0x30] = v ++ [0x65] ++ [0x30]
    simp⟩

theorem formatString_ok (s : JSString) :
    formatString s = .ok (delimiter s ++ escapeString s ++ delimiter s) := by
  unfold formatString
  simp [test_delimiterPattern_false _ _ (not_infix_delimiter s)]

/-- The format of a literal of the datatype xsd:double, by the outcome of the two
tests of `tryFormatDouble`. -/
theorem format_double_eq (value formatted : JSString) :
    Literal.format ⟨value, some ⟨some (str "xsd"), str "double", formatted⟩⟩ =
      if doublePattern.test value then .ok value
      else if doublePattern.test (value ++ str "e0") then .ok (value ++ str "e0")
      else .ok (delimiter value ++ escapeString value ++ delimiter value ++ str "^^" ++
        formatted) := by
  have hk : knownDatatype (some ⟨some (str "xsd"), str "double", formatted⟩) = true := by
    simp [knownDatatype]
  have hp : SPARQL_LITERAL_PATTERNS (str "double") = some doublePattern := rfl
  simp only [Literal.format, hk, if_true, tryFormatType, hp, tryFormatDouble]
  by_cases h1 : doublePattern.test value = true
  · simp [h1]
  · by_cases h2 : doublePattern.test (value ++ str "e0") = true
    · simp [h1, h2]
    · simp [h1, h2, Literal.formatQuoted, formatString_ok]

/-- The cases of the datatype xsd:double decided by the pattern of the source:
`format` returns a value that is in double form unchanged and bare, returns a
plain decimal numeral followed by `e0`, bare, and returns the quoted string
followed by `^^` and the formatted datatype when neither the value nor the
value followed by `e0` matches the entry `double` of `SPARQL_LITERAL_PATTERNS`,
whose dots stand for any code unit. -/
theorem format_double (v1 v2 v3 formatted : JSString) (h1 : DoubleForm v1)
    (h2 : Mantissa v2) (h3 : doublePattern.test v3 = false)
    (h3' : doublePattern.test (v3 ++ str "e0") = false) :
    Literal.format ⟨v1, some ⟨some (str "xsd"), str "double", formatted⟩⟩ = .ok v1 ∧
    Literal.format ⟨v2, some ⟨some (str "xsd"), str "double", formatted⟩⟩ =
      .ok (v2 ++ str "e0") ∧
    (∃ term, formatString v3 = .ok term ∧
      Literal.format ⟨v3, some ⟨some (str "xsd"), str "double", formatted⟩⟩ =
        .ok (term ++ str "^^" ++ formatted)) := by
  refine ⟨?_, ?_, ⟨_, formatString_ok v3, ?_⟩⟩
  · rw [format_double_eq, test_doublePattern_of_doubleForm v1 h1]
    rfl
  · rw [format_double_eq, test_doublePattern_of_mantissa v2 h2,
      test_doublePattern_of_doubleForm _ (doubleForm_of_mantissa v2 h2)]
    rfl
  · rw [format_double_eq, h3, h3']
    rfl

/-- An instance of each case: `1.5e3` stays, `12` becomes `12e0`, and `abc` is quoted. -/
theorem format_double_witness :
    Literal.format ⟨str "1.5e3", some ⟨some (str "xsd"), str "double", str "xsd:double"⟩⟩
      = .ok (str "1.5e3") ∧
    Literal.format ⟨str "12", some ⟨some (str "xsd"), str "double", str "xsd:double"⟩⟩
      = .ok (str "12e0") ∧
    (∃ term, formatString (str "abc") = .ok term ∧
      Literal.format ⟨str "abc", some ⟨some (str "xsd"), str "double", str "xsd:double"⟩⟩
        = .ok (term ++ str "^^" ++ str "xsd:double")) :=
  format_double (str "1.5e3") (str "12") (str "abc") (str "xsd:double")
    ⟨str "1.5", 0x65, [], str "3",
      Or.inl ⟨str "1", str "5", by decide, by decide, by decide, by decide⟩,
      by decide, by decide, by decide, by decide, by decide⟩
    (Or.inr (Or.inr ⟨by decide, by decide⟩)) (by decide) (by decide)

/-! ## Values outside the double form -/

/-- The code units of a text in double form: digits, the dot, `e`, `E` and the signs. -/
theorem doubleForm_units (v : JSString) (h : DoubleForm v) :
    ∀ c ∈ v, (0x30 ≤ c ∧ c ≤ 0x39) ∨ c = 0x2E ∨ c = 0x65 ∨ c = 0x45 ∨ c = 0x2B ∨ c = 0x2D := by
  obtain ⟨m, e, sign, x, hm, he, hs, _, hx, rfl⟩ := h
  intro c hc
  simp only [List.mem_append, List.mem_cons] at hc
  rcases hc with (hc | rfl | hc) | hc
  · rcases mantissa_units m hm c hc with h' | h'
    · exact Or.inl h'
    · exact Or.inr (Or.inl h')
  · rcases he with rfl | rfl
    · exact Or.inr (Or.inr (Or.inl rfl))
    · exact Or.inr (Or.inr (Or.inr (Or.inl rfl)))
  · rcases hs with rfl | rfl | rfl
    · simp at hc
    · simp only [List.mem_singleton] at hc
      subst hc
      exact Or.inr (Or.inr (Or.inr (Or.inr (Or.inl rfl))))
    · simp only [List.mem_singleton] at hc
      subst hc
      exact Or.inr (Or.inr (Or.inr (Or.inr (Or.inr rfl))))
  · exact Or.inl (hx c hc)

/-- A text in double form ends in a digit. -/
theorem doubleForm_getLast (v : JSString) (h : DoubleForm v) :
    ∃ c, v.getLast? = some c ∧ 0x30 ≤ c ∧ c ≤ 0x39 := by
  obtain ⟨m, e, sign, x, _, _, _, hne, hx, rfl⟩ := h
  refine ⟨x.getLast hne, ?_, hx _ (List.getLast_mem hne)⟩
  rw [List.getLast?_append_of_ne_nil _ hne, List.getLast?_eq_getLast _ hne]

/-- A text in double form holds one `e` or `E`. -/
theorem doubleForm_count (v : JSString) (h : DoubleForm v) :
    v.countP (fun c => c == 0x65 || c == 0x45) = 1 := by
  obtain ⟨m, e, sign, x, hm, he, hs, _, hx, rfl⟩ := h
  have hzero : ∀ (l : JSString),
      (∀ c ∈ l, (0x30 ≤ c ∧ c ≤ 0x39) ∨ c = 0x2E ∨ c = 0x2B ∨ c = 0x2D) →
      l.countP (fun c => c == 0x65 || c == 0x45) = 0 := by
    intro l hl
    rw [List.countP_eq_zero]
    intro c hc
    have hne : c ≠ 0x65 ∧ c ≠ 0x45 := by
      rcases hl c hc with h' | h' | h' | h' <;> omega
    simp [hne.1, hne.2]
  have h1 := hzero m (fun c hc => (mantissa_units m hm c hc).elim Or.inl (fun h' => Or.inr (Or.inl h')))
  have h2 : sign.countP (fun c => c == 0x65 || c == 0x45) = 0 := by
    rcases hs with rfl | rfl | rfl <;> rfl
  have h3 := hzero x (fun c hc => Or.inl (hx c hc))
  have h4 : (e == 0x65 || e == 0x45) = true := by
    rcases he with rfl | rfl <;> rfl
  rw [List.countP_append, List.countP_append, List.countP_cons, h1, h2, h3]
  simp only [h4, if_true]

/-! ## C16 -/

/-- C16 (the code departs from the claim): the values `1x5e3`, `1e` and `1 2` with
the datatype xsd:double are not in double form, and neither are they when
followed by `e0`, yet `format` returns `1x5e3`, `1ee0` and `1 2e0` bare, not
the quoted value followed by `^^` and the datatype. -/
theorem format_double_bare_outside_double_form :
    (¬ DoubleForm (str "1x5e3") ∧ ¬ DoubleForm (str "1x5e3" ++ str "e0") ∧
      formatString (str "1x5e3") = .ok (str "\x271x5e3\x27") ∧
      Literal.format ⟨str "1x5e3", some ⟨some (str "xsd"), str "double", str "xsd:double"⟩⟩
        = .ok (str "1x5e3")) ∧
    (¬ DoubleForm (str "1e") ∧ ¬ DoubleForm (str "1e" ++ str "e0") ∧
      formatString (str "1e") = .ok (str "\x271e\x27") ∧
      Literal.format ⟨str "1e", some ⟨some (str "xsd"), str "double", str "xsd:double"⟩⟩
        = .ok (str "1ee0")) ∧
    (¬ DoubleForm (str "1 2") ∧ ¬ DoubleForm (str "1 2" ++ str "e0") ∧
      formatString (str "1 2") = .ok (str "\x271 2\x27") ∧
      Literal.format ⟨str "1 2", some ⟨some (str "xsd"), str "double", str "xsd:double"⟩⟩
        = .ok (str "1 2e0")) := by
  refine ⟨⟨?_, ?_, by decide, by decide⟩, ⟨?_, ?_, by decide, by decide⟩,
    ⟨?_, ?_, by decide, by decide⟩⟩
  · intro h
    exact absurd (doubleForm_units _ h 0x78 (by decide)) (by decide)
  · intro h
    exact absurd (doubleForm_units _ h 0x78 (by decide)) (by decide)
  · intro h
    obtain ⟨c, hc, hd⟩ := doubleForm_getLast _ h
    have hlast : (str "1e").getLast? = some 0x65 := by decide
    rw [hlast] at hc
    cases hc
    omega
  · intro h
    exact absurd (doubleForm_count _ h) (by decide)
  · intro h
    exact absurd (doubleForm_units _ h 0x20 (by decide)) (by decide)
  · intro h
    exact absurd (doubleForm_units _ h 0x20 (by decide)) (by decide)

/-! ## The pattern of the language tag -/

theorem mem_run_languageTagGroup_intro (g tail : JSString) (hne : g ≠ [])
    (hg : ∀ c ∈ g, isLetterOrDigit c = true) (pos : Nat) (cap : Option JSString) :
    (⟨pos + 1 + g.length, tail, cap⟩ : MState) ∈
      run languageTagGroup ⟨pos, 0x2D :: g ++ tail, cap⟩ := by
  unfold languageTagGroup
  rw [mem_run_seq]
  refine ⟨⟨pos + 1, g ++ tail, cap⟩, ?_, ?_⟩
  · exact mem_run_cls_intro _ 0x2D _ (by decide) pos cap
  · exact mem_run_plus_cls_intro _ g tail hne hg _ cap

theorem mem_runStar_groups_intro (tail : JSString) (cap : Option JSString) :
    ∀ (groups : List JSString), (∀ g ∈ groups, g ≠ [] ∧ ∀ c ∈ g, isLetterOrDigit c = true) →
      ∀ (fuel pos : Nat), (groups.flatMap (fun g => 0x2D :: g) ++ tail).length ≤ fuel →
        ∃ pos', (⟨pos', tail, cap⟩ : MState) ∈
          runStar (run languageTagGroup) fuel
            ⟨pos, groups.flatMap (fun g => 0x2D :: g) ++ tail, cap⟩ := by
  intro groups
  induction groups with
  | nil =>
    intro _ fuel pos _
    refine ⟨pos, ?_⟩
    cases fuel <;> simp [runStar]
  | cons g gs ih =>
    intro hg fuel pos hfuel
    have hg1 := hg g (by simp)
    have hgs : ∀ x ∈ gs, x ≠ [] ∧ ∀ c ∈ x, isLetterOrDigit c = true :=
      fun x hx => hg x (by simp [hx])
    have htext : (g :: gs).flatMap (fun g => 0x2D :: g) ++ tail =
        0x2D :: g ++ (gs.flatMap (fun g => 0x2D :: g) ++ tail) := by
      simp
    rw [htext] at hfuel ⊢
    cases fuel with
    | zero => simp at hfuel
    | succ n =>
      have hn : (gs.flatMap (fun g => 0x2D :: g) ++ tail).length ≤ n := by
        simp only [List.length_append, List.length_cons] at hfuel ⊢
        omega
      obtain ⟨pos', hmem⟩ := ih hgs n (pos + 1 + g.length) hn
      refine ⟨pos', ?_⟩
      simp only [runStar, List.mem_append, List.mem_flatMap, List.mem_filter]
      left
      refine ⟨⟨pos + 1 + g.length, gs.flatMap (fun g => 0x2D :: g) ++ tail, cap⟩, ⟨?_, ?_⟩, hmem⟩
      · exact mem_run_languageTagGroup_intro g _ hg1.1 hg1.2 pos cap
      · simp only [List.length_append, List.length_cons, decide_eq_true_eq]
        omega

theorem mem_run_languageTagGroup (st s : MState) (h : s ∈ run languageTagGroup st) :
    ∃ g, g ≠ [] ∧ (∀ c ∈ g, isLetterOrDigit c = true) ∧ st.rest = 0x2D :: g ++ s.rest := by
  unfold languageTagGroup at h
  obtain ⟨s1, h1, h2⟩ := (mem_run_seq _ _ _ _).mp h
  obtain ⟨c, hc, r1, _⟩ := mem_run_cls _ _ _ h1
  obtain ⟨g, hne, hg, r2, _⟩ := mem_run_plus_cls _ _ _ h2
  have hc' : c = 0x2D := by simpa [Regex.unit] using hc
  subst hc'
  exact ⟨g, hne, hg, by rw [r1, r2]; simp⟩

theorem mem_runStar_groups (s : MState) (fuel : Nat) :
    ∀ (st : MState), s ∈ runStar (run languageTagGroup) fuel st →
      ∃ groups : List JSString,
        (∀ g ∈ groups, g ≠ [] ∧ ∀ c ∈ g, isLetterOrDigit c = true) ∧
        st.rest = groups.flatMap (fun g => 0x2D :: g) ++ s.rest := by
  induction fuel with
  | zero =>
    intro st h
    simp only [runStar, List.mem_singleton] at h
    exact ⟨[], by simp, by simp [h]⟩
  | succ n ih =>
    intro st h
    simp only [runStar, List.mem_append, List.mem_flatMap, List.mem_filter,
      List.mem_singleton] at h
    rcases h with ⟨s1, ⟨h1, _⟩, h2⟩ | h
    · obtain ⟨g, hne, hg, r1⟩ := mem_run_languageTagGroup st s1 h1
      obtain ⟨gs, hgs, r2⟩ := ih s1 h2
      refine ⟨g :: gs, ?_, by rw [r1, r2]; simp⟩
      intro x hx
      rcases List.mem_cons.mp hx with hx | hx
      · subst hx; exact ⟨hne, hg⟩
      · exact hgs x hx
    · exact ⟨[], by simp, by simp [h]⟩

theorem languageTagPattern_eq :
    languageTagPattern =
      .seq .bol (.seq (Regex.plus (.cls isLetter)) (.seq (.star languageTagGroup) .eol)) := rfl

/-- The pattern of `assertSafeLanguageTag` matches exactly the tags of the form. -/
theorem test_languageTagPattern (tag : JSString) :
    languageTagPattern.test tag = true ↔ TagForm tag := by
  rw [languageTagPattern_eq, test_bol_iff]
  constructor
  · rintro ⟨m, hm⟩
    obtain ⟨s1, h1, hm⟩ := (mem_run_seq _ _ _ _).mp hm
    obtain ⟨s2, h2, h3⟩ := (mem_run_seq _ _ _ _).mp hm
    obtain ⟨letters, hne, hl, r1, _⟩ := mem_run_plus_cls _ _ _ h1
    simp only [run] at h2
    obtain ⟨groups, hg, r2⟩ := mem_runStar_groups s2 _ s1 h2
    have hend : s2.rest = [] := by
      simp only [run] at h3
      split at h3
      · rename_i he
        exact List.isEmpty_iff.mp he
      · simp at h3
    refine ⟨letters, groups, hne, hl, hg, ?_⟩
    have r1' : tag = letters ++ s1.rest := r1
    rw [r1', r2, hend]
    simp
  · rintro ⟨letters, groups, hne, hl, hg, rfl⟩
    obtain ⟨pos', hmem⟩ := mem_runStar_groups_intro [] none groups hg
      (groups.flatMap (fun g => 0x2D :: g) ++ []).length (0 + letters.length) (Nat.le_refl _)
    refine ⟨⟨pos', [], none⟩, ?_⟩
    rw [mem_run_seq]
    refine ⟨⟨0 + letters.length, groups.flatMap (fun g => 0x2D :: g) ++ [], none⟩, ?_, ?_⟩
    · have := mem_run_plus_cls_intro isLetter letters
        (groups.flatMap (fun g => 0x2D :: g) ++ []) hne hl 0 none
      simpa using this
    · rw [mem_run_seq]
      refine ⟨⟨pos', [], none⟩, ?_, by simp [run]⟩
      simp only [run]
      exact hmem

/-- C18: for a value without U+0000 and a supplied language tag, the construction
of a `StringLiteral` succeeds exactly when the whole tag is one or more ASCII
letters followed by zero or more groups of a hyphen and one or more ASCII
letters or digits; the literal then holds the value and the tag, and `format`
returns `formatString(value)` followed by `@` and the tag, with no datatype
suffix. -/
theorem stringLiteral_language_tag (value tag : JSString) (hvalue : 0 ∉ value) :
    ((∃ l, StringLiteral.create value (some tag) = .ok l) ↔ TagForm tag) ∧
    (¬ TagForm tag → StringLiteral.create value (some tag) = .error .invalidLanguageTag) ∧
    (∀ l, StringLiteral.create value (some tag) = .ok l →
      l = { value := value, languageTag := some tag } ∧
      ∃ term, formatString value = .ok term ∧ l.format = .ok (term ++ str "@" ++ tag)) := by
  have hcreate : StringLiteral.create value (some tag) =
      if languageTagPattern.test tag then .ok { value := value, languageTag := some tag }
      else .error .invalidLanguageTag := by
    simp only [StringLiteral.create, Literal.create, assertSafeString_eq, hvalue, if_false,
      assertSafeLanguageTag]
    by_cases ht : languageTagPattern.test tag = true
    · simp [ht]
    · simp [ht]
  rw [hcreate]
  by_cases ht : languageTagPattern.test tag = true
  · have hform := (test_languageTagPattern tag).mp ht
    simp only [ht, if_true]
    refine ⟨⟨fun _ => hform, fun _ => ⟨_, rfl⟩⟩, fun hn => absurd hform hn, ?_⟩
    intro l hl
    simp only [Except.ok.injEq] at hl
    subst hl
    refine ⟨rfl, _, formatString_ok value, ?_⟩
    simp [StringLiteral.format, formatString_ok]
  · have hform : ¬ TagForm tag := fun h => ht ((test_languageTagPattern tag).mpr h)
    simp only [ht, if_false]
    refine ⟨⟨fun ⟨l, hl⟩ => (by cases hl), fun h => absurd h hform⟩, fun _ => rfl, ?_⟩
    intro l hl
    cases hl

/-- C18, witness: the value `chat` with the tag `fr-CA`. -/
theorem stringLiteral_language_tag_witness :
    ∃ l, StringLiteral.create (str "chat") (some (str "fr-CA")) = .ok l :=
  (stringLiteral_language_tag (str "chat") (str "fr-CA") (by decide)).1.mpr
    ⟨str "fr", [str "CA"], by decide, by decide, by decide, by decide⟩

/-! ## The classifier on the generated preamble -/

/-- A result of the tail of the pattern behind the leading group shows the form
of the text the leading group started on. -/
theorem hasKeyword_of_mem_run (fuel : Nat) (st s1 m : MState)
    (h1 : s1 ∈ runStar (run prologueClause) fuel st)
    (hm1 : m ∈ run (.seq (.star (.cls isSpace))
      (.seq (.nla prologueKeyword) (.group (Regex.plus (.cls isWord))))) s1) :
    HasKeyword st.rest := by
  obtain ⟨s2, h2, hm2⟩ := (mem_run_seq _ _ _ _).mp hm1
  obtain ⟨s3, h3, hm⟩ := (mem_run_seq _ _ _ _).mp hm2
  clear hm1 hm2
  obtain ⟨clauses, hcl, r1, _⟩ := mem_runStar_prologueClause s1 _ _ h1
  obtain ⟨ws, hws, r2, _⟩ := mem_run_star_cls _ _ _ h2
  rw [run_nla] at h3
  by_cases hkw : (run prologueKeyword s2).isEmpty = true
  · simp only [hkw, if_true, List.mem_singleton] at h3
    subst h3
    simp only [run, List.mem_map] at hm
    obtain ⟨s4, h4, hm4⟩ := hm
    have h4' : s4 ∈ run (Regex.plus (.cls isWord)) s3 := by
      simpa [Regex.plus, run] using h4
    obtain ⟨k, hne, hk, r4, _⟩ := mem_run_plus_cls _ _ _ h4'
    refine ⟨clauses, ws, k ++ s4.rest.takeWhile isWord, s4.rest.dropWhile isWord,
      hcl, hws, by simp [hne], ?_, head?_dropWhile_not isWord _, ?_, ?_, ?_⟩
    · intro x hx
      rcases List.mem_append.mp hx with hx | hx
      · exact hk x hx
      · exact (List.mem_takeWhile_imp hx)
    · intro hP
      have hrun := List.isEmpty_iff.mp hkw
      obtain ⟨p3, rest3, cap3⟩ := s3
      simp only at r4
      subst r4
      rw [run_prologueKeyword] at hrun
      have hsplit : k ++ s4.rest =
          (k ++ s4.rest.takeWhile isWord) ++ s4.rest.dropWhile isWord := by
        simp [List.takeWhile_append_dropWhile]
      have : toUpperCase ((k ++ s4.rest).take 6) = str "PREFIX" := by
        obtain ⟨t, ht⟩ := hP
        have hlen : 6 ≤ (k ++ s4.rest.takeWhile isWord).length := by
          rw [← toUpperCase_length, ← ht]
          simp [str]
        rw [hsplit, List.take_append_of_le_length hlen, toUpperCase_take, ← ht]
        simp [str]
      simp [this] at hrun
    · intro hB
      have hrun := List.isEmpty_iff.mp hkw
      obtain ⟨p3, rest3, cap3⟩ := s3
      simp only at r4
      subst r4
      rw [run_prologueKeyword] at hrun
      have hsplit : k ++ s4.rest =
          (k ++ s4.rest.takeWhile isWord) ++ s4.rest.dropWhile isWord := by
        simp [List.takeWhile_append_dropWhile]
      have : toUpperCase ((k ++ s4.rest).take 4) = str "BASE" := by
        obtain ⟨t, ht⟩ := hB
        have hlen : 4 ≤ (k ++ s4.rest.takeWhile isWord).length := by
          rw [← toUpperCase_length, ← ht]
          simp [str]
        rw [hsplit, List.take_append_of_le_length hlen, toUpperCase_take, ← ht]
        simp [str]
      simp [this] at hrun
    · rw [r1, r2, r4]
      simp [List.takeWhile_append_dropWhile]
  · simp [hkw] at h3

/-- A text with a keyword behind a well-formed clause: the text behind the clause
has a keyword. -/
theorem hasKeyword_of_clause_append (c : Clause) (hc : c.wellFormed) (more : JSString)
    (h : HasKeyword (c.text ++ more)) : HasKeyword more := by
  obtain ⟨cl, ws, k, rest, hcl, hws, hne, hk, hrest, hP, hB, htext⟩ := h
  obtain ⟨pos, hexec⟩ := exec_statementPattern cl ws k rest hcl hws hne hk hrest hP hB
  have htext' : prologueText cl ++ (ws ++ (k ++ rest)) = c.text ++ more := by
    rw [htext]
    simp
  rw [htext'] at hexec
  unfold Regex.exec at hexec
  rw [statementPattern_eq] at hexec
  have hm0 := run_of_execFrom_bol _ _ _ _ _ hexec
  obtain ⟨s1, h1, hm1⟩ := (mem_run_seq _ _ _ _).mp hm0
  clear hm0 hexec
  rw [run_star_prologueClause] at h1
  have hpos := c.text_length_pos
  obtain ⟨n, hn⟩ : ∃ n, (c.text ++ more).length = n + 1 :=
    ⟨(c.text ++ more).length - 1, by simp only [List.length_append]; omega⟩
  have hshort : more.length < n + 1 := by
    rw [← hn]
    simp only [List.length_append]
    omega
  simp only [hn, runStar, run_prologueClause c hc, List.filter_cons, hshort, decide_True,
    if_true, List.filter_nil, List.flatMap_cons, List.flatMap_nil, List.append_nil,
    List.mem_append, List.mem_singleton] at h1
  rcases h1 with h1 | h1
  · exact hasKeyword_of_mem_run n ⟨0 + c.text.length, more, none⟩ s1 _ h1 hm1
  · subst h1
    have ht : c.text ++ more =
        c.ws ++ (c.keyword ++ (c.mid ++ (0x3C :: (c.iri ++ (0x3E :: more))))) := by
      simp [Clause.text]
    rw [ht, run_tail_at_keyword c.ws c.keyword _ hc.1 hc.2.1 0 none] at hm1
    cases hm1

/-- White space before a text that begins with something else is a part of the
white space the text begins with. -/
theorem space_prefix_split (w : JSString) (hw : ∀ x ∈ w, isSpace x = true) :
    ∀ (ws text tail : JSString), (∀ x ∈ ws, isSpace x = true) → tail ≠ [] →
      (∀ x ∈ tail.head?, isSpace x = false) → w ++ text = ws ++ tail →
      ∃ ws', (∀ x ∈ ws', isSpace x = true) ∧ text = ws' ++ tail := by
  induction w with
  | nil =>
    intro ws text tail hws _ _ h
    exact ⟨ws, hws, by simpa using h⟩
  | cons a w ih =>
    intro ws text tail hws hne hhead h
    cases ws with
    | nil =>
      cases tail with
      | nil => exact absurd rfl hne
      | cons t ts =>
        simp only [List.cons_append, List.nil_append, List.cons.injEq] at h
        have ht := hhead t (by simp)
        have ha := hw a (by simp)
        rw [h.1, ht] at ha
        cases ha
    | cons b ws =>
      simp only [List.cons_append, List.cons.injEq] at h
      exact ih (fun x hx => hw x (by simp [hx])) ws text tail
        (fun x hx => hws x (by simp [hx])) hne hhead h.2

theorem Clause.keyword_letters (c : Clause) (hc : c.wellFormed) :
    c.keyword ≠ [] ∧ ∀ x ∈ c.keyword, isWord x = true := by
  obtain ⟨_, hkw, _⟩ := hc
  constructor
  · intro h0
    rw [h0] at hkw
    rcases hkw with h | h <;> exact absurd h (by decide)
  · rcases hkw with h | h
    · exact isWord_of_toUpperCase _ upper_PREFIX _ h
    · exact isWord_of_toUpperCase _ upper_BASE _ h

/-- A text with a keyword behind white space: the text behind the white space
has a keyword. -/
theorem hasKeyword_of_space_append (w text : JSString) (hw : ∀ x ∈ w, isSpace x = true)
    (h : HasKeyword (w ++ text)) : HasKeyword text := by
  obtain ⟨cl, ws, k, rest, hcl, hws, hne, hk, hrest, hP, hB, htext⟩ := h
  cases cl with
  | nil =>
    have h1 : w ++ text = ws ++ (k ++ rest) := by
      rw [htext]
      simp [prologueText]
    obtain ⟨ws', hws', ht⟩ := space_prefix_split w hw ws text (k ++ rest) hws (by simp [hne])
      (head_not_space k rest hne hk) h1
    exact ⟨[], ws', k, rest, by simp, hws', hne, hk, hrest, hP, hB,
      by rw [ht]; simp [prologueText]⟩
  | cons c cs =>
    have hc : c.wellFormed := hcl c (by simp)
    obtain ⟨hkne, hkl⟩ := c.keyword_letters hc
    have h1 : w ++ text = c.ws ++ (c.keyword ++ (c.mid ++ (0x3C :: (c.iri ++ [0x3E])) ++
        (prologueText cs ++ ws ++ k ++ rest))) := by
      rw [htext]
      simp [prologueText, Clause.text]
    obtain ⟨ws', hws', ht⟩ := space_prefix_split w hw c.ws text _ hc.1 (by simp [hkne])
      (head_not_space c.keyword _ hkne hkl) h1
    refine ⟨⟨ws', c.keyword, c.mid, c.iri⟩ :: cs, ws, k, rest, ?_, hws, hne, hk, hrest, hP, hB, ?_⟩
    · intro x hx
      rcases List.mem_cons.mp hx with hx | hx
      · subst hx
        exact ⟨hws', hc.2⟩
      · exact hcl x (by simp [hx])
    · rw [ht]
      simp [prologueText, Clause.text]

/-- A well-formed clause before a statement does not change its classification. -/
theorem statementIsUpdate_clause_append (c : Clause) (hc : c.wellFormed) (more : JSString) :
    statementIsUpdate (c.text ++ more) = statementIsUpdate more := by
  by_cases h : HasKeyword more
  · obtain ⟨cl, ws, k, rest, hcl, hws, hne, hk, hrest, hP, hB, htext⟩ := h
    have h1 : more = prologueText cl ++ (ws ++ (k ++ rest)) := by
      rw [htext]
      simp
    have h2 : c.text ++ more = prologueText (c :: cl) ++ (ws ++ (k ++ rest)) := by
      rw [h1]
      simp [prologueText]
    have hcl' : ∀ x ∈ c :: cl, x.wellFormed := by
      intro x hx
      rcases List.mem_cons.mp hx with hx | hx
      · subst hx
        exact hc
      · exact hcl x hx
    rw [h2, statementIsUpdate_of_keyword (c :: cl) ws k rest hcl' hws hne hk hrest hP hB,
      h1, statementIsUpdate_of_keyword cl ws k rest hcl hws hne hk hrest hP hB]
  · rw [statementIsUpdate_of_not_hasKeyword more h,
      statementIsUpdate_of_not_hasKeyword _ (fun h' => h (hasKeyword_of_clause_append c hc more h'))]

/-- White space before a statement does not change its classification. -/
theorem statementIsUpdate_space_append (w text : JSString) (hw : ∀ x ∈ w, isSpace x = true) :
    statementIsUpdate (w ++ text) = statementIsUpdate text := by
  by_cases h : HasKeyword text
  · obtain ⟨cl, ws, k, rest, hcl, hws, hne, hk, hrest, hP, hB, htext⟩ := h
    have h1 : text = prologueText cl ++ (ws ++ (k ++ rest)) := by
      rw [htext]
      simp
    rw [h1, statementIsUpdate_of_keyword cl ws k rest hcl hws hne hk hrest hP hB]
    cases cl with
    | nil =>
      have h2 : w ++ (prologueText [] ++ (ws ++ (k ++ rest))) =
          prologueText [] ++ ((w ++ ws) ++ (k ++ rest)) := by
        simp [prologueText]
      rw [h2]
      exact statementIsUpdate_of_keyword [] (w ++ ws) k rest (by simp)
        (fun x hx => (List.mem_append.mp hx).elim (hw x) (hws x)) hne hk hrest hP hB
    | cons c cs =>
      have hc : c.wellFormed := hcl c (by simp)
      have h2 : w ++ (prologueText (c :: cs) ++ (ws ++ (k ++ rest))) =
          prologueText (⟨w ++ c.ws, c.keyword, c.mid, c.iri⟩ :: cs) ++ (ws ++ (k ++ rest)) := by
        simp [prologueText, Clause.text]
      rw [h2]
      refine statementIsUpdate_of_keyword _ ws k rest ?_ hws hne hk hrest hP hB
      intro x hx
      rcases List.mem_cons.mp hx with hx | hx
      · subst hx
        exact ⟨fun y hy => (List.mem_append.mp hy).elim (hw y) (hc.1 y), hc.2⟩
      · exact hcl x (by simp [hx])
  · rw [statementIsUpdate_of_not_hasKeyword text h,
      statementIsUpdate_of_not_hasKeyword _ (fun h' => h (hasKeyword_of_space_append w text hw h'))]

/-- A clause on a line of its own before a statement does not change its
classification. -/
theorem statementIsUpdate_line (c : Clause) (hc : c.wellFormed) (more : JSString) :
    statementIsUpdate (c.text ++ [0x0A] ++ more) = statementIsUpdate more := by
  rw [List.append_assoc, statementIsUpdate_clause_append c hc,
    statementIsUpdate_space_append [0x0A] more (by decide)]

/-- The line `BASE <base>` is a clause and a linefeed. -/
theorem baseLine_text (b : JSString) :
    str "BASE <" ++ b ++ str ">\n" = (Clause.mk [] (str "BASE") [0x20] b).text ++ [0x0A] := by
  have e1 : str "BASE <" = str "BASE" ++ [0x20, 0x3C] := by decide
  have e2 : str ">\n" = [0x3E, 0x0A] := by decide
  rw [e1, e2]
  simp [Clause.text]

/-- The line `PREFIX name: <uri>` is a clause and a linefeed. -/
theorem prefixLine_text (name uri : JSString) :
    str "PREFIX " ++ name ++ str ": <" ++ uri ++ str ">\n" =
      (Clause.mk [] (str "PREFIX") (0x20 :: (name ++ [0x3A, 0x20])) uri).text ++ [0x0A] := by
  have e1 : str "PREFIX " = str "PREFIX" ++ [0x20] := by decide
  have e2 : str ": <" = [0x3A, 0x20, 0x3C] := by decide
  have e3 : str ">\n" = [0x3E, 0x0A] := by decide
  rw [e1, e2, e3]
  simp [Clause.text]

/-- The lines `PREFIX name: <uri>` before a statement do not change its
classification, when no name holds `<` and every URI is non-empty and free of `>`. -/
theorem statementIsUpdate_prefixLines (more : JSString) :
    ∀ (prefixes : Obj), (∀ e ∈ prefixes, 0x3C ∉ e.1) →
      (∀ e ∈ prefixes, e.2 ≠ [] ∧ 0x3E ∉ e.2) →
      statementIsUpdate (prefixes.flatMap
        (fun entry => str "PREFIX " ++ entry.1 ++ str ": <" ++ entry.2 ++ str ">\n") ++ more) =
        statementIsUpdate more := by
  intro prefixes
  induction prefixes with
  | nil => intro _ _; rfl
  | cons e rest ih =>
    intro hnames huris
    have hn : 0x3C ∉ e.1 := hnames e (by simp)
    have hu := huris e (by simp)
    have hwf : (Clause.mk [] (str "PREFIX") (0x20 :: (e.1 ++ [0x3A, 0x20])) e.2).wellFormed := by
      refine ⟨by simp, Or.inl (show toUpperCase (str "PREFIX") = str "PREFIX" by decide),
        by simp, ?_, hu.1, hu.2⟩
      simp only [List.mem_cons, List.mem_append, not_or]
      exact ⟨by decide, ⟨hn, by decide, by decide, by simp⟩⟩
    rw [List.flatMap_cons, prefixLine_text, List.append_assoc, statementIsUpdate_line _ hwf]
    exact ih (fun x hx => hnames x (by simp [hx])) (fun x hx => huris x (by simp [hx]))

/-- The preamble of the specification before a statement does not change its
classification, when the base is non-empty and free of `>`, no name holds `<`
and every URI is non-empty and free of `>`. -/
theorem statementIsUpdate_preambleSpec (prefixes : Obj) (base : Option JSString)
    (q : JSString) (hbase : ∀ b ∈ base, b ≠ [] ∧ 0x3E ∉ b)
    (hnames : ∀ e ∈ prefixes, 0x3C ∉ e.1)
    (huris : ∀ e ∈ prefixes, e.2 ≠ [] ∧ 0x3E ∉ e.2) :
    statementIsUpdate (preambleSpec prefixes base ++ q) = statementIsUpdate q := by
  unfold preambleSpec
  simp only
  split
  · rfl
  · rw [List.append_assoc, List.append_assoc]
    have hq : statementIsUpdate (str "\n" ++ q) = statementIsUpdate q :=
      statementIsUpdate_space_append (str "\n") q (by decide)
    cases base with
    | none =>
      simp only [List.nil_append]
      rw [statementIsUpdate_prefixLines _ prefixes hnames huris, hq]
    | some b =>
      have hb := hbase b rfl
      have hwf : (Clause.mk [] (str "BASE") [0x20] b).wellFormed :=
        ⟨by simp, Or.inr (show toUpperCase (str "BASE") = str "BASE" by decide), by simp,
          (show 0x3C ∉ [0x20] by decide), hb.1, hb.2⟩
      simp only
      rw [baseLine_text, statementIsUpdate_line _ hwf,
        statementIsUpdate_prefixLines _ prefixes hnames huris, hq]

/-- Something suspicious in the registry makes `makePreamble` throw. -/
theorem makePreamble_error (prefixes : Obj) (base : Option JSString)
    (h : (∃ b ∈ base, suspicious b) ∨ ∃ entry ∈ prefixes, suspicious entry.2) :
    makePreamble prefixes base = .error .suspiciousURI := by
  unfold makePreamble
  rw [baseLine_eq]
  rcases h with ⟨b, hb, hs⟩ | h
  · cases hb
    simp [hs]
  · cases base with
    | none => simp [loop_error prefixes _ h]
    | some b =>
      by_cases hs : suspicious b
      · simp [hs]
      · by_cases hb : b = []
        · subst hb; simp [hs, loop_error prefixes _ h]
        · simp [hs, hb, loop_error prefixes _ h]

/-! ## C20 -/

/-- C20, as amended: the classifier is transparent to the generated preamble of
a registry whose prefix names hold no `<` and whose prefix URIs are not empty.
For every such registry on which `makePreamble` succeeds and every query body
`q`, `statementIsUpdate` on the preamble followed by `q` behaves exactly like
`statementIsUpdate` on `q`: it throws the same error or returns the same boolean. -/
theorem statementIsUpdate_preamble_transparent (prefixes : Obj) (base : Option JSString)
    (pre q : JSString) (hpre : makePreamble prefixes base = .ok pre)
    (hnames : ∀ e ∈ prefixes, 0x3C ∉ e.1) (huris : ∀ e ∈ prefixes, e.2 ≠ []) :
    statementIsUpdate (pre ++ q) = statementIsUpdate q := by
  by_cases hs : (∃ b ∈ base, suspicious b) ∨ ∃ entry ∈ prefixes, suspicious entry.2
  · rw [makePreamble_error prefixes base hs] at hpre
    cases hpre
  · have hb : ∀ b ∈ base, ¬ suspicious b := fun b hb h => hs (Or.inl ⟨b, hb, h⟩)
    have hp : ∀ entry ∈ prefixes, ¬ suspicious entry.2 :=
      fun e he h => hs (Or.inr ⟨e, he, h⟩)
    rw [makePreamble_ok prefixes base hb hp] at hpre
    have hpre' : pre = preambleSpec prefixes (if base = some [] then none else base) := by
      cases hpre
      rfl
    rw [hpre']
    apply statementIsUpdate_preambleSpec _ _ _ _ hnames
    · intro e he
      exact ⟨huris e he, fun h => hp e he (Or.inr (Or.inr h))⟩
    · intro b hbm
      by_cases h0 : base = some []
      · simp [h0] at hbm
      · simp only [h0, if_false] at hbm
        refine ⟨?_, fun h => hb b hbm (Or.inr (Or.inr h))⟩
        rintro rfl
        exact h0 (by simpa using hbm)

/-- C20, witness: the registry with the base `http://base/` and the prefix `xsd`,
before an update. -/
theorem statementIsUpdate_preamble_transparent_witness :
    statementIsUpdate (str "BASE <http://base/>\nPREFIX xsd: <U>\n\n" ++
        str "INSERT DATA \x7b\x7d") =
      statementIsUpdate (str "INSERT DATA \x7b\x7d") :=
  statementIsUpdate_preamble_transparent [(str "xsd", str "U")] (some (str "http://base/"))
    (str "BASE <http://base/>\nPREFIX xsd: <U>\n\n") (str "INSERT DATA \x7b\x7d")
    (by decide) (by decide) (by decide)

/-- C20, counterexample: `makePreamble` succeeds on the registry with the prefix
`x` bound to the empty URI, the body `ASK {}` alone is classified as a query,
and behind the preamble of that registry the classifier throws.  On the registry
with the prefix name `a<b>c` the update `INSERT DATA {}` is classified as an
update alone and as a query behind the preamble. -/
theorem statementIsUpdate_preamble_not_transparent :
    (makePreamble [(str "x", [])] none = .ok (str "PREFIX x: <>\n\n") ∧
      statementIsUpdate (str "ASK \x7b\x7d") = .ok false ∧
      statementIsUpdate (str "PREFIX x: <>\n\n" ++ str "ASK \x7b\x7d") =
        .error .malformedQuery) ∧
    (makePreamble [(str "a<b>c", str "u")] none = .ok (str "PREFIX a<b>c: <u>\n\n") ∧
      statementIsUpdate (str "INSERT DATA \x7b\x7d") = .ok true ∧
      statementIsUpdate (str "PREFIX a<b>c: <u>\n\n" ++ str "INSERT DATA \x7b\x7d") =
        .ok false) := by
  decide

end SparqlClient
